import Mathlib

/-!
# Stormfetch banner renderer: a shallow embedding of `runStormfetch`

The embedding follows `runStormfetch` of `src/src/main.go` and `StripAnsii` of
`src/utils.go`; at the end come the row loop of the older variant
(`readConfig` of `src/main.go`), the template loader `getDistroAsciiArt` and
the line loop of `ReadKeyValueFile` (both of `src/utils.go`).

* Go strings are modelled as lists of Unicode code points (`List Char`), which
  covers every valid UTF-8 string; Go's `len` is the UTF-8 byte length
  (`goLen`).
* Go's regular expressions are modelled by a small backtracking matcher
  (`Re.ms`) that lists the matches in Go's leftmost-first priority order; the
  two patterns of the program are written out as syntax trees.
* `log.Fatal` and run-time panics are the two errors of `Except Err`.
* What the program reads from outside is a parameter: the palette and the
  force flag of the configuration, the art that `GetDistroAsciiArt` returned,
  and the standard output of the fetch script (taken to have run).
-/

namespace Stormfetch

/-- Go strings, as lists of code points. -/
abbrev Str := List Char

/-! ## Go string primitives -/

/-- Number of bytes of the UTF-8 encoding of one code point. -/
def runeLen (c : Char) : Nat :=
  if c.toNat < 0x80 then 1
  else if c.toNat < 0x800 then 2
  else if c.toNat < 0x10000 then 3
  else 4

/-- Go `len(s)`: the length of a string in bytes. -/
def goLen : Str → Nat
  | [] => 0
  | c :: s => runeLen c + goLen s

/-- Go `strings.Split(s, sep)` for a one-character separator. -/
def Split (sep : Char) : Str → List Str
  | [] => [[]]
  | c :: s =>
    if c = sep then [] :: Split sep s
    else
      match Split sep s with
      | [] => [[c]]
      | h :: t => (c :: h) :: t

/-- Go `strings.HasPrefix`. -/
def HasPrefix : Str → Str → Bool
  | _, [] => true
  | [], _ :: _ => false
  | c :: s, d :: p => c == d && HasPrefix s p

/-- Go `strings.TrimPrefix`. -/
def TrimPrefix (s p : Str) : Str :=
  if HasPrefix s p then s.drop p.length else s

/-- Go `strings.TrimRight(s, cutset)`. -/
def TrimRight (s cutset : Str) : Str :=
  (s.reverse.dropWhile (fun c => cutset.contains c)).reverse

/-- Repeated `line = line + " "`. -/
def spaces (n : Nat) : Str := List.replicate n ' '

/-! ## Regular expressions (Go `regexp`, leftmost-first) -/

/-- Regular expression syntax, as far as the two patterns of the program
need it. -/
inductive Re where
  | cls (p : Char → Bool)
  | eps
  | seq (a b : Re)
  | alt (a b : Re)
  | star (a : Re)

/-- One round of a greedy star: every way to run the body once more (making
progress) and go on, then the way that stops here. -/
def starAux (f : Str → List Str) : Nat → Str → List Str
  | 0, s => [s]
  | n + 1, s =>
    ((f s).filter (fun s1 => decide (s1.length < s.length))).flatMap (starAux f n) ++ [s]

/-- All ways the expression matches a prefix of the input, as the list of
remaining inputs, in the order a backtracking search finds them. -/
def Re.ms : Re → Str → List Str
  | .cls _, [] => []
  | .cls p, c :: s => if p c then [s] else []
  | .eps, s => [s]
  | .seq a b, s => (a.ms s).flatMap (fun s1 => b.ms s1)
  | .alt a b, s => a.ms s ++ b.ms s
  | .star a, s => starAux (fun s1 => a.ms s1) s.length s

/-- Greedy `a?`. -/
def Re.opt (a : Re) : Re := .alt a .eps

/-- Greedy `a+`. -/
def Re.plus (a : Re) : Re := .seq a (.star a)

/-- Greedy `a{0,n}`. -/
def Re.upTo (a : Re) : Nat → Re
  | 0 => .eps
  | n + 1 => .opt (.seq a (Re.upTo a n))

/-- Length of the leftmost-first match that starts at the head of the input. -/
def Re.matchLen (r : Re) (s : Str) : Option Nat :=
  (r.ms s).head?.map (fun rest => s.length - rest.length)

/-- Go `ReplaceAllString(s, "")`; the counter is the number of characters of
the current match still to drop. -/
def Re.removeAll (r : Re) : Nat → Str → Str
  | _, [] => []
  | k + 1, _ :: t => r.removeAll k t
  | 0, c :: t =>
    match r.matchLen (c :: t) with
    | some (n + 1) => r.removeAll n t
    | _ => c :: r.removeAll 0 t

/-- Go `FindAllString(s, -1)`; the counter is the number of characters of the
current match still to skip. -/
def Re.findAll (r : Re) : Nat → Str → List Str
  | _, [] => []
  | k + 1, _ :: t => r.findAll k t
  | 0, c :: t =>
    match r.matchLen (c :: t) with
    | some (n + 1) => (c :: t).take (n + 1) :: r.findAll n t
    | _ => r.findAll 0 t

/-- The escape character, `\033` or `\u001B` in the Go sources. -/
def ESC : Char := Char.ofNat 0x1B

/-- The one-character control sequence introducer `\u009B`. -/
def CSI : Char := Char.ofNat 0x9B

/-- The bell character `\u0007`. -/
def BEL : Char := Char.ofNat 0x07

/-- The class `\d` (ASCII digits in Go). -/
def isDigit (c : Char) : Bool := '0' ≤ c && c ≤ '9'

/-- The class `[a-zA-Z\d]`. -/
def isAlnum (c : Char) : Bool :=
  ('a' ≤ c && c ≤ 'z') || ('A' ≤ c && c ≤ 'Z') || isDigit c

/-- The class `[[\]()#;?]` of `StripAnsii`. -/
def isIntro (c : Char) : Bool :=
  c == '[' || c == ']' || c == '(' || c == ')' || c == '#' || c == ';' || c == '?'

/-- The class `[\dA-PRZcf-ntqry=><~]` of `StripAnsii`. -/
def isFinal (c : Char) : Bool :=
  isDigit c || ('A' ≤ c && c ≤ 'P') || c == 'R' || c == 'Z' || c == 'c' ||
    ('f' ≤ c && c ≤ 'n') || c == 't' || c == 'q' || c == 'r' || c == 'y' ||
    c == '=' || c == '>' || c == '<' || c == '~'

/-- The first alternative of `StripAnsii`:
`(?:[a-zA-Z\d]*(?:;[a-zA-Z\d]*)*)?\u0007`. -/
def ansiOsc : Re :=
  .seq
    (.opt (.seq (.star (.cls isAlnum))
      (.star (.seq (.cls (fun c => c == ';')) (.star (.cls isAlnum))))))
    (.cls (fun c => c == BEL))

/-- The second alternative of `StripAnsii`:
`(?:\d{1,4}(?:;\d{0,4})*)?[\dA-PRZcf-ntqry=><~]`. -/
def ansiCsi : Re :=
  .seq
    (.opt (.seq (.seq (.cls isDigit) (Re.upTo (.cls isDigit) 3))
      (.star (.seq (.cls (fun c => c == ';')) (Re.upTo (.cls isDigit) 4)))))
    (.cls isFinal)

/-- The pattern `ansi` of `StripAnsii`. -/
def ansiRe : Re :=
  .seq (.cls (fun c => c == ESC || c == CSI))
    (.seq (.star (.cls isIntro)) (.alt ansiOsc ansiCsi))

/-- `StripAnsii` (utils.go): remove every match of `ansi`. -/
def StripAnsii (str : Str) : Str := ansiRe.removeAll 0 str

/-- The bracket expression `[38;5;[0-9]` of the colour pattern: the pattern
text is `ESC[38;5;[0-9]+m`, in which the first `[` opens a character class
that the first `]` closes. -/
def isColorCls (c : Char) : Bool :=
  c == '3' || c == '8' || c == ';' || c == '5' || c == '[' || isDigit c

/-- The pattern `regexp.MustCompile("\033[38;5;[0-9]+m")` of `runStormfetch`. -/
def colorRe : Re :=
  .seq (.cls (fun c => c == ESC)) (.seq (Re.plus (.cls isColorCls)) (.cls (fun c => c == 'm')))

/-! ## Go library functions used by `runStormfetch` -/

/-- Digits of a decimal literal, most significant first. -/
def parseDigits : Str → Nat → Option Nat
  | [], acc => some acc
  | c :: s, acc =>
    if isDigit c then parseDigits s (acc * 10 + (c.toNat - '0'.toNat)) else none

/-- What `strconv.Atoi` does after the sign: at least one decimal digit,
nothing else, and a value that fits an `int` of 64 bits. -/
def atoiDigits (neg : Bool) (body : Str) : Option Int :=
  match body with
  | [] => none
  | _ :: _ =>
    match parseDigits body 0 with
    | none => none
    | some n =>
      let v : Int := if neg then -(n : Int) else (n : Int)
      if -(2 : Int) ^ 63 ≤ v ∧ v < (2 : Int) ^ 63 then some v else none

/-- Go `strconv.Atoi` on a 64-bit platform: an optional sign, then the
digits. -/
def Atoi : Str → Option Int
  | '-' :: t => atoiDigits true t
  | '+' :: t => atoiDigits false t
  | s => atoiDigits false s

/-- Go `%d` / `strconv.Itoa`: decimal text of an integer. -/
def Itoa : Int → Str
  | .ofNat n => Nat.toDigits 10 n
  | .negSucc n => '-' :: Nat.toDigits 10 (n + 1)

/-- Go `os.isShellSpecialVar`. -/
def isShellSpecialVar (c : Char) : Bool :=
  c == '*' || c == '#' || c == '$' || c == '@' || c == '!' || c == '?' || c == '-' ||
    isDigit c

/-- Go `os.isAlphaNum`. -/
def isAlphaNum (c : Char) : Bool :=
  c == '_' || isDigit c || ('a' ≤ c && c ≤ 'z') || ('A' ≤ c && c ≤ 'Z')

/-- Go `os.getShellName`, on the text after a `$`: the name and the number
of characters it takes. -/
def getShellName : Str → Str × Nat
  | [] => ([], 0)
  | '{' :: t =>
    let special : Bool := match t with
      | c :: '}' :: _ => isShellSpecialVar c
      | _ => false
    if special then (t.take 1, 3)
    else
      match t.indexOf? '}' with
      | none => ([], 1)
      | some 0 => ([], 2)
      | some (i + 1) => (t.take (i + 1), i + 3)
  | c :: t =>
    if isShellSpecialVar c then ([c], 1)
    else
      let name := (c :: t).takeWhile isAlphaNum
      (name, name.length)

/-- Go `os.Expand(s, mapping)`; the counter is the number of characters of
the current `$name` still to skip. -/
def Expand (mapping : Str → Str) : Nat → Str → Str
  | _, [] => []
  | k + 1, _ :: t => Expand mapping k t
  | 0, c :: t =>
    if c == '$' && !t.isEmpty then
      let nw := getShellName t
      (if nw.1.isEmpty then (if nw.2 > 0 then [] else ['$']) else mapping nw.1)
        ++ Expand mapping nw.2 t
    else c :: Expand mapping 0 t

/-! ## The program -/

/-- A Go `map[string]string`; a missing key reads as the empty string. -/
abbrev GoMap := Str → Str

/-- `m[k] = v`. -/
def GoMap.set (m : GoMap) (k v : Str) : GoMap := fun x => if x = k then v else m x

/-- How a run can end early: `log.Fatal`, or a run-time panic (index out of
range). -/
inductive Err where
  | fatal
  | panic
  deriving DecidableEq, Repr

/-- Indexing `xs[i]`, which panics out of range. -/
def idx {α : Type} (xs : List α) (i : Nat) : Except Err α :=
  match xs[i]? with
  | some x => .ok x
  | none => .error .panic

/-- The reset sequence `"\033[0m"`. -/
def reset : Str := [ESC, '[', '0', 'm']

/-- The slot name `"C" + strconv.Itoa(i)`. -/
def slot (i : Nat) : Str := 'C' :: Itoa (Int.ofNat i)

/-- The text `fmt.Sprintf("\033[1m\033[38;5;%dm", c)`. -/
def boldColor (c : Int) : Str :=
  [ESC, '[', '1', 'm', ESC, '[', '3', '8', ';', '5', ';'] ++ Itoa c ++ ['m']

/-- One iteration of the loop of `setColorMap`. -/
def setColorMapStep (colors : List Int) (colorMap : GoMap) (i : Nat) : Except Err GoMap :=
  if (i : Int) > (colors.length : Int) - 1 then
    .ok (colorMap.set (slot (i + 1)) reset)
  else do
    let c ← idx colors i
    .ok (colorMap.set (slot (i + 1)) (boldColor c))

/-- The closure `setColorMap` of `runStormfetch`: `for i := 0; i < 6; i++`. -/
def setColorMap (colors : List Int) (colorMap : GoMap) : Except Err GoMap :=
  (List.range 6).foldlM (setColorMapStep colors) colorMap

/-- The loop `for i, color := range ansiiColors` of `runStormfetch`, on
`config.AnsiiColors`. -/
def applyDirective : List Str → Nat → List Int → Except Err (List Int)
  | [], _, colors => .ok colors
  | color :: rest, i, colors =>
    match Atoi color with
    | none => .error .fatal
    | some atoi =>
      if i < colors.length then applyDirective rest (i + 1) (colors.set i atoi)
      else applyDirective rest (i + 1) (colors ++ [atoi])

/-- The fields of `config` that `runStormfetch` reads. -/
structure StormfetchConfig where
  AnsiiColors : List Int
  ForceConfigAnsii : Bool

/-- What the first part of `runStormfetch` leaves behind: the palette
`config.AnsiiColors`, `colorMap`, and the expanded art `ascii`. -/
structure Expanded where
  AnsiiColors : List Int
  colorMap : GoMap
  ascii : Str

/-- The map after `colorMap["C0"] = "\033[0m"`. -/
def colorMap0 : GoMap := GoMap.set (fun _ => []) ['C', '0'] reset

/-- Lines 192-230 of `runStormfetch`: palette, directive and expansion of the
art `ascii` that `GetDistroAsciiArt` returned. -/
def expandArt (config : StormfetchConfig) (ascii : Str) : Except Err Expanded := do
  let colorMap ← setColorMap config.AnsiiColors colorMap0
  if HasPrefix ascii ['#', '/'] then
    let firstLine ← idx (Split '\n' ascii) 0
    if !config.ForceConfigAnsii then
      let ansiiColors := Split ';' (TrimPrefix firstLine ['#', '/'])
      let colors ← applyDirective ansiiColors 0 config.AnsiiColors
      let colorMap ← setColorMap colors colorMap
      let ascii := Expand colorMap 0 ascii
      .ok ⟨colors, colorMap, TrimPrefix ascii (firstLine ++ ['\n'])⟩
    else
      let ascii := Expand colorMap 0 ascii
      .ok ⟨config.AnsiiColors, colorMap, TrimPrefix ascii (firstLine ++ ['\n'])⟩
  else
    .ok ⟨config.AnsiiColors, colorMap, Expand colorMap 0 ascii⟩

/-- The values one iteration of the row loop computes. -/
structure Row where
  /-- The carried-over colour `lastAsciiColor`. -/
  lastAsciiColor : Str
  /-- The value of `line` after the padding loop (the blank line when the
  row has no art line). -/
  padded : Str
  /-- The value of `line` at the end of the iteration. -/
  line : Str

/-- The text the iteration appends to `final`, without the newline. -/
def Row.text (r : Row) : Str := r.lastAsciiColor ++ r.line

/-- The part of the row before the reset and the fact text. -/
def Row.preFact (r : Row) : Str := r.lastAsciiColor ++ r.padded

/-- The variables of the row loop: the array `asciiSplit`, the string
`final`, and a record of the rows composed so far. -/
structure LoopState where
  asciiSplit : List Str
  final : Str
  rows : List Row

/-- The loop `for _, line := range strings.Split(asciiNoColor, "\n")` that
computes `maxWidth`. -/
def maxWidthOf (asciiNoColor : Str) : Nat :=
  (Split '\n' asciiNoColor).foldl
    (fun maxWidth line => if goLen line > maxWidth then goLen line else maxWidth) 0

/-- The last element of `r.FindAllString(prev, -1)`, or the empty string
when there is no match. -/
def lastColorOf (prev : Str) : Except Err Str :=
  let found := colorRe.findAll 0 prev
  if found.length ≠ 0 then idx (colorRe.findAll 0 prev) (found.length - 1) else .ok []

/-- The body of the row loop of `runStormfetch` (src/src/main.go), at
`lineIndex`. -/
def composeStep (colorMap : GoMap) (asciiNoColor out : Str) (maxWidth : Nat)
    (st : LoopState) (lineIndex : Nat) : Except Err LoopState := do
  let blank := spaces (maxWidth + 5)
  let (asciiSplit, lastAsciiColor, padded) ←
    (if lineIndex < st.asciiSplit.length then do
      let line ← idx st.asciiSplit lineIndex
      let visible ← idx (Split '\n' asciiNoColor) lineIndex
      let lineVisibleLength := goLen visible
      let lastAsciiColor ←
        (if lineIndex ≠ 0 then do
          let prev ← idx st.asciiSplit (lineIndex - 1)
          lastColorOf prev
        else .ok [])
      let line := line ++ spaces (maxWidth + 5 - lineVisibleLength)
      .ok (st.asciiSplit.set lineIndex (lastAsciiColor ++ line), lastAsciiColor, line)
    else .ok (st.asciiSplit, [], blank) : Except Err (List Str × Str × Str))
  let line ←
    (if lineIndex < (Split '\n' out).length then do
      let fact ← idx (Split '\n' out) lineIndex
      .ok (padded ++ colorMap ['C', '0'] ++ fact)
    else .ok padded : Except Err Str)
  .ok ⟨asciiSplit, st.final ++ (lastAsciiColor ++ line ++ ['\n']),
    st.rows ++ [⟨lastAsciiColor, padded, line⟩]⟩

/-- The loop `for lineIndex := 0; lineIndex < y; lineIndex++`, with `n`
iterations left. -/
def composeLoop (colorMap : GoMap) (asciiNoColor out : Str) (maxWidth : Nat) :
    Nat → Nat → LoopState → Except Err LoopState
  | 0, _, st => .ok st
  | n + 1, lineIndex, st =>
    match composeStep colorMap asciiNoColor out maxWidth st lineIndex with
    | .error e => .error e
    | .ok st1 => composeLoop colorMap asciiNoColor out maxWidth n (lineIndex + 1) st1

/-- What the layout leaves: `maxWidth`, the rows, and the block
`strings.TrimRight(final, "\n\t ") + "\033[0m"` that `fmt.Println` prints. -/
structure Composed where
  maxWidth : Nat
  rows : List Row
  block : Str

/-- Lines 231-286 of `runStormfetch`: the layout of the expanded art `ascii`
beside the output `out` of the fetch script. -/
def compose (colorMap : GoMap) (ascii out : Str) : Except Err Composed := do
  let asciiSplit := Split '\n' ascii
  let asciiNoColor := StripAnsii ascii
  let maxWidth := maxWidthOf asciiNoColor
  let y :=
    if asciiSplit.length < (Split '\n' out).length then (Split '\n' out).length
    else asciiSplit.length
  let st ← composeLoop colorMap asciiNoColor out maxWidth y 0 ⟨asciiSplit, [], []⟩
  .ok ⟨maxWidth, st.rows, TrimRight st.final ['\n', '\t', ' '] ++ reset⟩

/-- The whole of `runStormfetch`, given the art that `GetDistroAsciiArt`
returned and the standard output `out` of the fetch script. -/
def runStormfetch (config : StormfetchConfig) (ascii out : Str) : Except Err Composed := do
  let e ← expandArt config ascii
  compose e.colorMap e.ascii out

/-! ## The older program variant (src/main.go) -/

/-- The body of the loop `for lineIndex, line := range asciiSplit` of
`readConfig` (src/main.go, lines 155-174), at `lineIndex`. -/
def readConfigStep (colorMap : GoMap) (asciiNoColor out : Str) (maxWidth : Nat)
    (st : LoopState) (lineIndex : Nat) : Except Err LoopState := do
  let line ← idx st.asciiSplit lineIndex
  let visible ← idx (Split '\n' asciiNoColor) lineIndex
  let lineVisibleLength := goLen visible
  let lastAsciiColor ←
    (if lineIndex ≠ 0 then do
      let prev ← idx st.asciiSplit (lineIndex - 1)
      lastColorOf prev
    else .ok [] : Except Err Str)
  let padded := line ++ spaces (maxWidth + 5 - lineVisibleLength)
  let asciiSplit := st.asciiSplit.set lineIndex (lastAsciiColor ++ padded)
  let line ←
    (if lineIndex < (Split '\n' out).length then do
      let fact ← idx (Split '\n' out) lineIndex
      .ok (padded ++ colorMap ['C', '0'] ++ fact)
    else .ok padded : Except Err Str)
  .ok ⟨asciiSplit, st.final ++ (lastAsciiColor ++ line ++ ['\n']),
    st.rows ++ [⟨lastAsciiColor, padded, line⟩]⟩

/-- The range loop over `asciiSplit`, with `n` iterations left. -/
def readConfigLoop (colorMap : GoMap) (asciiNoColor out : Str) (maxWidth : Nat) :
    Nat → Nat → LoopState → Except Err LoopState
  | 0, _, st => .ok st
  | n + 1, lineIndex, st =>
    match readConfigStep colorMap asciiNoColor out maxWidth st lineIndex with
    | .error e => .error e
    | .ok st1 => readConfigLoop colorMap asciiNoColor out maxWidth n (lineIndex + 1) st1

/-- Lines 132-175 of `readConfig` (src/main.go): the layout of the expanded
art `ascii` beside the output `out` of the fetch script; the result is the
text `final` that `fmt.Println` prints. -/
def readConfigLayout (colorMap : GoMap) (ascii out : Str) : Except Err Str := do
  let asciiSplit := Split '\n' ascii
  let asciiNoColor := StripAnsii ascii
  let maxWidth := maxWidthOf asciiNoColor
  let st ← readConfigLoop colorMap asciiNoColor out maxWidth asciiSplit.length 0
    ⟨asciiSplit, [], []⟩
  .ok st.final

/-! ## The key-value file parser (src/utils.go) -/

/-- Go `strings.HasSuffix`. -/
def HasSuffix (s p : Str) : Bool := HasPrefix s.reverse p.reverse

/-- Go `strings.SplitN(s, sep, 2)` for a one-character separator: the text
before the first separator and the text after it, or `s` alone. -/
def SplitN2 (sep : Char) (s : Str) : List Str :=
  if sep ∈ s then [s.takeWhile (fun c => c != sep), (s.dropWhile (fun c => c != sep)).drop 1]
  else [s]

/-- The first `n` bytes of a string, for `n` at a character boundary. -/
def takeBytes : Str → Nat → Str
  | [], _ => []
  | c :: s, n => if n = 0 then [] else c :: takeBytes s (n - runeLen c)

/-- A string without its first `n` bytes, for `n` at a character boundary. -/
def dropBytes : Str → Nat → Str
  | [], _ => []
  | c :: s, n => if n = 0 then c :: s else dropBytes s (n - runeLen c)

/-- Go slice expression `s[lo:hi]` on a string: a run-time panic unless
`0 <= lo <= hi <= len(s)`. -/
def slice (s : Str) (lo hi : Int) : Except Err Str :=
  if 0 ≤ lo ∧ lo ≤ hi ∧ hi ≤ (goLen s : Int) then
    .ok (takeBytes (dropBytes s lo.toNat) (hi - lo).toNat)
  else .error .panic

/-- A Go `map[string]string` with its presence test: `none` for a missing
key. -/
abbrev KVMap := Str → Option Str

/-- The assignment `ret[key] = value`. -/
def KVMap.set (m : KVMap) (key value : Str) : KVMap :=
  fun x => if x = key then some value else m x

/-- The body of the loop `for _, line := range lines` of `ReadKeyValueFile`
(src/utils.go, lines 408-415). -/
def readKeyValueLine (ret : KVMap) (line : Str) : Except Err KVMap :=
  if (Split '=' line).length ≥ 2 then do
    let key ← idx (SplitN2 '=' line) 0
    let value ← idx (SplitN2 '=' line) 1
    let value ←
      (if HasPrefix value ['"'] && HasSuffix value ['"'] then
        slice value 1 ((goLen value : Int) - 1)
      else .ok value : Except Err Str)
    .ok (ret.set key value)
  else .ok ret

/-- The loop over the lines. -/
def readKeyValueLines (ret : KVMap) : List Str → Except Err KVMap
  | [] => .ok ret
  | line :: rest =>
    match readKeyValueLine ret line with
    | .error e => .error e
    | .ok ret1 => readKeyValueLines ret1 rest

/-- Lines 405-417 of `ReadKeyValueFile`, on the content `str` of the file. -/
def ReadKeyValueFile (str : Str) : Except Err KVMap :=
  readKeyValueLines (fun _ => none) (Split '\n' str)

/-! ## The template loader (src/utils.go) -/

/-- What the file system answers at one path: whether `os.Stat` returns no
error, and what `os.ReadFile` returns (`none` for an error). -/
structure Candidate where
  statOk : Bool
  readFile : Option Str

/-- The whole of `ReadKeyValueFile(filepath)` (src/utils.go, lines 396-418),
over what the file system answers at `filepath`; `none` stands for the
returned error. -/
def ReadKeyValueFileAt (file : Candidate) : Except Err (Option KVMap) :=
  if !file.statOk then .ok none
  else
    match file.readFile with
    | none => .ok none
    | some str =>
      match ReadKeyValueFile str with
      | .error e => .error e
      | .ok ret => .ok (some ret)

/-- The field `ID` of the Go struct `DistroInfo`; the fields `LongName` and
`ShortName` have no part in the choice of the template. -/
structure DistroInfo where
  ID : Str

/-- The function `getDistroInfo` (src/utils.go, lines 30-57), as far as the
field `ID` goes, over what the file system answers at `/etc/os-release`. -/
def getDistroInfo (osRelease : Candidate) : Except Err DistroInfo :=
  let info : DistroInfo := ⟨"unknown".toList⟩
  if osRelease.statOk then
    match ReadKeyValueFileAt osRelease with
    | .error e => .error e
    | .ok none => .ok info
    | .ok (some releaseMap) =>
      match releaseMap "ID".toList with
      | some id => .ok ⟨id⟩
      | none => .ok info
  else .ok info

/-- The file system as `getDistroAsciiArt` sees it: the file
`/etc/os-release`, whether `os.UserConfigDir` returns no error, and for every
template id the candidate at `path.Join(userConfDir, "stormfetch/ascii/", id)`
and the candidate at `path.Join("/etc/stormfetch/ascii/", id)`. -/
structure TemplateFS where
  osRelease : Candidate
  userConfigDirOk : Bool
  user : Str → Candidate
  system : Str → Candidate

/-- The built-in template `defaultAscii` of `getDistroAsciiArt`. -/
def defaultAscii : Str :=
  ("    .--.\n" ++
   "   |o_o |\n" ++
   "   |:_/ |\n" ++
   "  //   \\ \\\n" ++
   " (|     | )\n" ++
   "/\x27\\_   _/\x27\\\n" ++
   "\\___)=(___/ ").toList

/-- Lines 68-73 of `getDistroAsciiArt`: the template id, from `config.Ascii`
(`configAscii`). -/
def templateId (configAscii : Str) (fs : TemplateFS) : Except Err Str :=
  if configAscii = "auto".toList then
    match getDistroInfo fs.osRelease with
    | .error e => .error e
    | .ok info => .ok info.ID
  else .ok configAscii

/-- Lines 74-100 of `getDistroAsciiArt`: the template for the id `id`. -/
def loadTemplate (fs : TemplateFS) (id : Str) : Str :=
  if !fs.userConfigDirOk then
    if (fs.system id).statOk then
      match (fs.system id).readFile with
      | none => defaultAscii
      | some bytes => bytes
    else defaultAscii
  else if (fs.user id).statOk then
    match (fs.user id).readFile with
    | none => defaultAscii
    | some bytes => bytes
  else if (fs.system id).statOk then
    match (fs.system id).readFile with
    | none => defaultAscii
    | some bytes => TrimRight bytes ['\n', '\t', ' ']
  else defaultAscii

/-- The function `getDistroAsciiArt` (src/utils.go, lines 59-101), for the
configured `config.Ascii`; a run-time panic of the os-release parse is the
error of the result. -/
def getDistroAsciiArt (configAscii : Str) (fs : TemplateFS) : Except Err Str :=
  match templateId configAscii fs with
  | .error e => .error e
  | .ok id => .ok (loadTemplate fs id)

/-! ## Definitions used to state the properties -/

/-- No character class of the expression accepts `b`. -/
def Re.avoids (b : Char) : Re → Bool
  | .cls p => !p b
  | .eps => true
  | .seq x y => x.avoids b && y.avoids b
  | .alt x y => x.avoids b && y.avoids b
  | .star x => x.avoids b

/-- The last match of the colour pattern in `prev`, empty when there is
none. -/
def lastMatch (prev : Str) : Str := ((colorRe.findAll 0 prev).getLast?).getD []

/-- Row `i` in closed form, from the art lines `L`, their stripped forms `S`,
the fact lines `F`, and the composed art of the row before. -/
def specRow (C0 : Str) (L S F : List Str) (W : Nat) (prevPre : Str) (i : Nat) : Row :=
  let last : Str := if i < L.length ∧ i ≠ 0 then lastMatch prevPre else []
  let padded : Str :=
    if i < L.length then L.getD i [] ++ spaces (W + 5 - goLen (S.getD i []))
    else spaces (W + 5)
  let line : Str := if i < F.length then padded ++ C0 ++ F.getD i [] else padded
  ⟨last, padded, line⟩

/-- Rows `i`, `i+1`, ..., `i+n-1` in closed form. -/
def specRows (C0 : Str) (L S F : List Str) (W : Nat) : Nat → Nat → Str → List Row
  | 0, _, _ => []
  | n + 1, i, prevPre =>
    specRow C0 L S F W prevPre i ::
      specRows C0 L S F W n (i + 1) (specRow C0 L S F W prevPre i).preFact

/-- The text of `final` after the rows: every row followed by a newline. -/
def rowsText (rows : List Row) : Str := rows.flatMap (fun r => r.text ++ ['\n'])

/-- The characters `strings.TrimRight(final, "\n\t ")` removes. -/
def cutset : Str := ['\n', '\t', ' ']

/-- Number of lines of a text. -/
def lineCount (s : Str) : Nat := (Split '\n' s).length

/-- The escape a slot gets from position `i` of the palette. -/
def slotValue (colors : List Int) (i : Nat) : Str :=
  match colors[i]? with
  | some c => boldColor c
  | none => reset

/-- The map `setColorMap` leaves behind, slot by slot. -/
def paletteMap (colors : List Int) (colorMap : GoMap) : GoMap :=
  (((((colorMap.set (slot 1) (slotValue colors 0)).set (slot 2) (slotValue colors 1)).set
    (slot 3) (slotValue colors 2)).set (slot 4) (slotValue colors 3)).set
    (slot 5) (slotValue colors 4)).set (slot 6) (slotValue colors 5)

/-- The first line `strings.Split(ascii, "\n")[0]`. -/
def firstLineOf (ascii : Str) : Str := (Split '\n' ascii).headD []

/-- The segments `strings.Split(strings.TrimPrefix(firstLine, "#/"), ";")`. -/
def directiveSegments (ascii : Str) : List Str :=
  Split ';' (TrimPrefix (firstLineOf ascii) ['#', '/'])

/-- The template of the end-to-end example, as the specification writes it. -/
def exampleTemplate : Str := "#/1;2\nC1Hi\nC2Yo".toList

/-- The template of the end-to-end example with the placeholders in the
form `os.Expand` reads. -/
def exampleTemplateBraced : Str := "#/1;2\n$\x7bC1\x7dHi\n$\x7bC2\x7dYo".toList

/-- The output block of the end-to-end example. -/
def exampleOut : Str := "fact1\nfact2".toList

/-- The part of `ansi` before its last character class, when the first
alternative (the one that ends in BEL) is left out. -/
def ansiHead : Re :=
  .seq (.cls (fun c => c == ESC || c == CSI))
    (.seq (.star (.cls isIntro))
      (.opt (.seq (.seq (.cls isDigit) (Re.upTo (.cls isDigit) 3))
        (.star (.seq (.cls (fun c => c == ';')) (Re.upTo (.cls isDigit) 4))))))

/-- The 256-colour foreground sequence `ESC[38;5;<digits>m`. -/
def color256 (digits : Str) : Str :=
  [ESC, '[', '3', '8', ';', '5', ';'] ++ digits ++ ['m']

/-- The first way the expression matches at the head of `s` leaves `x`. -/
def First (r : Re) (s x : Str) : Prop := ∃ tl, r.ms s = x :: tl

/-- Expanded art with a block glyph (three bytes, one character). -/
def artGlyph : Str := [Char.ofNat 0x2588, '\n', 'a', 'b']

/-- Expanded art of one line, the block glyph alone. -/
def artGlyphLine : Str := [Char.ofNat 0x2588]

/-- Expanded art whose first line sets the colour 12345. -/
def artWide : Str := "\x1b[1m\x1b[38;5;12345mab\ncd".toList

/-- Expanded art whose second line has no colour sequence. -/
def artCarry : Str := "\x1b[38;5;1mA\nB\nC".toList

/-- Expanded art whose second line holds a BEL character. -/
def artBel : Str := "\x1b[38;5;1mX\nab\x07cd".toList

/-- Go `strings.Join(lines, "\n")`. -/
def joinLines (lines : List Str) : Str := List.intercalate ['\n'] lines

/-- The text of a line before its first `=`. -/
def keyOf (line : Str) : Str := line.takeWhile (fun c => c != '=')

/-- The text of a line after its first `=`. -/
def valueOf (line : Str) : Str := (line.dropWhile (fun c => c != '=')).drop 1

/-- A value that starts with a double quote and ends with one. -/
def quoted (v : Str) : Bool := HasPrefix v ['"'] && HasSuffix v ['"']

/-- The value with one pair of enclosing double quotes removed. -/
def unquote (v : Str) : Str := if quoted v then (v.drop 1).dropLast else v

/-- The assignments the lines make, in order: a line containing `=` maps its
key to its unquoted value, a later line overwriting an earlier one with the
same key; a line without `=` changes nothing. -/
def assignLines (ret : KVMap) : List Str → KVMap
  | [] => ret
  | line :: rest =>
    assignLines (if '=' ∈ line then ret.set (keyOf line) (unquote (valueOf line)) else ret) rest

/-- A line whose value is a double quote alone, as in `KEY="`. -/
def loneQuote (line : Str) : Bool := decide ('=' ∈ line) && decide (valueOf line = ['"'])

/-- The candidates for the template id `id` in the order `getDistroAsciiArt`
tries them, each with what is done to its content: the user-level one only
when the user configuration directory is known, and the system-level content
trimmed when it comes second. -/
def candidates (fs : TemplateFS) (id : Str) : List (Candidate × (Str → Str)) :=
  if fs.userConfigDirOk then
    [(fs.user id, fun t => t), (fs.system id, fun t => TrimRight t cutset)]
  else [(fs.system id, fun t => t)]

/-- The template decided by the first candidate that `os.Stat` locates: its
content when it can be read, the built-in default when it cannot or when no
candidate is located. -/
def firstLocated (fs : TemplateFS) (id : Str) : Str :=
  match (candidates fs id).find? (fun c => c.1.statOk) with
  | none => defaultAscii
  | some c =>
    match c.1.readFile with
    | none => defaultAscii
    | some t => c.2 t

/-- A file system whose user-level template exists but cannot be read, beside
a readable system-level template with the content "Tux"; there is no
`/etc/os-release`. -/
def fsUnreadableUser : TemplateFS :=
  ⟨⟨false, none⟩, true, fun _ => ⟨true, none⟩, fun _ => ⟨true, some ['T', 'u', 'x']⟩⟩

/-- The value the os-release content `str` gives the key `ID`, or "unknown". -/
def releaseId (str : Str) : Str :=
  match assignLines (fun _ => none) (Split '\n' str) "ID".toList with
  | some id => id
  | none => "unknown".toList

/-! ## The matcher: what a match can consume -/

theorem starAux_suffix (f : Str → List Str) (hf : ∀ s x, x ∈ f s → x <:+ s) :
    ∀ (n : Nat) (s x : Str), x ∈ starAux f n s → x <:+ s := by
  intro n
  induction n with
  | zero =>
    intro s x hx
    simp [starAux] at hx
    subst hx
    exact List.suffix_refl _
  | succ n ih =>
    intro s x hx
    simp only [starAux, List.mem_append, List.mem_flatMap, List.mem_filter,
      List.mem_singleton] at hx
    rcases hx with ⟨s1, ⟨hs1, _⟩, hx⟩ | hx
    · exact (ih s1 x hx).trans (hf s s1 hs1)
    · subst hx
      exact List.suffix_refl _

theorem ms_suffix : ∀ (r : Re) (s x : Str), x ∈ r.ms s → x <:+ s := by
  intro r
  induction r with
  | cls p =>
    intro s x hx
    cases s with
    | nil => simp [Re.ms] at hx
    | cons c s =>
      simp only [Re.ms] at hx
      split at hx
      · simp at hx
        subst hx
        exact List.suffix_cons _ _
      · simp at hx
  | eps =>
    intro s x hx
    simp [Re.ms] at hx
    subst hx
    exact List.suffix_refl _
  | seq a b iha ihb =>
    intro s x hx
    simp only [Re.ms, List.mem_flatMap] at hx
    obtain ⟨s1, hs1, hx⟩ := hx
    exact (ihb s1 x hx).trans (iha s s1 hs1)
  | alt a b iha ihb =>
    intro s x hx
    simp only [Re.ms, List.mem_append] at hx
    rcases hx with hx | hx
    · exact iha s x hx
    · exact ihb s x hx
  | star a iha =>
    intro s x hx
    simp only [Re.ms] at hx
    exact starAux_suffix _ iha _ s x hx

theorem starAux_barrier (f : Str → List Str) (b : Char) (t : Str)
    (hlen : ∀ s x, x ∈ f s → x.length ≤ s.length)
    (hf : ∀ s, f (s ++ b :: t) = (f s).map (fun x => x ++ b :: t)) :
    ∀ (n : Nat) (s : Str), s.length ≤ n →
      starAux f (n + (t.length + 1)) (s ++ b :: t)
        = (starAux f n s).map (fun x => x ++ b :: t) := by
  intro n
  induction n with
  | zero =>
    intro s hn
    have hs : s = [] := List.length_eq_zero.mp (Nat.le_zero.mp hn)
    subst hs
    have hfilter : (f ([] ++ b :: t)).filter
        (fun s1 => decide (s1.length < ([] ++ b :: t : Str).length)) = [] := by
      rw [hf, List.filter_eq_nil_iff]
      intro x hx
      simp only [List.mem_map] at hx
      obtain ⟨x0, hx0, rfl⟩ := hx
      have := hlen [] x0 hx0
      simp at this
      subst this
      simp
    have hfuel : 0 + (t.length + 1) = t.length + 1 := by omega
    rw [hfuel]
    simp only [starAux, hfilter]
    simp
  | succ n ih =>
    intro s hn
    have hfuel : n + 1 + (t.length + 1) = (n + (t.length + 1)) + 1 := by omega
    rw [hfuel]
    simp only [starAux, hf, List.map_append, List.map_cons, List.map_nil]
    congr 1
    rw [List.filter_map, List.flatMap_map, List.map_flatMap]
    have hp : ((fun s1 : Str => decide (s1.length < (s ++ b :: t).length)) ∘
        (fun x : Str => x ++ b :: t)) = (fun s1 : Str => decide (s1.length < s.length)) := by
      funext x
      simp
    rw [hp]
    apply List.flatMap_congr
    intro x hx
    simp only [List.mem_filter, decide_eq_true_eq] at hx
    exact ih x (by omega)

theorem ms_barrier (b : Char) (t : Str) :
    ∀ (r : Re), r.avoids b = true → ∀ s : Str, r.ms (s ++ b :: t) = (r.ms s).map (fun x => x ++ b :: t) := by
  intro r
  induction r with
  | cls p =>
    intro h s
    cases s with
    | nil =>
      have hb : p b = false := by simpa [Re.avoids] using h
      simp [Re.ms, hb]
    | cons c s =>
      simp only [Re.ms, List.cons_append]
      split <;> simp
  | eps =>
    intro _ s
    simp [Re.ms]
  | seq x y ihx ihy =>
    intro h s
    simp only [Re.avoids, Bool.and_eq_true] at h
    obtain ⟨hx, hy⟩ := h
    simp only [Re.ms, ihx hx, List.flatMap_map, List.map_flatMap]
    apply List.flatMap_congr
    intro s1 _
    exact ihy hy s1
  | alt x y ihx ihy =>
    intro h s
    simp only [Re.avoids, Bool.and_eq_true] at h
    obtain ⟨hx, hy⟩ := h
    simp only [Re.ms, ihx hx, ihy hy, List.map_append]
  | star x ihx =>
    intro h s
    have hx : x.avoids b = true := h
    simp only [Re.ms]
    have hl : (s ++ b :: t).length = s.length + (t.length + 1) := by simp
    rw [hl]
    exact starAux_barrier (fun s1 => x.ms s1) b t
      (fun s0 x0 h0 => (ms_suffix x s0 x0 h0).length_le) (ihx hx) s.length s (Nat.le_refl _)

theorem matchLen_le (r : Re) (s : Str) (n : Nat) (h : r.matchLen s = some n) :
    n ≤ s.length := by
  unfold Re.matchLen at h
  cases hh : (r.ms s).head? with
  | none => simp [hh] at h
  | some rest =>
    simp [hh] at h
    omega

theorem matchLen_barrier (r : Re) (b : Char) (t : Str) (hr : r.avoids b = true) (s : Str) :
    r.matchLen (s ++ b :: t) = r.matchLen s := by
  unfold Re.matchLen
  rw [ms_barrier b t r hr s]
  cases hh : (r.ms s).head? with
  | none =>
    have : r.ms s = [] := by simpa using hh
    simp [this]
  | some rest =>
    have hsuf : rest.length ≤ s.length := by
      have hmem : rest ∈ r.ms s := List.mem_of_mem_head? hh
      exact (ms_suffix r s rest hmem).length_le
    cases hms : r.ms s with
    | nil => simp [hms] at hh
    | cons x xs =>
      simp [hms] at hh
      subst hh
      simp
      omega

/-- A character that the expression cannot consume splits the removal of
matches in two. -/
theorem removeAll_barrier (r : Re) (b : Char) (t : Str) (hr : r.avoids b = true) :
    ∀ (s : Str) (k : Nat), k ≤ s.length →
      r.removeAll k (s ++ b :: t) = r.removeAll k s ++ b :: r.removeAll 0 t := by
  intro s
  induction s with
  | nil =>
    intro k hk
    have hk0 : k = 0 := by simpa using hk
    subst hk0
    have hm : r.matchLen (b :: t) = r.matchLen [] := matchLen_barrier r b t hr []
    have hle := matchLen_le r []
    simp only [List.nil_append, Re.removeAll]
    cases hh : r.matchLen [] with
    | none => simp [hm, hh]
    | some n =>
      have := hle n hh
      simp at this
      subst this
      simp [hm, hh]
  | cons c s ih =>
    intro k hk
    cases k with
    | succ k =>
      simp only [List.cons_append, Re.removeAll]
      exact ih k (by simpa using hk)
    | zero =>
      have hm : r.matchLen (c :: (s ++ b :: t)) = r.matchLen (c :: s) :=
        matchLen_barrier r b t hr (c :: s)
      show r.removeAll 0 (c :: (s ++ b :: t)) = r.removeAll 0 (c :: s) ++ b :: r.removeAll 0 t
      simp only [Re.removeAll]
      rw [hm]
      cases hh : r.matchLen (c :: s) with
      | none => simp [ih 0 (Nat.zero_le _)]
      | some n =>
        cases n with
        | zero => simp [ih 0 (Nat.zero_le _)]
        | succ n =>
          have := matchLen_le r (c :: s) (n + 1) hh
          simp at this
          simp [ih n this]

theorem removeAll_mem (r : Re) : ∀ (s : Str) (k : Nat) (c : Char),
    c ∈ r.removeAll k s → c ∈ s := by
  intro s
  induction s with
  | nil => intro k c h; cases k <;> simp [Re.removeAll] at h
  | cons d s ih =>
    intro k c h
    cases k with
    | succ k =>
      simp only [Re.removeAll] at h
      exact List.mem_cons_of_mem _ (ih k c h)
    | zero =>
      simp only [Re.removeAll] at h
      split at h
      · exact List.mem_cons_of_mem _ (ih _ c h)
      · rcases List.mem_cons.mp h with h | h
        · subst h; exact List.mem_cons_self _ _
        · exact List.mem_cons_of_mem _ (ih 0 c h)

theorem findAll_mem (r : Re) : ∀ (s : Str) (k : Nat) (m : Str) (c : Char),
    m ∈ r.findAll k s → c ∈ m → c ∈ s := by
  intro s
  induction s with
  | nil => intro k m c h; cases k <;> simp [Re.findAll] at h
  | cons d s ih =>
    intro k m c h hc
    cases k with
    | succ k =>
      simp only [Re.findAll] at h
      exact List.mem_cons_of_mem _ (ih k m c h hc)
    | zero =>
      simp only [Re.findAll] at h
      split at h
      · rcases List.mem_cons.mp h with h | h
        · subst h
          exact List.mem_of_mem_take hc
        · exact List.mem_cons_of_mem _ (ih _ m c h hc)
      · exact List.mem_cons_of_mem _ (ih 0 m c h hc)

theorem ansiRe_avoids_newline : ansiRe.avoids '\n' = true := by decide

theorem ansiRe_avoids_space : ansiRe.avoids ' ' = true := by decide

theorem StripAnsii_barrier (b : Char) (hb : ansiRe.avoids b = true) (s t : Str) :
    StripAnsii (s ++ b :: t) = StripAnsii s ++ b :: StripAnsii t :=
  removeAll_barrier ansiRe b t hb s 0 (Nat.zero_le _)

theorem StripAnsii_spaces (n : Nat) : StripAnsii (spaces n) = spaces n := by
  induction n with
  | zero => rfl
  | succ n ih =>
    have h := StripAnsii_barrier ' ' ansiRe_avoids_space [] (spaces n)
    simp only [List.nil_append] at h
    have h0 : StripAnsii [] = [] := rfl
    rw [show spaces (n + 1) = ' ' :: spaces n from rfl, h, ih, h0]
    rfl

theorem StripAnsii_append_spaces (s : Str) (n : Nat) :
    StripAnsii (s ++ spaces n) = StripAnsii s ++ spaces n := by
  cases n with
  | zero => simp [spaces]
  | succ n =>
    rw [show spaces (n + 1) = ' ' :: spaces n from rfl,
      StripAnsii_barrier ' ' ansiRe_avoids_space, StripAnsii_spaces]

/-! ## Lines -/

theorem Split_ne_nil (sep : Char) : ∀ s : Str, Split sep s ≠ [] := by
  intro s
  induction s with
  | nil => simp [Split]
  | cons c s ih =>
    simp only [Split]
    split
    · simp
    · split <;> simp

theorem Split_of_not_mem (sep : Char) : ∀ a : Str, sep ∉ a → Split sep a = [a] := by
  intro a
  induction a with
  | nil => intro _; rfl
  | cons c a ih =>
    intro h
    have hc : c ≠ sep := fun e => h (by simp [e])
    have ha : sep ∉ a := fun e => h (List.mem_cons_of_mem _ e)
    simp [Split, hc, ih ha]

theorem Split_append_sep (sep : Char) (b : Str) :
    ∀ a : Str, sep ∉ a → Split sep (a ++ sep :: b) = a :: Split sep b := by
  intro a
  induction a with
  | nil => intro _; simp [Split]
  | cons c a ih =>
    intro h
    have hc : c ≠ sep := fun e => h (by simp [e])
    have ha : sep ∉ a := fun e => h (List.mem_cons_of_mem _ e)
    simp [Split, hc, ih ha]

theorem Str_decompose (sep : Char) : ∀ s : Str,
    sep ∉ s ∨ ∃ a b, s = a ++ sep :: b ∧ sep ∉ a := by
  intro s
  induction s with
  | nil => left; simp
  | cons c s ih =>
    by_cases hc : c = sep
    · right
      exact ⟨[], s, by simp [hc], by simp⟩
    · rcases ih with h | ⟨a, b, hs, ha⟩
      · left
        intro hmem
        rcases List.mem_cons.mp hmem with e | e
        · exact hc e.symm
        · exact h e
      · right
        refine ⟨c :: a, b, by simp [hs], ?_⟩
        intro hmem
        rcases List.mem_cons.mp hmem with e | e
        · exact hc e.symm
        · exact ha e

/-- Induction over a text line by line. -/
theorem lines_induction (sep : Char) (P : Str → Prop)
    (h1 : ∀ a, sep ∉ a → P a)
    (h2 : ∀ a b, sep ∉ a → P b → P (a ++ sep :: b)) : ∀ s, P s := by
  intro s
  generalize hn : s.length = n
  induction n using Nat.strong_induction_on generalizing s with
  | _ n ih =>
    rcases Str_decompose sep s with h | ⟨a, b, hs, ha⟩
    · exact h1 s h
    · subst hs
      apply h2 a b ha
      apply ih b.length _ b rfl
      rw [← hn]
      simp
      omega

theorem Split_length (sep : Char) : ∀ s : Str, (Split sep s).length = s.count sep + 1 := by
  apply lines_induction sep
  · intro a ha
    rw [Split_of_not_mem sep a ha, List.count_eq_zero_of_not_mem ha]
    rfl
  · intro a b ha ih
    rw [Split_append_sep sep b a ha, List.count_append, List.count_cons_self,
      List.count_eq_zero_of_not_mem ha, List.length_cons, ih]
    omega

theorem Split_mem_no_sep (sep : Char) : ∀ (s l : Str), l ∈ Split sep s → sep ∉ l := by
  apply lines_induction sep (fun s => ∀ l, l ∈ Split sep s → sep ∉ l)
  · intro a ha l hl
    rw [Split_of_not_mem sep a ha] at hl
    simp at hl
    subst hl
    exact ha
  · intro a b ha ih l hl
    rw [Split_append_sep sep b a ha] at hl
    rcases List.mem_cons.mp hl with e | e
    · subst e; exact ha
    · exact ih l e

theorem Split_mem_subset (sep : Char) : ∀ (s l : Str) (c : Char),
    l ∈ Split sep s → c ∈ l → c ∈ s := by
  apply lines_induction sep (fun s => ∀ l c, l ∈ Split sep s → c ∈ l → c ∈ s)
  · intro a ha l c hl hc
    rw [Split_of_not_mem sep a ha] at hl
    simp at hl
    subst hl
    exact hc
  · intro a b ha ih l c hl hc
    rw [Split_append_sep sep b a ha] at hl
    rcases List.mem_cons.mp hl with e | e
    · subst e
      exact List.mem_append_left _ hc
    · exact List.mem_append_right _ (List.mem_cons_of_mem _ (ih l c e hc))

/-- `StripAnsii` never removes a newline: it works line by line. -/
theorem Split_StripAnsii : ∀ s : Str,
    Split '\n' (StripAnsii s) = (Split '\n' s).map StripAnsii := by
  apply lines_induction '\n'
  · intro a ha
    have hs : '\n' ∉ StripAnsii a := fun h => ha (removeAll_mem ansiRe a 0 _ h)
    rw [Split_of_not_mem _ a ha, Split_of_not_mem _ _ hs]
    rfl
  · intro a b ha ih
    have hs : '\n' ∉ StripAnsii a := fun h => ha (removeAll_mem ansiRe a 0 _ h)
    rw [StripAnsii_barrier '\n' ansiRe_avoids_newline, Split_append_sep _ _ a ha,
      Split_append_sep _ _ _ hs, ih]
    rfl

/-! ## Widths -/

theorem goLen_append (a b : Str) : goLen (a ++ b) = goLen a + goLen b := by
  induction a with
  | nil => simp [goLen]
  | cons c a ih => simp [goLen, ih]; omega

theorem goLen_spaces (n : Nat) : goLen (spaces n) = n := by
  induction n with
  | zero => rfl
  | succ n ih =>
    rw [show spaces (n + 1) = ' ' :: spaces n from rfl]
    simp only [goLen, ih]
    have : runeLen ' ' = 1 := by decide
    omega

theorem foldl_width_ge (xs : List Str) : ∀ init : Nat,
    init ≤ xs.foldl (fun m l => if goLen l > m then goLen l else m) init ∧
    ∀ l ∈ xs, goLen l ≤ xs.foldl (fun m l => if goLen l > m then goLen l else m) init := by
  induction xs with
  | nil => intro init; simp
  | cons x xs ih =>
    intro init
    simp only [List.foldl_cons, List.mem_cons, forall_eq_or_imp]
    obtain ⟨h1, h2⟩ := ih (if goLen x > init then goLen x else init)
    refine ⟨?_, ?_, h2⟩
    · by_cases hx : goLen x > init
      · simp only [hx, if_true] at h1 ⊢; omega
      · simp only [hx, if_false] at h1 ⊢; omega
    · by_cases hx : goLen x > init
      · simp only [hx, if_true] at h1 ⊢; omega
      · simp only [hx, if_false] at h1 ⊢; omega

theorem foldl_width_attained (xs : List Str) : ∀ init : Nat,
    xs.foldl (fun m l => if goLen l > m then goLen l else m) init = init ∨
    ∃ l ∈ xs, goLen l = xs.foldl (fun m l => if goLen l > m then goLen l else m) init := by
  induction xs with
  | nil => intro init; simp
  | cons x xs ih =>
    intro init
    simp only [List.foldl_cons, List.mem_cons, exists_eq_or_imp]
    rcases ih (if goLen x > init then goLen x else init) with h | ⟨l, hl, h⟩
    · by_cases hx : goLen x > init
      · right; left
        rw [h]; simp [hx]
      · left
        rw [h]; simp [hx]
    · right; right
      exact ⟨l, hl, h⟩

/-- The width `maxWidth` is the largest stripped byte length of an art line. -/
theorem maxWidthOf_spec (ascii : Str) :
    (∀ l ∈ Split '\n' ascii, goLen (StripAnsii l) ≤ maxWidthOf (StripAnsii ascii)) ∧
    ∃ l ∈ Split '\n' ascii, goLen (StripAnsii l) = maxWidthOf (StripAnsii ascii) := by
  unfold maxWidthOf
  rw [Split_StripAnsii]
  constructor
  · intro l hl
    exact (foldl_width_ge _ 0).2 _ (List.mem_map_of_mem _ hl)
  · rcases foldl_width_attained ((Split '\n' ascii).map StripAnsii) 0 with h | ⟨l, hl, h⟩
    · cases hs : Split '\n' ascii with
      | nil => exact absurd hs (Split_ne_nil _ _)
      | cons x xs =>
        refine ⟨x, List.mem_cons_self _ _, ?_⟩
        rw [hs] at h
        have := (foldl_width_ge ((x :: xs).map StripAnsii) 0).2 (StripAnsii x)
          (List.mem_map_of_mem _ (List.mem_cons_self _ _))
        omega
    · obtain ⟨l0, hl0, rfl⟩ := List.mem_map.mp hl
      exact ⟨l0, hl0, h⟩

theorem idx_of_getElem? {α : Type} (xs : List α) (i : Nat) (x : α) (h : xs[i]? = some x) :
    idx xs i = .ok x := by
  simp [idx, h]

theorem idx_getD {α : Type} (xs : List α) (i : Nat) (d : α) (h : i < xs.length) :
    idx xs i = .ok (xs.getD i d) := by
  apply idx_of_getElem?
  simp [List.getD, List.getElem?_eq_getElem h]

theorem lastColorOf_eq (prev : Str) : lastColorOf prev = .ok (lastMatch prev) := by
  unfold lastColorOf lastMatch
  by_cases h : (colorRe.findAll 0 prev).length ≠ 0
  · rw [if_pos h]
    apply idx_of_getElem?
    have hlt : (colorRe.findAll 0 prev).length - 1 < (colorRe.findAll 0 prev).length := by omega
    rw [List.getLast?_eq_getElem?, List.getElem?_eq_getElem hlt]
    simp
  · have h0 : colorRe.findAll 0 prev = [] := by
      apply List.length_eq_zero.mp
      omega
    simp [h0]

theorem composeStep_spec (colorMap : GoMap) (asciiNoColor out : Str) (W : Nat)
    (L : List Str) (st : LoopState) (i : Nat) (prevPre : Str)
    (hlen : st.asciiSplit.length = L.length)
    (hcur : st.asciiSplit[i]? = L[i]?)
    (hprev : i ≠ 0 → i < L.length → st.asciiSplit[i - 1]? = some prevPre)
    (hS : L.length ≤ (Split '\n' asciiNoColor).length) :
    composeStep colorMap asciiNoColor out W st i =
      .ok ⟨if i < L.length then
            st.asciiSplit.set i
              (specRow (colorMap ['C', '0']) L (Split '\n' asciiNoColor) (Split '\n' out) W
                prevPre i).preFact
          else st.asciiSplit,
        st.final ++ ((specRow (colorMap ['C', '0']) L (Split '\n' asciiNoColor)
          (Split '\n' out) W prevPre i).text ++ ['\n']),
        st.rows ++ [specRow (colorMap ['C', '0']) L (Split '\n' asciiNoColor)
          (Split '\n' out) W prevPre i]⟩ := by
  unfold composeStep
  by_cases hi : i < L.length
  · have hi1 : i < st.asciiSplit.length := by omega
    have hline : idx st.asciiSplit i = .ok (L.getD i []) := by
      apply idx_of_getElem?
      rw [hcur]
      simp [List.getD, List.getElem?_eq_getElem hi]
    have hvis : idx (Split '\n' asciiNoColor) i = .ok ((Split '\n' asciiNoColor).getD i []) :=
      idx_getD _ _ _ (by omega)
    by_cases h0 : i = 0
    · subst h0
      by_cases hf : 0 < (Split '\n' out).length
      · have hfact := idx_getD (Split '\n' out) 0 [] hf
        simp [hi1, hline, hvis, hf, hfact, specRow, hi, Row.text, Row.preFact, bind,
          Except.bind]
      · simp [hi1, hline, hvis, hf, specRow, hi, Row.text, Row.preFact, bind, Except.bind]
    · have hp : idx st.asciiSplit (i - 1) = .ok prevPre := idx_of_getElem? _ _ _ (hprev h0 hi)
      by_cases hf : i < (Split '\n' out).length
      · have hfact := idx_getD (Split '\n' out) i [] hf
        simp [hi1, hline, hvis, hf, hfact, specRow, hi, Row.text, Row.preFact, bind,
          Except.bind, h0, hp, lastColorOf_eq]
      · simp [hi1, hline, hvis, hf, specRow, hi, Row.text, Row.preFact, bind, Except.bind,
          h0, hp, lastColorOf_eq]
  · have hi1 : ¬ i < st.asciiSplit.length := by omega
    by_cases hf : i < (Split '\n' out).length
    · have hfact := idx_getD (Split '\n' out) i [] hf
      simp [hi1, hf, hfact, specRow, hi, Row.text, Row.preFact, bind, Except.bind]
    · simp [hi1, hf, specRow, hi, Row.text, Row.preFact, bind, Except.bind]

theorem composeLoop_spec (colorMap : GoMap) (asciiNoColor out : Str) (W : Nat)
    (L : List Str) (hS : L.length ≤ (Split '\n' asciiNoColor).length) :
    ∀ (n i : Nat) (st : LoopState) (prevPre : Str),
      st.asciiSplit.length = L.length →
      (∀ j, i ≤ j → st.asciiSplit[j]? = L[j]?) →
      (i ≠ 0 → i < L.length → st.asciiSplit[i - 1]? = some prevPre) →
      ∃ arr, composeLoop colorMap asciiNoColor out W n i st =
        .ok ⟨arr,
          st.final ++ rowsText (specRows (colorMap ['C', '0']) L (Split '\n' asciiNoColor)
            (Split '\n' out) W n i prevPre),
          st.rows ++ specRows (colorMap ['C', '0']) L (Split '\n' asciiNoColor)
            (Split '\n' out) W n i prevPre⟩ := by
  intro n
  induction n with
  | zero =>
    intro i st prevPre _ _ _
    exact ⟨st.asciiSplit, by simp [composeLoop, specRows, rowsText]⟩
  | succ n ih =>
    intro i st prevPre hlen hrest hprev
    have hstep := composeStep_spec colorMap asciiNoColor out W L st i prevPre hlen
      (hrest i (Nat.le_refl _)) hprev hS
    simp only [composeLoop, specRows, hstep]
    generalize specRow (colorMap ['C', '0']) L (Split '\n' asciiNoColor) (Split '\n' out) W
      prevPre i = r
    have h1 : (if i < L.length then st.asciiSplit.set i r.preFact
        else st.asciiSplit).length = L.length := by
      split
      · simp [hlen]
      · exact hlen
    have h2 : ∀ j, i + 1 ≤ j → (if i < L.length then st.asciiSplit.set i r.preFact
        else st.asciiSplit)[j]? = L[j]? := by
      intro j hj
      split
      · rw [List.getElem?_set_ne (by omega)]
        exact hrest j (by omega)
      · exact hrest j (by omega)
    have h3 : i + 1 ≠ 0 → i + 1 < L.length → (if i < L.length then st.asciiSplit.set i r.preFact
        else st.asciiSplit)[i + 1 - 1]? = some r.preFact := by
      intro _ hi
      have hi0 : i < L.length := by omega
      rw [if_pos hi0]
      simp only [Nat.add_sub_cancel]
      rw [List.getElem?_set_self (by omega)]
    obtain ⟨arr, harr⟩ := ih (i + 1)
      ⟨if i < L.length then st.asciiSplit.set i r.preFact else st.asciiSplit,
        st.final ++ (r.text ++ ['\n']), st.rows ++ [r]⟩ r.preFact h1 h2 h3
    refine ⟨arr, ?_⟩
    rw [harr]
    simp [rowsText, List.append_assoc]

/-- The layout never fails, and its rows are the rows of the closed form. -/
theorem compose_spec (colorMap : GoMap) (ascii out : Str) :
    compose colorMap ascii out =
      .ok ⟨maxWidthOf (StripAnsii ascii),
        specRows (colorMap ['C', '0']) (Split '\n' ascii) (Split '\n' (StripAnsii ascii))
          (Split '\n' out) (maxWidthOf (StripAnsii ascii))
          (max (Split '\n' ascii).length (Split '\n' out).length) 0 [],
        TrimRight (rowsText (specRows (colorMap ['C', '0']) (Split '\n' ascii)
          (Split '\n' (StripAnsii ascii)) (Split '\n' out) (maxWidthOf (StripAnsii ascii))
          (max (Split '\n' ascii).length (Split '\n' out).length) 0 [])) ['\n', '\t', ' ']
          ++ reset⟩ := by
  have hS : (Split '\n' ascii).length ≤ (Split '\n' (StripAnsii ascii)).length := by
    rw [Split_StripAnsii, List.length_map]
  have hy : (if (Split '\n' ascii).length < (Split '\n' out).length
      then (Split '\n' out).length else (Split '\n' ascii).length)
      = max (Split '\n' ascii).length (Split '\n' out).length := by
    split <;> omega
  obtain ⟨arr, harr⟩ := composeLoop_spec colorMap (StripAnsii ascii) out
    (maxWidthOf (StripAnsii ascii)) (Split '\n' ascii) hS
    (max (Split '\n' ascii).length (Split '\n' out).length) 0
    ⟨Split '\n' ascii, [], []⟩ [] rfl (fun _ _ => rfl) (fun h => absurd rfl h)
  unfold compose
  simp only [hy, harr, bind, Except.bind]
  simp

/-! ## The rows in closed form -/

theorem specRows_length (C0 : Str) (L S F : List Str) (W : Nat) :
    ∀ (n i : Nat) (p : Str), (specRows C0 L S F W n i p).length = n := by
  intro n
  induction n with
  | zero => intro i p; rfl
  | succ n ih => intro i p; simp [specRows, ih]

/-- Row `i + k` of the closed form: its index, and the composed art before it. -/
theorem specRows_get (C0 : Str) (L S F : List Str) (W : Nat) :
    ∀ (n i : Nat) (p : Str) (k : Nat) (r : Row),
      (specRows C0 L S F W n i p)[k]? = some r →
      ∃ prevPre, r = specRow C0 L S F W prevPre (i + k) ∧
        (k = 0 → prevPre = p) ∧
        (∀ j, k = j + 1 → ∃ q, (specRows C0 L S F W n i p)[j]? = some q ∧ prevPre = q.preFact) := by
  intro n
  induction n with
  | zero => intro i p k r h; simp [specRows] at h
  | succ n ih =>
    intro i p k r h
    cases k with
    | zero =>
      simp [specRows] at h
      exact ⟨p, by simp [h], fun _ => rfl, fun j hj => by omega⟩
    | succ k =>
      simp only [specRows, List.getElem?_cons_succ] at h
      obtain ⟨prevPre, hr, h0, hs⟩ := ih (i + 1) _ k r h
      refine ⟨prevPre, by rw [hr]; congr 1; omega, fun hk => by omega, ?_⟩
      intro j hj
      have hjk : j = k := by omega
      subst hjk
      cases j with
      | zero =>
        refine ⟨specRow C0 L S F W p i, by simp [specRows], h0 rfl⟩
      | succ j =>
        obtain ⟨q, hq, hp⟩ := hs j rfl
        exact ⟨q, by simpa [specRows] using hq, hp⟩

/-- The padded art line of every row strips to exactly `W + 5` bytes, when
`S` holds the stripped art lines and `W` bounds their lengths. -/
theorem specRow_padded_width (C0 : Str) (L F : List Str) (W : Nat) (prevPre : Str) (k : Nat)
    (hW : ∀ l ∈ L, goLen (StripAnsii l) ≤ W) :
    goLen (StripAnsii (specRow C0 L (L.map StripAnsii) F W prevPre k).padded) = W + 5 := by
  unfold specRow
  by_cases hk : k < L.length
  · have hmem : L.getD k [] ∈ L := by
      rw [List.getD_eq_getElem _ _ hk]
      exact List.getElem_mem hk
    have hS : (L.map StripAnsii).getD k [] = StripAnsii (L.getD k []) := by
      rw [List.getD_eq_getElem _ _ hk, List.getD_eq_getElem _ _ (by simpa using hk)]
      simp
    have := hW _ hmem
    simp only [hk, if_true, hS, StripAnsii_append_spaces, goLen_append, goLen_spaces]
    omega
  · simp only [hk, if_false, StripAnsii_spaces, goLen_spaces]

/-! ## Trimming and counting lines -/

theorem dropWhile_append_stop (p : Char → Bool) (c : Char) (B : Str) (hc : p c = false) :
    ∀ A : Str, (A ++ c :: B).dropWhile p = A.dropWhile p ++ c :: B := by
  intro A
  induction A with
  | nil => simp [List.dropWhile, hc]
  | cons a A ih =>
    by_cases ha : p a = true
    · simp [List.dropWhile, ha, ih]
    · simp [List.dropWhile, ha]

theorem TrimRight_append_cut (X cut : Str) (c : Char) (hc : c ∈ cut) :
    TrimRight (X ++ [c]) cut = TrimRight X cut := by
  unfold TrimRight
  simp [List.dropWhile, hc]

theorem TrimRight_append_stop (X Y cut : Str) (c : Char) (hc : c ∉ cut) :
    TrimRight (X ++ c :: Y) cut = X ++ c :: TrimRight Y cut := by
  unfold TrimRight
  rw [List.reverse_append, List.reverse_cons, List.append_assoc, List.singleton_append,
    dropWhile_append_stop _ c _ (by simpa using hc)]
  simp

theorem TrimRight_initial (Y cut : Str) : TrimRight Y cut <+: Y := by
  unfold TrimRight
  have h := List.dropWhile_suffix (fun c => cut.contains c) (l := Y.reverse)
  have := List.reverse_prefix.mpr h
  simpa using this

theorem TrimRight_count_le (Y cut : Str) (c : Char) :
    (TrimRight Y cut).count c ≤ Y.count c :=
  (TrimRight_initial Y cut).sublist.count_le c

theorem TrimRight_not_mem (Y cut : Str) (c : Char) (h : c ∉ Y) : c ∉ TrimRight Y cut :=
  fun hm => h ((TrimRight_initial Y cut).subset hm)

theorem lastMatch_mem (prev : Str) (c : Char) (h : c ∈ lastMatch prev) : c ∈ prev := by
  unfold lastMatch at h
  cases hl : (colorRe.findAll 0 prev).getLast? with
  | none => simp [hl] at h
  | some m =>
    simp [hl] at h
    exact findAll_mem colorRe prev 0 m c (List.mem_of_getLast?_eq_some hl) h

theorem getD_nil_not_mem (xs : List Str) (c : Char) (h : ∀ l ∈ xs, c ∉ l) (i : Nat) :
    c ∉ xs.getD i [] := by
  by_cases hi : i < xs.length
  · rw [List.getD_eq_getElem _ _ hi]
    exact h _ (List.getElem_mem hi)
  · rw [List.getD_eq_default _ _ (by omega)]
    simp

theorem not_mem_spaces (c : Char) (hc : c ≠ ' ') (n : Nat) : c ∉ spaces n := by
  intro h
  exact hc (List.eq_of_mem_replicate h)

theorem specRow_no_newline (C0 : Str) (L S F : List Str) (W : Nat) (prevPre : Str) (k : Nat)
    (hC : '\n' ∉ C0) (hL : ∀ l ∈ L, '\n' ∉ l) (hF : ∀ l ∈ F, '\n' ∉ l) (hp : '\n' ∉ prevPre) :
    '\n' ∉ (specRow C0 L S F W prevPre k).text ∧ '\n' ∉ (specRow C0 L S F W prevPre k).preFact := by
  have hsp : ∀ n, '\n' ∉ spaces n := not_mem_spaces '\n' (by decide)
  have hl : '\n' ∉ L[k]?.getD [] := by
    simpa [List.getD_eq_getElem?_getD] using getD_nil_not_mem L '\n' hL k
  have hf : '\n' ∉ F[k]?.getD [] := by
    simpa [List.getD_eq_getElem?_getD] using getD_nil_not_mem F '\n' hF k
  have hm : '\n' ∉ lastMatch prevPre := fun h => hp (lastMatch_mem _ _ h)
  unfold specRow Row.text Row.preFact
  constructor
  · simp only [List.mem_append, not_or]
    refine ⟨by split <;> simp [hm], ?_⟩
    split <;> split <;> simp [hsp, hl, hf, hC]
  · simp only [List.mem_append, not_or]
    refine ⟨by split <;> simp [hm], ?_⟩
    split <;> simp [hsp, hl]

theorem specRows_no_newline (C0 : Str) (L S F : List Str) (W : Nat)
    (hC : '\n' ∉ C0) (hL : ∀ l ∈ L, '\n' ∉ l) (hF : ∀ l ∈ F, '\n' ∉ l) :
    ∀ (n i : Nat) (p : Str), '\n' ∉ p →
      ∀ r ∈ specRows C0 L S F W n i p, '\n' ∉ r.text := by
  intro n
  induction n with
  | zero => intro i p _ r h; simp [specRows] at h
  | succ n ih =>
    intro i p hp r h
    have h1 := specRow_no_newline C0 L S F W p i hC hL hF hp
    simp only [specRows, List.mem_cons] at h
    rcases h with h | h
    · subst h; exact h1.1
    · exact ih (i + 1) _ h1.2 r h

theorem rowsText_count (rows : List Row) (h : ∀ r ∈ rows, '\n' ∉ r.text) :
    (rowsText rows).count '\n' = rows.length := by
  induction rows with
  | nil => rfl
  | cons r rows ih =>
    have h1 : r.text.count '\n' = 0 :=
      List.count_eq_zero_of_not_mem (h r (List.mem_cons_self _ _))
    have h2 := ih (fun q hq => h q (List.mem_cons_of_mem _ hq))
    unfold rowsText at h2 ⊢
    simp only [List.flatMap_cons, List.count_append, h1, h2, List.length_cons]
    simp
    omega

theorem rowsText_concat (rows : List Row) (r : Row) :
    rowsText (rows ++ [r]) = rowsText rows ++ r.text ++ ['\n'] := by
  simp [rowsText, List.flatMap_append]

theorem lineCount_eq (s : Str) : lineCount s = s.count '\n' + 1 := Split_length '\n' s

theorem exists_concat {α : Type} (xs : List α) (hne : xs ≠ []) :
    ∃ init last, xs = init ++ [last] :=
  ⟨xs.dropLast, xs.getLast hne, (List.dropLast_append_getLast hne).symm⟩

theorem block_lines_le (rows : List Row) (hne : rows ≠ [])
    (hnl : ∀ r ∈ rows, '\n' ∉ r.text) :
    lineCount (TrimRight (rowsText rows) cutset ++ reset) ≤ rows.length := by
  obtain ⟨init, last, rfl⟩ := exists_concat rows hne
  have hc : (rowsText (init ++ [last])).count '\n' = (init ++ [last]).length :=
    rowsText_count _ hnl
  rw [lineCount_eq, rowsText_concat, TrimRight_append_cut _ _ '\n' (by decide),
    List.count_append]
  have h1 := TrimRight_count_le (rowsText init ++ last.text) cutset '\n'
  have h2 : (rowsText init ++ last.text).count '\n' + 1 = (init ++ [last]).length := by
    rw [← hc, rowsText_concat, List.count_append]
    simp
    omega
  have h3 : reset.count '\n' = 0 := by decide
  omega

theorem block_lines_eq (rows : List Row) (last : Row) (c : Char)
    (hlast : rows.getLast? = some last) (hc : c ∈ last.text) (hcut : c ∉ cutset)
    (hnl : ∀ r ∈ rows, '\n' ∉ r.text) :
    lineCount (TrimRight (rowsText rows) cutset ++ reset) = rows.length := by
  have hne : rows ≠ [] := by
    intro h
    simp [h] at hlast
  obtain ⟨init, last1, rfl⟩ := exists_concat rows hne
  have hl : last1 = last := by simpa using hlast
  subst hl
  obtain ⟨A, B, hAB⟩ := List.append_of_mem hc
  have hnl1 : '\n' ∉ last1.text := hnl last1 (by simp)
  have hB : '\n' ∉ B := by
    intro h
    apply hnl1
    rw [hAB]
    simp [h]
  have hA : A.count '\n' = 0 := by
    apply List.count_eq_zero_of_not_mem
    intro h
    apply hnl1
    rw [hAB]
    simp [h]
  have hcn : c ≠ '\n' := by
    intro h
    apply hcut
    rw [h]
    decide
  have hinit : (rowsText init).count '\n' = init.length :=
    rowsText_count init (fun r hr => hnl r (by simp [hr]))
  have hT : (TrimRight B cutset).count '\n' = 0 :=
    List.count_eq_zero_of_not_mem (TrimRight_not_mem B cutset '\n' hB)
  have h3 : reset.count '\n' = 0 := by decide
  rw [lineCount_eq, rowsText_concat, TrimRight_append_cut _ _ '\n' (by decide), hAB,
    ← List.append_assoc, TrimRight_append_stop _ _ _ c hcut]
  simp only [List.count_append, List.count_cons, hinit, hA, hT, h3, List.length_append,
    List.length_singleton]
  simp [hcn]

theorem Split_length_pos (sep : Char) (s : Str) : 0 < (Split sep s).length := by
  rw [Split_length]
  omega

theorem reset_no_newline : '\n' ∉ reset := by decide

/-- The rows of a layout whose map sends `C0` to the reset sequence contain
no newline. -/
theorem layout_rows_no_newline (ascii out : Str) (W n : Nat) :
    ∀ r ∈ specRows reset (Split '\n' ascii) (Split '\n' (StripAnsii ascii)) (Split '\n' out) W
      n 0 [], '\n' ∉ r.text :=
  specRows_no_newline reset _ _ _ W reset_no_newline
    (fun l hl => Split_mem_no_sep '\n' ascii l hl)
    (fun l hl => Split_mem_no_sep '\n' out l hl) n 0 [] (by simp)

/-! ## The layout: widths, rows and lines -/

theorem layout_line_count (colorMap : GoMap) (ascii out : Str)
    (hC0 : colorMap ['C', '0'] = reset) :
    ∃ c, compose colorMap ascii out = .ok c ∧
      c.rows.length = max (lineCount ascii) (lineCount out) ∧
      c.block = TrimRight (rowsText c.rows) cutset ++ reset ∧
      lineCount c.block ≤ max (lineCount ascii) (lineCount out) ∧
      (lineCount ascii ≤ lineCount out →
        lineCount c.block = max (lineCount ascii) (lineCount out)) ∧
      (∀ last, c.rows.getLast? = some last → (∃ ch ∈ last.text, ch ∉ cutset) →
        lineCount c.block = max (lineCount ascii) (lineCount out)) ∧
      (∀ r ∈ c.rows, '\n' ∉ r.text) := by
  refine ⟨_, compose_spec colorMap ascii out, ?_⟩
  simp only [hC0]
  have hlen := specRows_length reset (Split '\n' ascii) (Split '\n' (StripAnsii ascii))
    (Split '\n' out) (maxWidthOf (StripAnsii ascii))
    (max (Split '\n' ascii).length (Split '\n' out).length) 0 []
  have hnl := layout_rows_no_newline ascii out (maxWidthOf (StripAnsii ascii))
    (max (Split '\n' ascii).length (Split '\n' out).length)
  have hpos : 0 < (Split '\n' out).length := Split_length_pos _ _
  have hne : specRows reset (Split '\n' ascii) (Split '\n' (StripAnsii ascii))
      (Split '\n' out) (maxWidthOf (StripAnsii ascii))
      (max (Split '\n' ascii).length (Split '\n' out).length) 0 [] ≠ [] := by
    intro h
    rw [h] at hlen
    simp at hlen
    omega
  have hgen : ∀ last, (specRows reset (Split '\n' ascii) (Split '\n' (StripAnsii ascii))
      (Split '\n' out) (maxWidthOf (StripAnsii ascii))
      (max (Split '\n' ascii).length (Split '\n' out).length) 0 []).getLast? = some last →
      (∃ ch ∈ last.text, ch ∉ cutset) →
      lineCount (TrimRight (rowsText (specRows reset (Split '\n' ascii)
        (Split '\n' (StripAnsii ascii)) (Split '\n' out) (maxWidthOf (StripAnsii ascii))
        (max (Split '\n' ascii).length (Split '\n' out).length) 0 [])) cutset ++ reset)
        = max (lineCount ascii) (lineCount out) := by
    intro last hlast ⟨ch, hch, hcut⟩
    rw [block_lines_eq _ last ch hlast hch hcut hnl, hlen]
    rfl
  refine ⟨hlen, rfl, ?_, ?_, hgen, hnl⟩
  · have := block_lines_le _ hne hnl
    rw [hlen] at this
    exact this
  · intro hNM
    have hNM1 : (Split '\n' ascii).length ≤ (Split '\n' out).length := hNM
    obtain ⟨init, last, hrows⟩ := exists_concat _ hne
    have hlast : (specRows reset (Split '\n' ascii) (Split '\n' (StripAnsii ascii))
        (Split '\n' out) (maxWidthOf (StripAnsii ascii))
        (max (Split '\n' ascii).length (Split '\n' out).length) 0 []).getLast? = some last := by
      rw [hrows]; simp
    apply hgen last hlast
    have hidx : (specRows reset (Split '\n' ascii) (Split '\n' (StripAnsii ascii))
        (Split '\n' out) (maxWidthOf (StripAnsii ascii))
        (max (Split '\n' ascii).length (Split '\n' out).length) 0 [])[init.length]? = some last := by
      rw [hrows]; simp
    obtain ⟨prevPre, hr, _, _⟩ := specRows_get _ _ _ _ _ _ _ _ _ _ hidx
    have hil : init.length + 1 = max (Split '\n' ascii).length (Split '\n' out).length := by
      rw [← hlen, hrows]; simp
    have hk : init.length < (Split '\n' out).length := by omega
    refine ⟨'m', ?_, by decide⟩
    rw [hr]
    simp only [specRow, Row.text, Nat.zero_add, if_pos hk, reset]
    simp

theorem layout_blank_rows (colorMap : GoMap) (ascii out : Str)
    (hC0 : colorMap ['C', '0'] = reset) :
    ∃ c, compose colorMap ascii out = .ok c ∧
      ∀ i fact, lineCount ascii ≤ i → (Split '\n' out)[i]? = some fact →
        ∃ r, c.rows[i]? = some r ∧ r.lastAsciiColor = [] ∧
          r.padded = spaces (c.maxWidth + 5) ∧
          r.text = spaces (c.maxWidth + 5) ++ reset ++ fact := by
  refine ⟨_, compose_spec colorMap ascii out, ?_⟩
  simp only [hC0]
  intro i fact hi hfact
  have hiF : i < (Split '\n' out).length := by
    by_contra h
    rw [List.getElem?_eq_none (by omega)] at hfact
    simp at hfact
  have hiN : ¬ i < (Split '\n' ascii).length := by
    have : (Split '\n' ascii).length ≤ i := hi
    omega
  have hlen := specRows_length reset (Split '\n' ascii) (Split '\n' (StripAnsii ascii))
    (Split '\n' out) (maxWidthOf (StripAnsii ascii))
    (max (Split '\n' ascii).length (Split '\n' out).length) 0 []
  have hi2 : i < (specRows reset (Split '\n' ascii) (Split '\n' (StripAnsii ascii))
    (Split '\n' out) (maxWidthOf (StripAnsii ascii))
    (max (Split '\n' ascii).length (Split '\n' out).length) 0 []).length := by
    rw [hlen]; omega
  refine ⟨_, List.getElem?_eq_getElem hi2, ?_⟩
  obtain ⟨prevPre, hr, _, _⟩ := specRows_get _ _ _ _ _ _ _ _ _ _ (List.getElem?_eq_getElem hi2)
  rw [hr]
  have hget : (Split '\n' out).getD i [] = fact := by
    rw [List.getD_eq_getElem?_getD, hfact]
    rfl
  simp only [specRow, Row.text, Nat.zero_add, if_pos hiF, if_neg hiN, hget, false_and, if_false]
  simp
  intro h
  exact absurd h hiN

/-! ## The palette and the directive -/

theorem setColorMapStep_eq (colors : List Int) (colorMap : GoMap) (i : Nat) :
    setColorMapStep colors colorMap i = .ok (colorMap.set (slot (i + 1)) (slotValue colors i)) := by
  unfold setColorMapStep slotValue
  by_cases h : i < colors.length
  · have h1 : ¬ ((i : Int) > (colors.length : Int) - 1) := by omega
    simp [h1, idx, List.getElem?_eq_getElem h, bind, Except.bind]
  · have h1 : (i : Int) > (colors.length : Int) - 1 := by omega
    simp [h1, List.getElem?_eq_none (Nat.le_of_not_lt h)]

theorem setColorMap_eq (colors : List Int) (colorMap : GoMap) :
    setColorMap colors colorMap = .ok (paletteMap colors colorMap) := by
  unfold setColorMap
  rw [show List.range 6 = [0, 1, 2, 3, 4, 5] from rfl]
  simp only [List.foldlM, setColorMapStep_eq, bind, Except.bind, pure, Except.pure]
  rfl

theorem idx_firstLine (ascii : Str) : idx (Split '\n' ascii) 0 = .ok (firstLineOf ascii) := by
  unfold firstLineOf
  cases h : Split '\n' ascii with
  | nil => exact absurd h (Split_ne_nil _ _)
  | cons x xs => simp [idx]

theorem expandArt_force (colors : List Int) (ascii : Str) :
    expandArt ⟨colors, true⟩ ascii =
      .ok ⟨colors, paletteMap colors colorMap0,
        if HasPrefix ascii ['#', '/'] then
          TrimPrefix (Expand (paletteMap colors colorMap0) 0 ascii) (firstLineOf ascii ++ ['\n'])
        else Expand (paletteMap colors colorMap0) 0 ascii⟩ := by
  unfold expandArt
  simp only [setColorMap_eq, idx_firstLine, bind, Except.bind]
  split <;> simp

theorem expandArt_directive (colors : List Int) (ascii : Str)
    (h : HasPrefix ascii ['#', '/'] = true) :
    expandArt ⟨colors, false⟩ ascii =
      match applyDirective (directiveSegments ascii) 0 colors with
      | .error e => .error e
      | .ok cols =>
        .ok ⟨cols, paletteMap cols (paletteMap colors colorMap0),
          TrimPrefix (Expand (paletteMap cols (paletteMap colors colorMap0)) 0 ascii)
            (firstLineOf ascii ++ ['\n'])⟩ := by
  unfold expandArt directiveSegments
  simp only [setColorMap_eq, idx_firstLine, bind, Except.bind, h, if_true]
  cases applyDirective (Split ';' (TrimPrefix (firstLineOf ascii) ['#', '/'])) 0 colors with
  | error e => simp
  | ok cols => simp

theorem take_succ_set {α : Type} (d : α) : ∀ (l : List α) (i : Nat), i < l.length →
    (l.set i d).take (i + 1) = l.take i ++ [d] := by
  intro l
  induction l with
  | nil => intro i h; simp at h
  | cons x l ih =>
    intro i h
    cases i with
    | zero => simp
    | succ i => simp [ih i (by simpa using h)]

theorem drop_set_gt {α : Type} (d : α) : ∀ (l : List α) (i j : Nat), i < j →
    (l.set i d).drop j = l.drop j := by
  intro l
  induction l with
  | nil => intro i j _; simp
  | cons x l ih =>
    intro i j h
    cases j with
    | zero => omega
    | succ j =>
      cases i with
      | zero => simp
      | succ i => simp [ih i j (by omega)]

/-- The directive loop overwrites the palette position by position and
appends past its end. -/
theorem applyDirective_ok : ∀ (segs : List Str) (ds : List Int),
    List.Forall₂ (fun seg d => Atoi seg = some d) segs ds →
    ∀ (i : Nat) (colors : List Int), i ≤ colors.length →
      applyDirective segs i colors = .ok (colors.take i ++ ds ++ colors.drop (i + ds.length)) := by
  intro segs ds h
  induction h with
  | nil =>
    intro i colors _
    simp [applyDirective]
  | @cons seg d segs ds hd _ ih =>
    intro i colors hi
    simp only [applyDirective, hd]
    by_cases hlt : i < colors.length
    · rw [if_pos hlt, ih (i + 1) _ (by simp; omega)]
      congr 1
      rw [take_succ_set d colors i hlt, drop_set_gt d colors i _ (by omega)]
      simp only [List.length_cons, List.append_assoc, List.singleton_append]
      congr 3
      omega
    · have hieq : i = colors.length := by omega
      rw [if_neg hlt, ih (i + 1) _ (by simp; omega)]
      subst hieq
      congr 1
      rw [List.take_of_length_le (by simp), List.drop_eq_nil_of_le (by simp),
        List.take_of_length_le (Nat.le_refl _), List.drop_eq_nil_of_le (by omega)]
      simp

theorem applyDirective_fatal : ∀ (segs : List Str) (i : Nat) (colors : List Int),
    (∃ seg ∈ segs, Atoi seg = none) → applyDirective segs i colors = .error .fatal := by
  intro segs
  induction segs with
  | nil => intro i colors h; simp at h
  | cons seg segs ih =>
    intro i colors h
    simp only [applyDirective]
    cases hs : Atoi seg with
    | none => rfl
    | some d =>
      have h1 : ∃ s ∈ segs, Atoi s = none := by
        obtain ⟨s, hs1, hs2⟩ := h
        rcases List.mem_cons.mp hs1 with e | e
        · rw [e, hs] at hs2; simp at hs2
        · exact ⟨s, e, hs2⟩
      simp only
      split <;> exact ih _ _ h1

theorem applyDirective_cases : ∀ (segs : List Str) (i : Nat) (colors : List Int),
    applyDirective segs i colors = .error .fatal ∨ ∃ cols, applyDirective segs i colors = .ok cols := by
  intro segs
  induction segs with
  | nil => intro i colors; right; exact ⟨colors, rfl⟩
  | cons seg segs ih =>
    intro i colors
    simp only [applyDirective]
    cases hs : Atoi seg with
    | none => left; rfl
    | some d =>
      simp only
      split <;> exact ih _ _

theorem slot_values : slot 1 = ['C', '1'] ∧ slot 2 = ['C', '2'] ∧ slot 3 = ['C', '3'] ∧
    slot 4 = ['C', '4'] ∧ slot 5 = ['C', '5'] ∧ slot 6 = ['C', '6'] := by decide

theorem paletteMap_slot (colors : List Int) (colorMap : GoMap) (i : Nat) (h1 : 1 ≤ i)
    (h6 : i ≤ 6) : paletteMap colors colorMap (slot i) = slotValue colors (i - 1) := by
  obtain ⟨s1, s2, s3, s4, s5, s6⟩ := slot_values
  unfold paletteMap GoMap.set
  interval_cases i <;> simp [s1, s2, s3, s4, s5, s6]

theorem paletteMap_C0 (colors : List Int) (colorMap : GoMap) :
    paletteMap colors colorMap ['C', '0'] = colorMap ['C', '0'] := by
  obtain ⟨s1, s2, s3, s4, s5, s6⟩ := slot_values
  unfold paletteMap GoMap.set
  simp [s1, s2, s3, s4, s5, s6]

theorem colorMap0_C0 : colorMap0 ['C', '0'] = reset := by decide

/-- Writing the palette twice leaves the map of the second palette. -/
theorem paletteMap_twice (a b : List Int) (colorMap : GoMap) :
    paletteMap b (paletteMap a colorMap) = paletteMap b colorMap := by
  obtain ⟨s1, s2, s3, s4, s5, s6⟩ := slot_values
  funext x
  unfold paletteMap GoMap.set
  simp only [s1, s2, s3, s4, s5, s6]
  split_ifs <;> rfl

/-- C4: for every colour list, the resolver succeeds; slot C0 maps to the
reset sequence, every slot Ci with 1 <= i <= n maps to ESC[1m followed by
ESC[38;5;<colors[i-1]>m, and every slot Ci with n < i <= 6 maps to the
reset sequence. -/
theorem C4_setColorMap_slots (colors : List Int) :
    ∃ m, setColorMap colors colorMap0 = .ok m ∧
      m ['C', '0'] = [ESC, '[', '0', 'm'] ∧
      ∀ i : Nat, 1 ≤ i → i ≤ 6 →
        (∀ c, colors[i - 1]? = some c →
          m ('C' :: Itoa (Int.ofNat i)) =
            [ESC, '[', '1', 'm'] ++ ([ESC, '[', '3', '8', ';', '5', ';'] ++ Itoa c ++ ['m'])) ∧
        (colors.length < i → m ('C' :: Itoa (Int.ofNat i)) = [ESC, '[', '0', 'm']) := by
  refine ⟨_, setColorMap_eq colors colorMap0, ?_, ?_⟩
  · rw [paletteMap_C0]
    exact colorMap0_C0
  · intro i h1 h6
    have hs := paletteMap_slot colors colorMap0 i h1 h6
    unfold slot at hs
    rw [hs]
    constructor
    · intro c hc
      simp [slotValue, hc, boldColor]
    · intro hlt
      have : colors[i - 1]? = none := List.getElem?_eq_none (by omega)
      simp [slotValue, this, reset]

/-- C5 (counterexample): with the configured palette [9,9,9,9] the template
"#/1;2" followed by a body leaves the palette [1,2,9,9], which has length 4,
not the directive's list [1,2]. -/
theorem C5_counterexample :
    (expandArt ⟨[9, 9, 9, 9], false⟩ "#/1;2\nab".toList).map (fun e => e.AnsiiColors)
      = .ok [1, 2, 9, 9] ∧
    ([1, 2, 9, 9] : List Int) ≠ [1, 2] ∧ ([1, 2, 9, 9] : List Int).length ≠ 2 :=
  ⟨by rfl, by decide, by decide⟩

/-- C5 (amended): with the force flag unset, a directive of k integers
overwrites the first k positions of the configured palette and keeps the
configured entries past position k; the palette has length max(k, n), and it
is exactly the directive's list when the configured palette is not longer
than the directive. -/
theorem C5_directive_overwrites (colors : List Int) (ascii : Str) (ds : List Int)
    (hpre : HasPrefix ascii ['#', '/'] = true)
    (hds : List.Forall₂ (fun seg d => Atoi seg = some d) (directiveSegments ascii) ds) :
    ∃ e, expandArt ⟨colors, false⟩ ascii = .ok e ∧
      e.AnsiiColors = ds ++ colors.drop ds.length ∧
      e.AnsiiColors.length = max ds.length colors.length ∧
      (colors.length ≤ ds.length → e.AnsiiColors = ds) ∧
      setColorMap e.AnsiiColors colorMap0 = .ok e.colorMap := by
  have h := applyDirective_ok _ _ hds 0 colors (Nat.zero_le _)
  rw [expandArt_directive colors ascii hpre, h]
  refine ⟨_, rfl, by simp, ?_, ?_, ?_⟩
  · simp
    omega
  · intro hle
    simp [List.drop_eq_nil_of_le hle]
  · simp only [setColorMap_eq, paletteMap_twice]

/-- C5 (witness): the template beginning with "#/1;2;3" and an empty
configured palette. -/
theorem C5_directive_overwrites_witness :
    ∃ e, expandArt ⟨[], false⟩ "#/1;2;3\nab".toList = .ok e ∧
      e.AnsiiColors = [1, 2, 3] ++ ([] : List Int).drop ([1, 2, 3] : List Int).length ∧
      e.AnsiiColors.length = max ([1, 2, 3] : List Int).length ([] : List Int).length ∧
      ((([] : List Int).length ≤ ([1, 2, 3] : List Int).length) → e.AnsiiColors = [1, 2, 3]) ∧
      setColorMap e.AnsiiColors colorMap0 = .ok e.colorMap :=
  C5_directive_overwrites [] "#/1;2;3\nab".toList [1, 2, 3] (by decide) (by decide)

/-! ## Escape sequences that `StripAnsii` removes whole -/

theorem removeAll_skip (r : Re) (t : Str) : ∀ (a : Str),
    r.removeAll a.length (a ++ t) = r.removeAll 0 t := by
  intro a
  induction a with
  | nil => rfl
  | cons c a ih => simpa [Re.removeAll] using ih

/-- Text without ESC and CSI holds no match of `ansi`. -/
theorem removeAll_no_start : ∀ (s : Str) (k : Nat),
    (∀ c ∈ s, (c == ESC || c == CSI) = false) → ansiRe.removeAll k s = s.drop k := by
  intro s
  induction s with
  | nil => intro k _; cases k <;> rfl
  | cons c s ih =>
    intro k h
    have hs : ∀ d ∈ s, (d == ESC || d == CSI) = false :=
      fun d hd => h d (List.mem_cons_of_mem _ hd)
    cases k with
    | succ k => simpa [Re.removeAll] using ih k hs
    | zero =>
      have hc : (c == ESC || c == CSI) = false := h c (List.mem_cons_self _ _)
      have hm : ansiRe.matchLen (c :: s) = none := by
        simp [Re.matchLen, ansiRe, Re.ms, hc]
      simp [Re.removeAll, hm, ih 0 hs]

theorem ms_cls_tail (p : Char → Bool) (b : Char) (t : Str) : ∀ x : Str,
    (Re.cls p).ms (x ++ b :: t) = ((Re.cls p).ms (x ++ [b])).map (fun y => y ++ t) := by
  intro x
  cases x with
  | nil =>
    simp only [List.nil_append, Re.ms]
    split <;> simp
  | cons d x =>
    simp only [List.cons_append, Re.ms]
    split <;> simp

/-- When the expression ends in a character class and nothing before it can
consume `b`, what follows a `b` does not change the matches that end at it. -/
theorem ms_seq_cls_tail (X : Re) (p : Char → Bool) (b : Char) (hX : X.avoids b = true)
    (c t : Str) :
    (Re.seq X (.cls p)).ms (c ++ b :: t)
      = ((Re.seq X (.cls p)).ms (c ++ [b])).map (fun y => y ++ t) := by
  simp only [Re.ms]
  rw [ms_barrier b t X hX c, ms_barrier b [] X hX c, List.flatMap_map, List.flatMap_map,
    List.map_flatMap]
  apply List.flatMap_congr
  intro x _
  exact ms_cls_tail p b t x

theorem ms_seq (a b : Re) (s : Str) :
    (Re.seq a b).ms s = (a.ms s).flatMap (fun s1 => b.ms s1) := rfl

theorem ms_alt (a b : Re) (s : Str) : (Re.alt a b).ms s = a.ms s ++ b.ms s := rfl

/-- An expression that ends in BEL matches nothing in text without BEL. -/
theorem ms_seq_bel_nil (A : Re) (s : Str) (h : BEL ∉ s) :
    (Re.seq A (.cls (fun c => c == BEL))).ms s = [] := by
  rw [ms_seq, List.flatMap_eq_nil_iff]
  intro x hx
  have hsuf : x <:+ s := ms_suffix _ s x hx
  cases x with
  | nil => rfl
  | cons d x =>
    have hd : d ≠ BEL := by
      intro e
      apply h
      rw [← e]
      exact hsuf.subset (List.mem_cons_self _ _)
    simp [Re.ms, hd]

theorem ms_regroup (E I O P F : Re) (s : Str) (hO : ∀ s2, s2 <:+ s → O.ms s2 = []) :
    (Re.seq E (.seq I (.alt O (.seq P F)))).ms s = (Re.seq (.seq E (.seq I P)) F).ms s := by
  rw [ms_seq, ms_seq (.seq E (.seq I P)) F, ms_seq E (.seq I P), List.flatMap_assoc]
  apply List.flatMap_congr
  intro s1 hs1
  have h1 : s1 <:+ s := ms_suffix E s s1 hs1
  rw [ms_seq, ms_seq I P, List.flatMap_assoc]
  apply List.flatMap_congr
  intro s2 hs2
  have h2 : s2 <:+ s1 := ms_suffix I s1 s2 hs2
  rw [ms_alt, hO s2 (h2.trans h1), List.nil_append, ms_seq]

/-- On text without BEL, `ansi` matches as `ansiHead` followed by the last
character class. -/
theorem ms_ansiRe_eq (s : Str) (h : BEL ∉ s) :
    ansiRe.ms s = (Re.seq ansiHead (.cls isFinal)).ms s := by
  unfold ansiRe ansiHead ansiCsi ansiOsc
  apply ms_regroup
  intro s2 hs2
  exact ms_seq_bel_nil _ s2 (fun hm => h (hs2.subset hm))

theorem ansiHead_avoids_m : ansiHead.avoids 'm' = true := by decide

/-- What follows the final `m` of an escape sequence does not change how
`ansi` matches it, in text without BEL. -/
theorem matchLen_ansi_tail (c t : Str) (hc : BEL ∉ c) (ht : BEL ∉ t) :
    ansiRe.matchLen (c ++ 'm' :: t) = ansiRe.matchLen (c ++ ['m']) := by
  have hm : BEL ≠ 'm' := by decide
  have h1 : BEL ∉ c ++ 'm' :: t := by
    simp only [List.mem_append, List.mem_cons, not_or]
    exact ⟨hc, hm, ht⟩
  have h2 : BEL ∉ c ++ ['m'] := by
    simp only [List.mem_append, List.mem_singleton, not_or]
    exact ⟨hc, hm⟩
  unfold Re.matchLen
  rw [ms_ansiRe_eq _ h1, ms_ansiRe_eq _ h2, ms_seq_cls_tail ansiHead isFinal 'm' ansiHead_avoids_m]
  cases hh : (Re.seq ansiHead (.cls isFinal)).ms (c ++ ['m']) with
  | nil => simp
  | cons x xs =>
    have hx : x.length ≤ (c ++ ['m']).length :=
      (ms_suffix _ _ x (by rw [hh]; exact List.mem_cons_self _ _)).length_le
    simp only [List.length_append, List.length_singleton] at hx
    simp
    omega

theorem ms_cls_mem (p : Char → Bool) (s x : Str) (h : x ∈ (Re.cls p).ms s) :
    ∃ d, s = d :: x ∧ p d = true := by
  cases s with
  | nil => simp [Re.ms] at h
  | cons d s =>
    simp only [Re.ms] at h
    split at h
    · simp at h
      subst h
      exact ⟨d, rfl, by assumption⟩
    · simp at h

theorem star_cls_shape (p : Char → Bool) : ∀ (n : Nat) (s x : Str),
    x ∈ starAux (fun s1 => (Re.cls p).ms s1) n s →
      ∃ u, s = u ++ x ∧ ∀ c ∈ u, p c = true := by
  intro n
  induction n with
  | zero =>
    intro s x h
    simp [starAux] at h
    exact ⟨[], by simp [h], by simp⟩
  | succ n ih =>
    intro s x h
    simp only [starAux, List.mem_append, List.mem_flatMap, List.mem_filter,
      List.mem_singleton] at h
    rcases h with ⟨s1, ⟨hs1, _⟩, hx⟩ | hx
    · obtain ⟨d, hd, hpd⟩ := ms_cls_mem p s s1 hs1
      obtain ⟨u, hu, hpu⟩ := ih s1 x hx
      refine ⟨d :: u, by rw [hd, hu]; rfl, ?_⟩
      intro c hc
      rcases List.mem_cons.mp hc with e | e
      · rw [e]; exact hpd
      · exact hpu c e
    · exact ⟨[], by simp [hx], by simp⟩

/-- A match of the colour pattern is ESC, characters of the bracket
expression, and `m`. -/
theorem ms_colorRe_shape (s x : Str) (h : x ∈ colorRe.ms s) :
    ∃ u, s = ESC :: (u ++ 'm' :: x) ∧ ∀ c ∈ u, isColorCls c = true := by
  unfold colorRe Re.plus at h
  rw [ms_seq, List.mem_flatMap] at h
  obtain ⟨s1, hs1, h⟩ := h
  obtain ⟨e, he, hpe⟩ := ms_cls_mem _ s s1 hs1
  rw [ms_seq, List.mem_flatMap] at h
  obtain ⟨s2, hs2, h⟩ := h
  rw [ms_seq, List.mem_flatMap] at hs2
  obtain ⟨s3, hs3, hs2⟩ := hs2
  obtain ⟨d, hd, hpd⟩ := ms_cls_mem _ s1 s3 hs3
  obtain ⟨u, hu, hpu⟩ := star_cls_shape isColorCls _ s3 s2 hs2
  obtain ⟨m, hm, hpm⟩ := ms_cls_mem _ s2 x h
  have hee : e = ESC := by simpa using hpe
  have hmm : m = 'm' := by simpa using hpm
  refine ⟨d :: u, ?_, ?_⟩
  · rw [he, hd, hu, hm, hee, hmm]
    rfl
  · intro c hc
    rcases List.mem_cons.mp hc with e1 | e1
    · rw [e1]; exact hpd
    · exact hpu c e1

theorem findAll_colorRe_shape : ∀ (s : Str) (k : Nat) (m : Str),
    m ∈ colorRe.findAll k s → ∃ u, m = ESC :: (u ++ ['m']) ∧ ∀ c ∈ u, isColorCls c = true := by
  intro s
  induction s with
  | nil => intro k m h; cases k <;> simp [Re.findAll] at h
  | cons d s ih =>
    intro k m h
    cases k with
    | succ k =>
      simp only [Re.findAll] at h
      exact ih k m h
    | zero =>
      simp only [Re.findAll] at h
      split at h
      · rename_i n hn
        rcases List.mem_cons.mp h with h | h
        · unfold Re.matchLen at hn
          cases hh : (colorRe.ms (d :: s)).head? with
          | none => simp [hh] at hn
          | some rest =>
            obtain ⟨u, hu, hpu⟩ := ms_colorRe_shape (d :: s) rest (List.mem_of_mem_head? hh)
            simp [hh] at hn
            refine ⟨u, ?_, hpu⟩
            rw [h, hu]
            have hlen : n + 1 = (ESC :: (u ++ ['m'])).length := by
              have := congrArg List.length hu
              simp at this ⊢
              omega
            rw [hlen]
            have : ESC :: (u ++ 'm' :: rest) = (ESC :: (u ++ ['m'])) ++ rest := by simp
            rw [this, List.take_left]
        · exact ih _ m h
      · exact ih 0 m h

theorem lastMatch_shape (prev : Str) :
    lastMatch prev = [] ∨
      ∃ u, lastMatch prev = ESC :: (u ++ ['m']) ∧ ∀ c ∈ u, isColorCls c = true := by
  unfold lastMatch
  cases hl : (colorRe.findAll 0 prev).getLast? with
  | none => left; rfl
  | some m =>
    right
    exact findAll_colorRe_shape prev 0 m (List.mem_of_getLast?_eq_some hl)

theorem isColorCls_not_special (c : Char) (h : isColorCls c = true) :
    (c == ESC || c == CSI) = false ∧ c ≠ BEL := by
  have h1 : c ≠ ESC := by
    intro e
    rw [e] at h
    exact absurd h (by decide)
  have h2 : c ≠ CSI := by
    intro e
    rw [e] at h
    exact absurd h (by decide)
  have h3 : c ≠ BEL := by
    intro e
    rw [e] at h
    exact absurd h (by decide)
  exact ⟨by simp [h1, h2], h3⟩

/-- An escape sequence that `StripAnsii` removes when it stands alone is
removed whole in front of any text without BEL. -/
theorem StripAnsii_clean (u t : Str) (hu : ∀ c ∈ u, isColorCls c = true) (ht : BEL ∉ t)
    (hclean : StripAnsii (ESC :: (u ++ ['m'])) = []) :
    StripAnsii (ESC :: (u ++ 'm' :: t)) = StripAnsii t := by
  have hbel : BEL ∉ ESC :: u := by
    intro hm
    rcases List.mem_cons.mp hm with e | e
    · exact absurd e (by decide)
    · exact (isColorCls_not_special BEL (hu BEL e)).2 rfl
  have htail := matchLen_ansi_tail (ESC :: u) t hbel ht
  have hno : ∀ c ∈ u ++ ['m'], (c == ESC || c == CSI) = false := by
    intro c hc
    rcases List.mem_append.mp hc with e | e
    · exact (isColorCls_not_special c (hu c e)).1
    · have : c = 'm' := by simpa using e
      rw [this]
      decide
  unfold StripAnsii at hclean ⊢
  simp only [Re.removeAll] at hclean
  have hshow : ESC :: (u ++ 'm' :: t) = (ESC :: u) ++ 'm' :: t := rfl
  cases hm : ansiRe.matchLen (ESC :: (u ++ ['m'])) with
  | none => simp [hm] at hclean
  | some n =>
    cases n with
    | zero => simp [hm] at hclean
    | succ n =>
      have hle := matchLen_le ansiRe _ _ hm
      simp only [hm] at hclean
      rw [removeAll_no_start _ n hno] at hclean
      have hn : n = (u ++ ['m']).length := by
        have h1 := List.drop_eq_nil_iff.mp hclean
        simp only [List.length_cons, List.length_append, List.length_singleton] at hle h1 ⊢
        omega
      have hm2 : ansiRe.matchLen (ESC :: (u ++ 'm' :: t)) = some (n + 1) := by
        rw [hshow, htail]
        exact hm
      simp only [Re.removeAll, hm2]
      rw [hn, show u ++ 'm' :: t = (u ++ ['m']) ++ t by simp]
      exact removeAll_skip ansiRe t (u ++ ['m'])

theorem reset_clean (t : Str) (ht : BEL ∉ t) : StripAnsii (reset ++ t) = StripAnsii t :=
  StripAnsii_clean ['[', '0'] t (by decide) ht (by decide)

/-! ## The carried-over colour and the fact column -/

theorem spaces_succ (n : Nat) : spaces (n + 1) = spaces n ++ [' '] := by
  unfold spaces
  rw [List.replicate_succ']

theorem specRow_padded_ends (C0 : Str) (L F : List Str) (W : Nat) (prevPre : Str) (k : Nat)
    (hW : ∀ l ∈ L, goLen (StripAnsii l) ≤ W) :
    ∃ Y, (specRow C0 L (L.map StripAnsii) F W prevPre k).padded = Y ++ [' '] := by
  unfold specRow
  by_cases hk : k < L.length
  · have hmem : L.getD k [] ∈ L := by
      rw [List.getD_eq_getElem _ _ hk]
      exact List.getElem_mem hk
    have hS : (L.map StripAnsii).getD k [] = StripAnsii (L.getD k []) := by
      rw [List.getD_eq_getElem _ _ hk, List.getD_eq_getElem _ _ (by simpa using hk)]
      simp
    have := hW _ hmem
    obtain ⟨n, hn⟩ : ∃ n, W + 5 - goLen (StripAnsii (L.getD k [])) = n + 1 :=
      ⟨W + 4 - goLen (StripAnsii (L.getD k [])), by omega⟩
    simp only [hk, if_true, hS, hn, spaces_succ]
    exact ⟨L.getD k [] ++ spaces n, by simp⟩
  · simp only [hk, if_false]
    exact ⟨spaces (W + 4), spaces_succ (W + 4)⟩

/-- Stripping a row strips the part before the fact text and what follows
it separately: the padding ends in a space, which no escape sequence can
hold. -/
theorem specRow_strip_text (C0 : Str) (L F : List Str) (W : Nat) (prevPre : Str) (k : Nat)
    (hW : ∀ l ∈ L, goLen (StripAnsii l) ≤ W) (hk : k < F.length) :
    StripAnsii (specRow C0 L (L.map StripAnsii) F W prevPre k).text
      = StripAnsii (specRow C0 L (L.map StripAnsii) F W prevPre k).preFact
        ++ StripAnsii (C0 ++ F.getD k []) := by
  obtain ⟨Y, hY⟩ := specRow_padded_ends C0 L F W prevPre k hW
  have hline : (specRow C0 L (L.map StripAnsii) F W prevPre k).line
      = (specRow C0 L (L.map StripAnsii) F W prevPre k).padded ++ C0 ++ F.getD k [] := by
    simp [specRow, hk]
  unfold Row.text Row.preFact
  rw [hline, hY]
  have e1 : (specRow C0 L (L.map StripAnsii) F W prevPre k).lastAsciiColor
      ++ (Y ++ [' '] ++ C0 ++ F.getD k [])
      = ((specRow C0 L (L.map StripAnsii) F W prevPre k).lastAsciiColor ++ Y)
        ++ ' ' :: (C0 ++ F.getD k []) := by simp
  have e2 : (specRow C0 L (L.map StripAnsii) F W prevPre k).lastAsciiColor ++ (Y ++ [' '])
      = ((specRow C0 L (L.map StripAnsii) F W prevPre k).lastAsciiColor ++ Y) ++ ' ' :: [] := by
    simp
  rw [e1, e2, StripAnsii_barrier ' ' ansiRe_avoids_space,
    StripAnsii_barrier ' ' ansiRe_avoids_space]
  have h0 : StripAnsii [] = [] := rfl
  rw [h0]
  simp

theorem specRow_parts_not_mem (b : Char) (hb : b ≠ ' ') (C0 : Str) (L S F : List Str) (W : Nat)
    (prevPre : Str) (k : Nat) (hL : ∀ l ∈ L, b ∉ l) (hp : b ∉ prevPre) :
    b ∉ (specRow C0 L S F W prevPre k).lastAsciiColor ∧
      b ∉ (specRow C0 L S F W prevPre k).padded := by
  have hsp : ∀ n, b ∉ spaces n := not_mem_spaces b hb
  have hl : b ∉ L[k]?.getD [] := by
    simpa [List.getD_eq_getElem?_getD] using getD_nil_not_mem L b hL k
  have hm : b ∉ lastMatch prevPre := fun h => hp (lastMatch_mem _ _ h)
  unfold specRow
  constructor
  · simp only
    split <;> simp [hm]
  · simp only
    split <;> simp [hsp, hl]

theorem specRows_parts_not_mem (b : Char) (hb : b ≠ ' ') (C0 : Str) (L S F : List Str) (W : Nat)
    (hL : ∀ l ∈ L, b ∉ l) :
    ∀ (n i : Nat) (p : Str), b ∉ p →
      ∀ r ∈ specRows C0 L S F W n i p, b ∉ r.lastAsciiColor ∧ b ∉ r.padded := by
  intro n
  induction n with
  | zero => intro i p _ r h; simp [specRows] at h
  | succ n ih =>
    intro i p hp r h
    have h1 := specRow_parts_not_mem b hb C0 L S F W p i hL hp
    simp only [specRows, List.mem_cons] at h
    rcases h with h | h
    · subst h; exact h1
    · apply ih (i + 1) _ _ r h
      unfold Row.preFact
      simp only [List.mem_append, not_or]
      exact h1

theorem specRow_lastColor_shape (C0 : Str) (L S F : List Str) (W : Nat) (prevPre : Str)
    (k : Nat) :
    (specRow C0 L S F W prevPre k).lastAsciiColor = [] ∨
      ∃ u, (specRow C0 L S F W prevPre k).lastAsciiColor = ESC :: (u ++ ['m']) ∧
        ∀ c ∈ u, isColorCls c = true := by
  unfold specRow
  simp only
  split
  · exact lastMatch_shape prevPre
  · left; rfl

/-! ## The first match, step by step -/

theorem starAux_fuel (f : Str → List Str) :
    ∀ (n m : Nat) (s : Str), s.length ≤ n → s.length ≤ m → starAux f n s = starAux f m s := by
  intro n
  induction n with
  | zero =>
    intro m s hn _
    have hs : s = [] := List.length_eq_zero.mp (Nat.le_zero.mp hn)
    subst hs
    cases m with
    | zero => rfl
    | succ m => simp [starAux]
  | succ n ih =>
    intro m s hn hm
    cases m with
    | zero =>
      have hs : s = [] := List.length_eq_zero.mp (Nat.le_zero.mp hm)
      subst hs
      simp [starAux]
    | succ m =>
      simp only [starAux]
      congr 1
      apply List.flatMap_congr
      intro s1 hs1
      simp only [List.mem_filter, decide_eq_true_eq] at hs1
      exact ih m s1 (by omega) (by omega)

theorem first_cls (p : Char → Bool) (c : Char) (s : Str) (h : p c = true) :
    First (.cls p) (c :: s) s := ⟨[], by simp [Re.ms, h]⟩

theorem ms_cls_nil (p : Char → Bool) (c : Char) (s : Str) (h : p c = false) :
    (Re.cls p).ms (c :: s) = [] := by simp [Re.ms, h]

theorem ms_seq_nil (a b : Re) (s : Str) (h : a.ms s = []) : (Re.seq a b).ms s = [] := by
  simp [Re.ms, h]

theorem first_seq (a b : Re) (s x y : Str) (ha : First a s x) (hb : First b x y) :
    First (.seq a b) s y := by
  obtain ⟨t1, h1⟩ := ha
  obtain ⟨t2, h2⟩ := hb
  exact ⟨t2 ++ t1.flatMap (fun s1 => b.ms s1), by simp [Re.ms, h1, h2]⟩

theorem first_opt (a : Re) (s x : Str) (ha : First a s x) : First (Re.opt a) s x := by
  obtain ⟨t1, h1⟩ := ha
  exact ⟨t1 ++ [s], by simp [Re.opt, Re.ms, h1]⟩

theorem first_star_stop (a : Re) (s : Str) (h : a.ms s = []) : First (.star a) s s := by
  refine ⟨[], ?_⟩
  simp only [Re.ms]
  cases s.length with
  | zero => rfl
  | succ n => simp [starAux, h]

theorem first_star_step (a : Re) (s x y : Str) (ha : First a s x) (hlt : x.length < s.length)
    (hs : First (.star a) x y) : First (.star a) s y := by
  obtain ⟨t1, h1⟩ := ha
  obtain ⟨t2, h2⟩ := hs
  simp only [Re.ms] at h2
  obtain ⟨n, hn⟩ : ∃ n, s.length = n + 1 := ⟨s.length - 1, by omega⟩
  have hx : starAux (fun s1 => a.ms s1) n x = y :: t2 := by
    rw [starAux_fuel _ n x.length x (by omega) (Nat.le_refl _)]
    exact h2
  refine ⟨t2 ++ ((t1.filter (fun s1 => decide (s1.length < s.length))).flatMap
    (starAux (fun s1 => a.ms s1) n)) ++ [s], ?_⟩
  simp only [Re.ms]
  rw [hn]
  simp only [starAux, h1]
  rw [List.filter_cons_of_pos (by simpa using hlt)]
  simp [hx, hn]

theorem first_upTo (p : Char → Bool) (m : Char) (t : Str) (hm : p m = false) :
    ∀ (n : Nat) (ds : Str), ds.length ≤ n → (∀ d ∈ ds, p d = true) →
      First (Re.upTo (.cls p) n) (ds ++ m :: t) (m :: t) := by
  intro n
  induction n with
  | zero =>
    intro ds hlen _
    have : ds = [] := List.length_eq_zero.mp (Nat.le_zero.mp hlen)
    subst this
    exact ⟨[], by simp [Re.upTo, Re.ms]⟩
  | succ n ih =>
    intro ds hlen hds
    cases ds with
    | nil => exact ⟨[], by simp [Re.upTo, Re.opt, Re.ms, hm]⟩
    | cons d ds =>
      apply first_opt
      exact first_seq _ _ _ _ _ (first_cls p d _ (hds d (List.mem_cons_self _ _)))
        (ih ds (by simpa using hlen) (fun x hx => hds x (List.mem_cons_of_mem _ hx)))

theorem isDigit_not_bel (ds : Str) (h : ∀ d ∈ ds, isDigit d = true) : BEL ∉ ds := by
  intro hm
  exact absurd (h BEL hm) (by decide)

/-- `StripAnsii` removes every 256-colour sequence ESC[38;5;<digits>m of at
most four digits. -/
theorem color256_clean (ds : Str) (hlen : ds.length ≤ 4) (hds : ∀ d ∈ ds, isDigit d = true) :
    StripAnsii (color256 ds) = [] := by
  have hbel : BEL ∉ color256 ds := by
    unfold color256
    simp only [List.mem_append, not_or]
    exact ⟨⟨by decide, isDigit_not_bel ds hds⟩, by decide⟩
  have hsemi : isDigit ';' = false := by decide
  have hmd : isDigit 'm' = false := by decide
  -- the digits `38`, then `;5`, then `;` and the colour code
  have h38 : First (Re.seq (.cls isDigit) (Re.upTo (.cls isDigit) 3))
      ('3' :: '8' :: ';' :: '5' :: ';' :: (ds ++ ['m'])) (';' :: '5' :: ';' :: (ds ++ ['m'])) :=
    first_seq _ _ _ _ _ (first_cls _ _ _ (by decide))
      (first_upTo isDigit ';' _ hsemi 3 ['8'] (by simp) (by decide))
  have h5 : First (Re.seq (.cls (fun c => c == ';')) (Re.upTo (.cls isDigit) 4))
      (';' :: '5' :: ';' :: (ds ++ ['m'])) (';' :: (ds ++ ['m'])) :=
    first_seq _ _ _ _ _ (first_cls _ _ _ (by decide))
      (first_upTo isDigit ';' _ hsemi 4 ['5'] (by simp) (by decide))
  have hcode : First (Re.seq (.cls (fun c => c == ';')) (Re.upTo (.cls isDigit) 4))
      (';' :: (ds ++ ['m'])) ['m'] :=
    first_seq _ _ _ _ _ (first_cls _ _ _ (by decide)) (first_upTo isDigit 'm' [] hmd 4 ds hlen hds)
  have hstar : First (Re.star (Re.seq (.cls (fun c => c == ';')) (Re.upTo (.cls isDigit) 4)))
      (';' :: '5' :: ';' :: (ds ++ ['m'])) ['m'] :=
    first_star_step _ _ _ _ h5 (by simp)
      (first_star_step _ _ _ _ hcode (by simp)
        (first_star_stop _ _ (ms_seq_nil _ _ _ (ms_cls_nil _ _ _ (by decide)))))
  have hintro : First (Re.star (.cls isIntro))
      ('[' :: '3' :: '8' :: ';' :: '5' :: ';' :: (ds ++ ['m']))
      ('3' :: '8' :: ';' :: '5' :: ';' :: (ds ++ ['m'])) :=
    first_star_step _ _ _ _ (first_cls _ _ _ (by decide)) (by simp)
      (first_star_stop _ _ (ms_cls_nil _ _ _ (by decide)))
  have hhead : First ansiHead (color256 ds) ['m'] := by
    unfold ansiHead
    exact first_seq _ _ _ _ _ (first_cls _ _ _ (by decide))
      (first_seq _ _ _ _ _ hintro (first_opt _ _ _ (first_seq _ _ _ _ _ h38 hstar)))
  obtain ⟨tl, hms⟩ := first_seq _ _ _ _ _ hhead (first_cls isFinal 'm' [] (by decide))
  have hlenm : ansiRe.matchLen (color256 ds) = some ((color256 ds).length) := by
    unfold Re.matchLen
    rw [ms_ansiRe_eq _ hbel, hms]
    simp
  unfold StripAnsii
  have hcons : color256 ds
      = ESC :: ('[' :: '3' :: '8' :: ';' :: '5' :: ';' :: (ds ++ ['m'])) := rfl
  rw [hcons] at hlenm ⊢
  simp only [Re.removeAll, hlenm, List.length_cons]
  have := removeAll_skip ansiRe [] ('[' :: '3' :: '8' :: ';' :: '5' :: ';' :: (ds ++ ['m']))
  simpa using this

/-! ## The last colour sequence of a row -/

theorem findAll_skip (r : Re) (t : Str) : ∀ (a : Str),
    r.findAll a.length (a ++ t) = r.findAll 0 t := by
  intro a
  induction a with
  | nil => rfl
  | cons c a ih => simpa [Re.findAll] using ih

theorem findAll_no_start : ∀ (s : Str) (k : Nat), ESC ∉ s → colorRe.findAll k s = [] := by
  intro s
  induction s with
  | nil => intro k _; cases k <;> rfl
  | cons c s ih =>
    intro k h
    have hs : ESC ∉ s := fun hd => h (List.mem_cons_of_mem _ hd)
    cases k with
    | succ k => simpa [Re.findAll] using ih k hs
    | zero =>
      have hc : c ≠ ESC := fun e => h (by rw [e]; exact List.mem_cons_self _ _)
      have hm : colorRe.matchLen (c :: s) = none := by
        simp [Re.matchLen, colorRe, Re.ms, hc]
      simp [Re.findAll, hm, ih 0 hs]

/-- A match never runs over the next ESC. -/
theorem findAll_upto_esc (rest : Str) : ∀ (a : Str) (k : Nat), k ≤ a.length →
    ∃ pre, colorRe.findAll k (a ++ ESC :: rest) = pre ++ colorRe.findAll 0 (ESC :: rest) := by
  generalize hR : colorRe.findAll 0 (ESC :: rest) = R
  intro a
  induction a with
  | nil =>
    intro k hk
    have : k = 0 := by simpa using hk
    subst this
    exact ⟨[], by simpa using hR⟩
  | cons c a ih =>
    intro k hk
    cases k with
    | succ k =>
      obtain ⟨pre, hpre⟩ := ih k (by simpa using hk)
      exact ⟨pre, by simpa [Re.findAll] using hpre⟩
    | zero =>
      show ∃ pre, colorRe.findAll 0 (c :: (a ++ ESC :: rest)) = _
      simp only [Re.findAll]
      cases hm : colorRe.matchLen (c :: (a ++ ESC :: rest)) with
      | none =>
        obtain ⟨pre, hpre⟩ := ih 0 (Nat.zero_le _)
        exact ⟨pre, by simpa using hpre⟩
      | some n =>
        cases n with
        | zero =>
          obtain ⟨pre, hpre⟩ := ih 0 (Nat.zero_le _)
          exact ⟨pre, by simpa using hpre⟩
        | succ n =>
          have hn : n ≤ a.length := by
            unfold Re.matchLen at hm
            cases hh : (colorRe.ms (c :: (a ++ ESC :: rest))).head? with
            | none => simp [hh] at hm
            | some x =>
              obtain ⟨u, hu, hpu⟩ := ms_colorRe_shape _ x (List.mem_of_mem_head? hh)
              simp [hh] at hm
              have hlen := congrArg List.length hu
              simp at hlen
              have hnu : n = u.length + 1 := by omega
              by_contra hlt
              have hidx : a.length < (u ++ ['m']).length := by simp; omega
              have htl : a ++ ESC :: rest = (u ++ ['m']) ++ x := by
                have := List.tail_eq_of_cons_eq hu
                simpa using this
              have h1 : (a ++ ESC :: rest)[a.length]? = some ESC := by
                rw [List.getElem?_append_right (Nat.le_refl _)]
                simp
              rw [htl, List.getElem?_append_left hidx] at h1
              have hmem : ESC ∈ u ++ ['m'] := List.getElem?_mem h1
              rcases List.mem_append.mp hmem with e | e
              · have := (isColorCls_not_special ESC (hpu ESC e)).1
                simp at this
              · exact absurd e (by decide)
          obtain ⟨pre, hpre⟩ := ih n hn
          exact ⟨(c :: (a ++ ESC :: rest)).take (n + 1) :: pre, by simp [hpre]⟩

theorem star_cls_greedy (p : Char → Bool) (m : Char) (b : Str) (hm : p m = false) :
    ∀ (u : Str) (n : Nat), (∀ c ∈ u, p c = true) → u.length ≤ n →
      ∃ tl, starAux (fun s1 => (Re.cls p).ms s1) n (u ++ m :: b) = (m :: b) :: tl := by
  intro u
  induction u with
  | nil =>
    intro n _ _
    cases n with
    | zero => exact ⟨[], rfl⟩
    | succ n => exact ⟨[], by simp [starAux, Re.ms, hm]⟩
  | cons d u ih =>
    intro n hu hn
    cases n with
    | zero => simp at hn
    | succ n =>
      have hd : p d = true := hu d (List.mem_cons_self _ _)
      obtain ⟨tl, htl⟩ := ih n (fun c hc => hu c (List.mem_cons_of_mem _ hc)) (by simpa using hn)
      refine ⟨tl ++ [d :: u ++ m :: b], ?_⟩
      simp [starAux, Re.ms, hd, htl]

/-- The colour pattern matches a colour sequence whole. -/
theorem matchLen_colorRe (u b : Str) (hu : ∀ c ∈ u, isColorCls c = true) (hne : u ≠ []) :
    colorRe.matchLen (ESC :: (u ++ 'm' :: b)) = some (u.length + 2) := by
  cases u with
  | nil => exact absurd rfl hne
  | cons d u =>
    have hd : isColorCls d = true := hu d (List.mem_cons_self _ _)
    obtain ⟨tl2, htl2⟩ := star_cls_greedy isColorCls 'm' b (by decide) u
      (u.length + (b.length + 1)) (fun c hc => hu c (List.mem_cons_of_mem _ hc)) (by omega)
    unfold Re.matchLen colorRe Re.plus
    simp [Re.ms, hd, htl2]
    omega

/-- When the last ESC of a text starts a colour sequence, that sequence is
the last match of the colour pattern. -/
theorem lastMatch_last_colour (a u b : Str) (hu : ∀ c ∈ u, isColorCls c = true)
    (hne : u ≠ []) (hb : ESC ∉ b) :
    lastMatch (a ++ ESC :: (u ++ 'm' :: b)) = ESC :: (u ++ ['m']) := by
  obtain ⟨pre, hpre⟩ := findAll_upto_esc (u ++ 'm' :: b) a 0 (Nat.zero_le _)
  have hm := matchLen_colorRe u b hu hne
  have hfind : colorRe.findAll 0 (ESC :: (u ++ 'm' :: b)) = [ESC :: (u ++ ['m'])] := by
    simp only [Re.findAll, hm]
    have h1 : u ++ 'm' :: b = (u ++ ['m']) ++ b := by simp
    have h2 : u.length + 1 = (u ++ ['m']).length := by simp
    rw [h1, h2, findAll_skip, findAll_no_start b 0 hb]
    have h3 : ESC :: (u ++ ['m'] ++ b) = (ESC :: (u ++ ['m'])) ++ b := by simp
    have h4 : (u ++ ['m']).length + 1 = (ESC :: (u ++ ['m'])).length := by simp
    rw [h3, h4, List.take_left]
  unfold lastMatch
  rw [hpre, hfind]
  simp

/-! ## The body after the directive line -/

theorem Expand_append (mapping : Str → Str) (r : Str) : ∀ p : Str, '$' ∉ p →
    Expand mapping 0 (p ++ r) = p ++ Expand mapping 0 r := by
  intro p
  induction p with
  | nil => intro _; rfl
  | cons c p ih =>
    intro h
    have hc : c ≠ '$' := fun e => h (by rw [e]; exact List.mem_cons_self _ _)
    have hp : '$' ∉ p := fun e => h (List.mem_cons_of_mem _ e)
    simp [Expand, hc, ih hp]

theorem HasPrefix_append (p r : Str) : HasPrefix (p ++ r) p = true := by
  induction p with
  | nil => cases r <;> rfl
  | cons c p ih => simp [HasPrefix, ih]

theorem TrimPrefix_append (p r : Str) : TrimPrefix (p ++ r) p = r := by
  simp [TrimPrefix, HasPrefix_append]

theorem HasPrefix_eq : ∀ (s p : Str), HasPrefix s p = true → s = p ++ TrimPrefix s p := by
  intro s p h
  have key : ∀ (p s : Str), HasPrefix s p = true → s = p ++ s.drop p.length := by
    intro p
    induction p with
    | nil => intro s _; rfl
    | cons c p ih =>
      intro s hs
      cases s with
      | nil => simp [HasPrefix] at hs
      | cons d s =>
        simp only [HasPrefix, Bool.and_eq_true, beq_iff_eq] at hs
        rw [hs.1]
        simp only [List.length_cons, List.drop_succ_cons, List.cons_append]
        exact congrArg _ (ih s hs.2)
  simp only [TrimPrefix, h, if_true]
  exact key p s h

theorem parseDigits_digits : ∀ (s : Str) (acc n : Nat), parseDigits s acc = some n →
    ∀ c ∈ s, isDigit c = true := by
  intro s
  induction s with
  | nil => intro _ _ _ c hc; cases hc
  | cons d s ih =>
    intro acc n h c hc
    simp only [parseDigits] at h
    split at h
    · rename_i hd
      rcases List.mem_cons.mp hc with e | e
      · rw [e]; exact hd
      · exact ih _ n h c e
    · cases h

theorem atoiDigits_digits (neg : Bool) (body : Str) (d : Int)
    (h : atoiDigits neg body = some d) : ∀ c ∈ body, isDigit c = true := by
  unfold atoiDigits at h
  cases body with
  | nil => cases h
  | cons x xs =>
    simp only at h
    cases hp : parseDigits (x :: xs) 0 with
    | none => simp [hp] at h
    | some n => exact parseDigits_digits _ 0 n hp

/-- A segment that `Atoi` accepts holds signs and digits only. -/
theorem Atoi_chars (s : Str) (d : Int) (h : Atoi s = some d) :
    ∀ c ∈ s, c = '-' ∨ c = '+' ∨ isDigit c = true := by
  intro c hc
  unfold Atoi at h
  split at h
  · rcases List.mem_cons.mp hc with e | e
    · left; exact e
    · right; right; exact atoiDigits_digits _ _ d h c e
  · rcases List.mem_cons.mp hc with e | e
    · right; left; exact e
    · right; right; exact atoiDigits_digits _ _ d h c e
  · right; right; exact atoiDigits_digits _ _ d h c hc

theorem Forall₂_of_mem {α β : Type} (R : α → β → Prop) : ∀ (xs : List α) (ys : List β),
    List.Forall₂ R xs ys → ∀ x ∈ xs, ∃ y, R x y := by
  intro xs ys h
  induction h with
  | nil => intro x hx; cases hx
  | @cons a b l1 l2 hab _ ih =>
    intro x hx
    rcases List.mem_cons.mp hx with e | e
    · rw [e]; exact ⟨b, hab⟩
    · exact ih x e

theorem mem_Split (sep : Char) : ∀ (s : Str) (c : Char), c ∈ s →
    c = sep ∨ ∃ l ∈ Split sep s, c ∈ l := by
  apply lines_induction sep (fun s => ∀ c, c ∈ s → c = sep ∨ ∃ l ∈ Split sep s, c ∈ l)
  · intro a ha c hc
    right
    rw [Split_of_not_mem sep a ha]
    exact ⟨a, List.mem_singleton_self _, hc⟩
  · intro a b ha ih c hc
    rw [Split_append_sep sep b a ha]
    rcases List.mem_append.mp hc with e | e
    · right
      exact ⟨a, List.mem_cons_self _ _, e⟩
    · rcases List.mem_cons.mp e with e | e
      · left; exact e
      · rcases ih c e with h | ⟨l, hl, hcl⟩
        · left; exact h
        · right
          exact ⟨l, List.mem_cons_of_mem _ hl, hcl⟩

/-- A directive line whose segments `Atoi` accepts holds no `$`. -/
theorem accepted_no_dollar (line : Str) (ds : List Int)
    (hpre : HasPrefix line ['#', '/'] = true)
    (hds : List.Forall₂ (fun seg d => Atoi seg = some d)
      (Split ';' (TrimPrefix line ['#', '/'])) ds) : '$' ∉ line := by
  intro hmem
  rw [HasPrefix_eq line _ hpre] at hmem
  rcases List.mem_append.mp hmem with e | e
  · exact absurd e (by decide)
  · rcases mem_Split ';' _ '$' e with h | ⟨l, hl, hcl⟩
    · exact absurd h (by decide)
    · obtain ⟨d, hd⟩ := Forall₂_of_mem _ _ _ hds l hl
      rcases Atoi_chars l d hd '$' hcl with h | h | h
      · exact absurd h (by decide)
      · exact absurd h (by decide)
      · exact absurd h (by decide)

/-- Where the first line holds no `$` and a newline follows it, the body
handed to the layout is the expansion of the text after the first line. -/
theorem expandArt_body (config : StormfetchConfig) (line rest : Str) (e : Expanded)
    (hpre : HasPrefix line ['#', '/'] = true) (hnl : '\n' ∉ line) (hd : '$' ∉ line)
    (he : expandArt config (line ++ '\n' :: rest) = .ok e) :
    e.ascii = Expand e.colorMap 0 rest := by
  have hfirst : firstLineOf (line ++ '\n' :: rest) = line := by
    unfold firstLineOf
    rw [Split_append_sep '\n' rest line hnl]
    rfl
  have hpre2 : HasPrefix (line ++ '\n' :: rest) ['#', '/'] = true := by
    rw [HasPrefix_eq line _ hpre]
    simp [HasPrefix]
  have hbody : ∀ m : GoMap, TrimPrefix (Expand m 0 (line ++ '\n' :: rest)) (line ++ ['\n'])
      = Expand m 0 rest := by
    intro m
    have h1 : line ++ '\n' :: rest = (line ++ ['\n']) ++ rest := by simp
    have h2 : '$' ∉ line ++ ['\n'] := by
      simp only [List.mem_append, List.mem_singleton, not_or]
      exact ⟨hd, by decide⟩
    rw [h1, Expand_append m rest _ h2, TrimPrefix_append]
  obtain ⟨colors, force⟩ := config
  cases force with
  | true =>
    rw [expandArt_force, if_pos hpre2, hfirst] at he
    cases he
    exact hbody _
  | false =>
    rw [expandArt_directive colors _ hpre2, hfirst] at he
    cases hap : applyDirective (directiveSegments (line ++ '\n' :: rest)) 0 colors with
    | error err => rw [hap] at he; cases he
    | ok cols =>
      rw [hap] at he
      cases he
      exact hbody _

/-! ## The lines of the final block -/

theorem Split_rowsText (X : Str) (hX : '\n' ∉ X) : ∀ rows : List Row,
    (∀ r ∈ rows, '\n' ∉ r.text) →
      Split '\n' (rowsText rows ++ X) = rows.map Row.text ++ [X] := by
  intro rows
  induction rows with
  | nil =>
    intro _
    simp [rowsText, Split_of_not_mem '\n' X hX]
  | cons r rows ih =>
    intro h
    have h1 : '\n' ∉ r.text := h r (List.mem_cons_self _ _)
    have h2 := ih (fun q hq => h q (List.mem_cons_of_mem _ hq))
    have e : rowsText (r :: rows) ++ X = r.text ++ '\n' :: (rowsText rows ++ X) := by
      simp [rowsText]
    rw [e, Split_append_sep '\n' _ _ h1, h2]
    rfl

/-- The final block, line by line: the rows, the last one without its
trailing whitespace and followed by the reset sequence. -/
theorem block_lines (init : List Row) (last : Row)
    (hvis : ∃ ch ∈ last.text, ch ∉ cutset)
    (hnl : ∀ r ∈ init ++ [last], '\n' ∉ r.text) :
    Split '\n' (TrimRight (rowsText (init ++ [last])) cutset ++ reset)
      = init.map Row.text ++ [TrimRight last.text cutset ++ reset] := by
  obtain ⟨ch, hch, hcut⟩ := hvis
  obtain ⟨A, B, hAB⟩ := List.append_of_mem hch
  have hlast : '\n' ∉ last.text := hnl last (by simp)
  have htrim : TrimRight (rowsText (init ++ [last])) cutset
      = rowsText init ++ TrimRight last.text cutset := by
    rw [rowsText_concat, TrimRight_append_cut _ _ '\n' (by decide), hAB,
      ← List.append_assoc, TrimRight_append_stop _ _ _ ch hcut,
      TrimRight_append_stop _ _ _ ch hcut]
    simp
  have hX : '\n' ∉ TrimRight last.text cutset ++ reset := by
    simp only [List.mem_append, not_or]
    exact ⟨TrimRight_not_mem _ _ _ hlast, reset_no_newline⟩
  rw [htrim, List.append_assoc]
  exact Split_rowsText _ hX init (fun r hr => hnl r (by simp [hr]))

/-- C6 (failing input): for the template that is the directive line "#/1;2"
alone, the directive is accepted and the palette becomes [1,2], but the body
handed to the layout is still the directive line, and the layout prints it
as art; whereas for every template whose accepted directive line is followed
by a newline, the body is the expansion of the text after that newline. -/
theorem C6_directive_line_kept :
    ((expandArt ⟨[], false⟩ "#/1;2".toList).map (fun e => (e.AnsiiColors, e.ascii))
        = .ok ([1, 2], "#/1;2".toList) ∧
      (runStormfetch ⟨[], false⟩ "#/1;2".toList "fact1".toList).map
          (fun c => c.rows.map Row.text)
        = .ok ["#/1;2     \x1b[0mfact1".toList]) ∧
    ∀ (colors : List Int) (line rest : Str) (ds : List Int),
      HasPrefix line ['#', '/'] = true → '\n' ∉ line →
      List.Forall₂ (fun seg d => Atoi seg = some d)
        (Split ';' (TrimPrefix line ['#', '/'])) ds →
      ∃ e, expandArt ⟨colors, false⟩ (line ++ '\n' :: rest) = .ok e ∧
        e.ascii = Expand e.colorMap 0 rest := by
  refine ⟨⟨by rfl, by rfl⟩, ?_⟩
  intro colors line rest ds hpre hnl hds
  have hd := accepted_no_dollar line ds hpre hds
  have hfirst : firstLineOf (line ++ '\n' :: rest) = line := by
    unfold firstLineOf
    rw [Split_append_sep '\n' rest line hnl]
    rfl
  have hpre2 : HasPrefix (line ++ '\n' :: rest) ['#', '/'] = true := by
    rw [HasPrefix_eq line _ hpre]
    simp [HasPrefix]
  have hseg : directiveSegments (line ++ '\n' :: rest)
      = Split ';' (TrimPrefix line ['#', '/']) := by
    unfold directiveSegments
    rw [hfirst]
  have hok := applyDirective_ok _ _ hds 0 colors (Nat.zero_le _)
  have he := expandArt_directive colors (line ++ '\n' :: rest) hpre2
  rw [hseg, hok] at he
  exact ⟨_, he, expandArt_body ⟨colors, false⟩ line rest _ hpre hnl hd he⟩

theorem runStormfetch_force (colors : List Int) (ascii out : Str) :
    ∃ c, runStormfetch ⟨colors, true⟩ ascii out = .ok c := by
  unfold runStormfetch
  rw [expandArt_force]
  simp only [bind, Except.bind]
  exact ⟨_, compose_spec _ _ _⟩

theorem runStormfetch_fatal_iff (colors : List Int) (ascii out : Str)
    (hpre : HasPrefix ascii ['#', '/'] = true) :
    runStormfetch ⟨colors, false⟩ ascii out = .error .fatal ↔
      ∃ seg ∈ directiveSegments ascii, Atoi seg = none := by
  unfold runStormfetch
  rw [expandArt_directive colors ascii hpre]
  constructor
  · intro h
    by_contra hno
    rcases applyDirective_cases (directiveSegments ascii) 0 colors with hf | ⟨cols, hc⟩
    · cases hcs : applyDirective (directiveSegments ascii) 0 colors with
      | error e =>
        have hall : ∀ seg ∈ directiveSegments ascii, ∃ d, Atoi seg = some d := by
          intro seg hseg
          cases hs : Atoi seg with
          | none => exact absurd ⟨seg, hseg, hs⟩ hno
          | some d => exact ⟨d, rfl⟩
        have hF : ∃ ds, List.Forall₂ (fun seg d => Atoi seg = some d)
            (directiveSegments ascii) ds := by
          generalize directiveSegments ascii = segs at hall
          induction segs with
          | nil => exact ⟨[], List.Forall₂.nil⟩
          | cons s segs ih =>
            obtain ⟨d, hd⟩ := hall s (List.mem_cons_self _ _)
            obtain ⟨ds, hds⟩ := ih (fun x hx => hall x (List.mem_cons_of_mem _ hx))
            exact ⟨d :: ds, List.Forall₂.cons hd hds⟩
        obtain ⟨ds, hds⟩ := hF
        rw [applyDirective_ok _ _ hds 0 colors (Nat.zero_le _)] at hcs
        cases hcs
      | ok cols => rw [hcs] at hf; cases hf
    · rw [hc] at h
      simp only [bind, Except.bind, compose_spec] at h
      cases h
  · intro h
    rw [applyDirective_fatal _ _ _ h]
    rfl

/-- C7 (counterexample): with the force flag set, the template whose
directive is "#/x" is rendered, and with the flag unset a directive whose
only segment is the negative integer -5 is accepted as well. -/
theorem C7_counterexample :
    (runStormfetch ⟨[], true⟩ "#/x\nab".toList "fact1".toList).map
        (fun c => c.rows.map Row.text)
      = .ok ["ab     \x1b[0mfact1".toList] ∧
    (runStormfetch ⟨[], false⟩ "#/-5\nab".toList "fact1".toList).map
        (fun c => c.rows.map Row.text)
      = .ok ["ab     \x1b[0mfact1".toList] :=
  ⟨by rfl, by rfl⟩

/-- C7 (amended): for a template that starts with "#/", with the force flag
unset the run aborts with a fatal error exactly when some segment of the
first line is not a decimal integer that `strconv.Atoi` accepts (an optional
sign, digits, within the range of an int), and no block is rendered then;
with the force flag set the directive is not parsed and the run never
aborts. -/
theorem C7_fatal_directive (colors : List Int) (ascii out : Str)
    (hpre : HasPrefix ascii ['#', '/'] = true) :
    (runStormfetch ⟨colors, false⟩ ascii out = .error .fatal ↔
      ∃ seg ∈ Split ';' (TrimPrefix ((Split '\n' ascii).headD []) ['#', '/']),
        Atoi seg = none) ∧
    ∃ c, runStormfetch ⟨colors, true⟩ ascii out = .ok c :=
  ⟨runStormfetch_fatal_iff colors ascii out hpre, runStormfetch_force colors ascii out⟩

/-- C7 (witness): the template "#/1;x" with a body. -/
theorem C7_fatal_directive_witness :
    (runStormfetch ⟨[], false⟩ "#/1;x\nab".toList "fact1".toList = .error .fatal ↔
      ∃ seg ∈ Split ';' (TrimPrefix ((Split '\n' "#/1;x\nab".toList).headD []) ['#', '/']),
        Atoi seg = none) ∧
    ∃ c, runStormfetch ⟨[], true⟩ "#/1;x\nab".toList "fact1".toList = .ok c :=
  C7_fatal_directive [] "#/1;x\nab".toList "fact1".toList (by decide)

/-- C8: with the force flag set, for every template the directive handling
succeeds and leaves the configured palette and the map built from it. -/
theorem C8_force_keeps_palette (colors : List Int) (ascii : Str) :
    ∃ e, expandArt ⟨colors, true⟩ ascii = .ok e ∧
      e.AnsiiColors = colors ∧
      setColorMap colors colorMap0 = .ok e.colorMap :=
  ⟨_, expandArt_force colors ascii, rfl, setColorMap_eq colors colorMap0⟩

/-- Two arts of one-byte characters on which the part before the fact text is
not `maxWidth + 5` wide after stripping: for art whose first line sets the
five-digit colour 12345, `StripAnsii` leaves the final "m" of the
carried-over colour in place, so the second row is 9 wide while
`maxWidth + 5` is 8; and for art whose second line holds a BEL, the
carried-over colour and the text up to the BEL are stripped as one sequence,
so the second row is 7 wide while `maxWidth + 5` is 10. -/
theorem carried_colour_width_examples :
    ((compose colorMap0 artWide "f".toList).map
        (fun c => (c.maxWidth + 5, c.rows.map (fun r => (StripAnsii r.preFact).length),
          c.rows.map (fun r => goLen (StripAnsii r.preFact))))
      = .ok (8, [8, 9], [8, 9])) ∧
    ((compose colorMap0 artBel "f".toList).map
        (fun c => (c.maxWidth + 5, c.rows.map (fun r => (StripAnsii r.preFact).length),
          c.rows.map (fun r => goLen (StripAnsii r.preFact))))
      = .ok (10, [10, 7], [10, 7])) :=
  ⟨by rfl, by rfl⟩

theorem goLen_eq_length : ∀ s : Str, (∀ ch ∈ s, runeLen ch = 1) → goLen s = s.length := by
  intro s
  induction s with
  | nil => intro _; rfl
  | cons c s ih =>
    intro h
    have h1 := h c (List.mem_cons_self _ _)
    have h2 := ih (fun ch hch => h ch (List.mem_cons_of_mem _ hch))
    simp only [goLen, List.length_cons, h1, h2]
    omega

theorem StripAnsii_mem (s : Str) (c : Char) (h : c ∈ StripAnsii s) : c ∈ s :=
  removeAll_mem ansiRe s 0 c h

theorem StripAnsii_length_of_bytes (ascii s : Str) (hascii : ∀ ch ∈ ascii, runeLen ch = 1)
    (hs : ∀ ch ∈ s, ch = ' ' ∨ ch ∈ ascii) : goLen (StripAnsii s) = (StripAnsii s).length := by
  apply goLen_eq_length
  intro ch hch
  rcases hs ch (StripAnsii_mem s ch hch) with h | h
  · rw [h]; decide
  · exact hascii ch h

/-- Every character of the part of a row before the fact text is a space or a
character of the art. -/
theorem layout_row_chars (colorMap : GoMap) (ascii out : Str) :
    ∃ c, compose colorMap ascii out = .ok c ∧
      ∀ r ∈ c.rows, ∀ ch, (ch ∈ r.lastAsciiColor ∨ ch ∈ r.padded) → ch = ' ' ∨ ch ∈ ascii := by
  refine ⟨_, compose_spec colorMap ascii out, ?_⟩
  intro r hr ch hch
  by_contra hno
  simp only [not_or] at hno
  have := specRows_parts_not_mem ch hno.1 (colorMap ['C', '0']) (Split '\n' ascii)
    (Split '\n' (StripAnsii ascii)) (Split '\n' out) (maxWidthOf (StripAnsii ascii))
    (fun l hl hm => hno.2 (Split_mem_subset '\n' ascii l ch hl hm)) _ 0 [] (by simp) r hr
  rcases hch with h | h
  · exact this.1 h
  · exact this.2 h

/-- The widths in bytes: for every expanded art and output the layout
succeeds; the `maxWidth` it computes is the largest Go `len` of an
escape-stripped art line; the stripped padded art line of every row has
`len` equal to `maxWidth + 5`, and so has the stripped part before the fact
text when the carried-over colour is empty, or is removed by `StripAnsii`
while the art holds no BEL; stripping a row gives the stripped part before
the fact text followed by the stripped reset and fact.  `StripAnsii` removes
ESC[0m, ESC[1m and every sequence ESC[38;5;<n>m whose code has at most four
digits. -/
theorem padded_width_bytes (colorMap : GoMap) (ascii out : Str) :
    (∃ c, compose colorMap ascii out = .ok c ∧
      (∀ l ∈ Split '\n' ascii, goLen (StripAnsii l) ≤ c.maxWidth) ∧
      (∃ l ∈ Split '\n' ascii, goLen (StripAnsii l) = c.maxWidth) ∧
      ∀ (i : Nat) (r : Row), c.rows[i]? = some r →
        goLen (StripAnsii r.padded) = c.maxWidth + 5 ∧
        (r.lastAsciiColor = [] ∨ (StripAnsii r.lastAsciiColor = [] ∧ BEL ∉ ascii) →
          goLen (StripAnsii (r.lastAsciiColor ++ r.padded)) = c.maxWidth + 5) ∧
        (∀ fact, (Split '\n' out)[i]? = some fact →
          StripAnsii (r.lastAsciiColor ++ r.line)
            = StripAnsii (r.lastAsciiColor ++ r.padded)
              ++ StripAnsii (colorMap ['C', '0'] ++ fact) ∧
          (colorMap ['C', '0'] = [ESC, '[', '0', 'm'] → BEL ∉ fact →
            StripAnsii (r.lastAsciiColor ++ r.line)
              = StripAnsii (r.lastAsciiColor ++ r.padded) ++ StripAnsii fact))) ∧
    ((∀ digits : Str, digits.length ≤ 4 → (∀ d ∈ digits, isDigit d = true) →
        StripAnsii ([ESC, '[', '3', '8', ';', '5', ';'] ++ digits ++ ['m']) = []) ∧
      StripAnsii [ESC, '[', '0', 'm'] = [] ∧ StripAnsii [ESC, '[', '1', 'm'] = []) := by
  refine ⟨?_, fun digits h1 h2 => color256_clean digits h1 h2, by decide, by decide⟩
  have hW := (maxWidthOf_spec ascii).1
  refine ⟨_, compose_spec colorMap ascii out, hW, (maxWidthOf_spec ascii).2, ?_⟩
  intro i r hr
  simp only at hr
  rw [Split_StripAnsii] at hr
  have hmem := List.getElem?_mem hr
  obtain ⟨prevPre, hrk, _, _⟩ := specRows_get _ _ _ _ _ _ _ _ _ _ hr
  have hw : goLen (StripAnsii r.padded) = maxWidthOf (StripAnsii ascii) + 5 := by
    rw [hrk]
    exact specRow_padded_width _ _ _ _ _ _ hW
  show goLen (StripAnsii r.padded) = maxWidthOf (StripAnsii ascii) + 5 ∧
    (r.lastAsciiColor = [] ∨ (StripAnsii r.lastAsciiColor = [] ∧ BEL ∉ ascii) →
      goLen (StripAnsii (r.lastAsciiColor ++ r.padded)) = maxWidthOf (StripAnsii ascii) + 5) ∧ _
  refine ⟨hw, ?_, ?_⟩
  · intro h
    rcases h with h0 | ⟨hclean, hbel⟩
    · rw [h0, List.nil_append]
      exact hw
    · have hparts := specRows_parts_not_mem BEL (by decide) _ _ _ _ _
        (fun l hl hm => hbel (Split_mem_subset '\n' ascii l BEL hl hm)) _ 0 []
        (by simp) r hmem
      rcases specRow_lastColor_shape (colorMap ['C', '0']) (Split '\n' ascii)
        ((Split '\n' ascii).map StripAnsii) (Split '\n' out) (maxWidthOf (StripAnsii ascii))
        prevPre (0 + i) with h0 | ⟨u, hu, hcls⟩
      · rw [← hrk] at h0
        rw [h0, List.nil_append]
        exact hw
      · rw [← hrk] at hu
        rw [hu] at hclean ⊢
        have := StripAnsii_clean u r.padded hcls hparts.2 hclean
        rw [show ESC :: (u ++ ['m']) ++ r.padded = ESC :: (u ++ 'm' :: r.padded) by simp, this]
        exact hw
  · intro fact hfact
    have hi : 0 + i < (Split '\n' out).length := by
      by_contra h
      rw [List.getElem?_eq_none (by omega)] at hfact
      cases hfact
    have hget : (Split '\n' out).getD (0 + i) [] = fact := by
      rw [List.getD_eq_getElem?_getD, Nat.zero_add, hfact]
      rfl
    have hsplit := specRow_strip_text (colorMap ['C', '0']) (Split '\n' ascii)
      (Split '\n' out) (maxWidthOf (StripAnsii ascii)) prevPre (0 + i) hW hi
    rw [← hrk, hget] at hsplit
    refine ⟨hsplit, ?_⟩
    intro hC0 hbel
    have hr0 := reset_clean fact hbel
    unfold Row.text Row.preFact at hsplit
    rw [hsplit, hC0]
    exact congrArg _ hr0

/-- C1 (failing input): for the art "█", "ab" (the block glyph is one
character of three bytes) the layout takes `maxWidth` = 3 and the parts before
the fact text are 6 and 8 characters wide after stripping, neither of them
7 = 2 + 5 for the widest art line of 2 characters. For art lines of 5, 12
and 3 characters `maxWidth` is 12 and every row is 17 wide before the fact
text. For every art made of one-byte characters the layout does what the claim says: it succeeds,
`maxWidth` is the largest number of characters of an escape-stripped art
line, in every composed row the stripped padded art line (or blank padding)
has exactly `maxWidth + 5` characters, so has the whole part before the fact
text when the carried-over colour is empty, or is removed by `StripAnsii`
while the art holds no BEL, and stripping a row gives the stripped part
before the fact text followed by the stripped reset and fact, which is the
stripped fact alone when the fact holds no BEL.  `StripAnsii` removes ESC[0m,
ESC[1m and every sequence ESC[38;5;<n>m whose code has at most four
digits. -/
theorem C1_padded_width :
    ((compose colorMap0 artGlyph "f".toList).map
        (fun c => (c.maxWidth, c.rows.map (fun r => (StripAnsii r.preFact).length)))
      = .ok (3, [6, 8]) ∧
      (Split '\n' artGlyph).map (fun l => (StripAnsii l).length) = [1, 2]) ∧
    ((compose colorMap0 "aaaaa\nbbbbbbbbbbbb\nccc".toList "f".toList).map
        (fun c => (c.maxWidth, c.rows.map (fun r => (StripAnsii r.preFact).length)))
      = .ok (12, [17, 17, 17])) ∧
    (∀ (colorMap : GoMap) (ascii out : Str), (∀ ch ∈ ascii, runeLen ch = 1) →
      ∃ c, compose colorMap ascii out = .ok c ∧
        (∀ l ∈ Split '\n' ascii, (StripAnsii l).length ≤ c.maxWidth) ∧
        (∃ l ∈ Split '\n' ascii, (StripAnsii l).length = c.maxWidth) ∧
        ∀ (i : Nat) (r : Row), c.rows[i]? = some r →
          (StripAnsii r.padded).length = c.maxWidth + 5 ∧
          (r.lastAsciiColor = [] ∨ (StripAnsii r.lastAsciiColor = [] ∧ BEL ∉ ascii) →
            (StripAnsii (r.lastAsciiColor ++ r.padded)).length = c.maxWidth + 5) ∧
          (∀ fact, (Split '\n' out)[i]? = some fact →
            StripAnsii (r.lastAsciiColor ++ r.line)
              = StripAnsii (r.lastAsciiColor ++ r.padded)
                ++ StripAnsii (colorMap ['C', '0'] ++ fact) ∧
            (colorMap ['C', '0'] = [ESC, '[', '0', 'm'] → BEL ∉ fact →
              StripAnsii (r.lastAsciiColor ++ r.line)
                = StripAnsii (r.lastAsciiColor ++ r.padded) ++ StripAnsii fact))) ∧
    ((∀ digits : Str, digits.length ≤ 4 → (∀ d ∈ digits, isDigit d = true) →
        StripAnsii ([ESC, '[', '3', '8', ';', '5', ';'] ++ digits ++ ['m']) = []) ∧
      StripAnsii [ESC, '[', '0', 'm'] = [] ∧ StripAnsii [ESC, '[', '1', 'm'] = []) := by
  refine ⟨⟨by rfl, by rfl⟩, by rfl, ?_, fun digits h1 h2 => color256_clean digits h1 h2,
    by decide, by decide⟩
  intro colorMap ascii out hascii
  obtain ⟨c, hc, hle, ⟨l0, hl0, hatt⟩, hrows⟩ := (padded_width_bytes colorMap ascii out).1
  obtain ⟨c1, hc1, hchars⟩ := layout_row_chars colorMap ascii out
  have hcc : c1 = c := by
    rw [hc] at hc1
    cases hc1
    rfl
  subst hcc
  have hline : ∀ l ∈ Split '\n' ascii, goLen (StripAnsii l) = (StripAnsii l).length :=
    fun l hl => StripAnsii_length_of_bytes ascii l hascii
      (fun ch hch => Or.inr (Split_mem_subset '\n' ascii l ch hl hch))
  refine ⟨c1, hc, ?_, ⟨l0, hl0, ?_⟩, ?_⟩
  · intro l hl
    rw [← hline l hl]
    exact hle l hl
  · rw [← hline l0 hl0]
    exact hatt
  · intro i r hr
    obtain ⟨h1, h2, h3⟩ := hrows i r hr
    have hmem := List.getElem?_mem hr
    refine ⟨?_, ?_, h3⟩
    · rw [← StripAnsii_length_of_bytes ascii r.padded hascii
        (fun ch hch => hchars r hmem ch (Or.inr hch))]
      exact h1
    · intro h
      rw [← StripAnsii_length_of_bytes ascii (r.lastAsciiColor ++ r.padded) hascii
        (fun ch hch => hchars r hmem ch (List.mem_append.mp hch))]
      exact h2 h

/-- C2 (counterexample): the art "ab" followed by a newline has two lines
and the output "x" has one, but the second row is blank and is trimmed away:
the final block has one line. -/
theorem C2_counterexample :
    (compose colorMap0 "ab\n".toList "x".toList).map (fun c => lineCount c.block) = .ok 1 ∧
    lineCount "ab\n".toList = 2 ∧ lineCount "x".toList = 1 :=
  ⟨by rfl, by rfl, by rfl⟩

/-- C2 (amended): for every expanded art with N lines and every output block
with M lines the layout composes exactly max(N, M) rows; the final block
(after the trailing trim and the appended reset) has at most max(N, M)
lines, and exactly max(N, M) when M >= N or when the last row holds a
character other than space, tab and newline. -/
theorem C2_line_count (colorMap : GoMap) (ascii out : Str)
    (hC0 : colorMap ['C', '0'] = reset) :
    ∃ c, compose colorMap ascii out = .ok c ∧
      c.rows.length = max (lineCount ascii) (lineCount out) ∧
      c.block = TrimRight (rowsText c.rows) cutset ++ reset ∧
      lineCount c.block ≤ max (lineCount ascii) (lineCount out) ∧
      (lineCount ascii ≤ lineCount out →
        lineCount c.block = max (lineCount ascii) (lineCount out)) ∧
      (∀ last, c.rows.getLast? = some last → (∃ ch ∈ last.text, ch ∉ cutset) →
        lineCount c.block = max (lineCount ascii) (lineCount out)) := by
  obtain ⟨c, hc, h1, h2, h3, h4, h5, _⟩ := layout_line_count colorMap ascii out hC0
  exact ⟨c, hc, h1, h2, h3, h4, h5⟩

/-- C2 (witness): three art lines beside two output lines. -/
theorem C2_line_count_witness :
    colorMap0 ['C', '0'] = reset ∧
    ∃ c, compose colorMap0 "a\nb\nc".toList "x\ny".toList = .ok c ∧
      c.rows.length = max (lineCount "a\nb\nc".toList) (lineCount "x\ny".toList) ∧
      c.block = TrimRight (rowsText c.rows) cutset ++ reset ∧
      lineCount c.block ≤ max (lineCount "a\nb\nc".toList) (lineCount "x\ny".toList) ∧
      (lineCount "a\nb\nc".toList ≤ lineCount "x\ny".toList →
        lineCount c.block = max (lineCount "a\nb\nc".toList) (lineCount "x\ny".toList)) ∧
      (∀ last, c.rows.getLast? = some last → (∃ ch ∈ last.text, ch ∉ cutset) →
        lineCount c.block = max (lineCount "a\nb\nc".toList) (lineCount "x\ny".toList)) :=
  ⟨by decide, C2_line_count colorMap0 "a\nb\nc".toList "x\ny".toList (by decide)⟩

/-- For every art with N lines and every output block with M lines where
M > N, the final block has exactly M lines and M rows are composed; each of
the rows N, ..., M-1 has no carried-over colour and is `maxWidth + 5` spaces
followed by the reset sequence and that row's fact line; the row is the line
of the final block at its index, where the last line of the block has lost
the trailing whitespace of its fact and ends in the final reset sequence. -/
theorem blank_rows_general (colorMap : GoMap) (ascii out : Str)
    (hC0 : colorMap ['C', '0'] = reset) (hNM : lineCount ascii < lineCount out) :
    ∃ c, compose colorMap ascii out = .ok c ∧
      lineCount c.block = lineCount out ∧
      c.rows.length = lineCount out ∧
      ∀ i fact, lineCount ascii ≤ i → (Split '\n' out)[i]? = some fact →
        ∃ r, c.rows[i]? = some r ∧ r.lastAsciiColor = [] ∧
          r.text = spaces (c.maxWidth + 5) ++ [ESC, '[', '0', 'm'] ++ fact ∧
          (Split '\n' c.block)[i]? = some
            (if i + 1 = lineCount out then
              spaces (c.maxWidth + 5) ++ [ESC, '[', '0', 'm'] ++ TrimRight fact ['\n', '\t', ' ']
                ++ [ESC, '[', '0', 'm']
            else r.text) := by
  obtain ⟨c, hc, hrows, hblock, _, hlines, _, hnl⟩ := layout_line_count colorMap ascii out hC0
  obtain ⟨c1, hc1, hblank⟩ := layout_blank_rows colorMap ascii out hC0
  have hcc : c1 = c := by
    rw [hc] at hc1
    cases hc1
    rfl
  subst hcc
  have hmax : max (lineCount ascii) (lineCount out) = lineCount out := by omega
  rw [hmax] at hrows
  have hpos : 0 < lineCount out := by omega
  have hne : c1.rows ≠ [] := by
    intro h
    rw [h] at hrows
    simp at hrows
    omega
  obtain ⟨init, last, hil⟩ := exists_concat c1.rows hne
  have hinit : init.length + 1 = lineCount out := by
    rw [← hrows, hil]
    simp
  have hF : (Split '\n' out).length = lineCount out := rfl
  obtain ⟨lastFact, hlastFact⟩ : ∃ f, (Split '\n' out)[init.length]? = some f :=
    ⟨_, List.getElem?_eq_getElem (by omega)⟩
  obtain ⟨r0, hr0, _, _, hr0t⟩ := hblank init.length lastFact (by omega) hlastFact
  have hr0l : r0 = last := by
    rw [hil] at hr0
    simpa using hr0.symm
  subst hr0l
  have hvis : ∃ ch ∈ r0.text, ch ∉ cutset := by
    refine ⟨'m', ?_, by decide⟩
    rw [hr0t]
    simp [reset]
  have hsplit := block_lines init r0 hvis (by rw [← hil]; exact hnl)
  rw [← hil, ← hblock] at hsplit
  refine ⟨c1, hc, ?_, hrows, ?_⟩
  · rw [hlines (by omega), hmax]
  · intro i fact hi hfact
    obtain ⟨r, hr, h0, _, ht⟩ := hblank i fact hi hfact
    refine ⟨r, hr, h0, ht, ?_⟩
    have hiM : i < lineCount out := by
      by_contra h
      rw [List.getElem?_eq_none (by omega)] at hfact
      cases hfact
    rw [hsplit]
    by_cases hlastrow : i + 1 = lineCount out
    · have hieq : i = init.length := by omega
      subst hieq
      rw [hlastFact] at hfact
      cases hfact
      rw [if_pos hlastrow, List.getElem?_append_right (by simp)]
      simp only [List.length_map, Nat.sub_self, List.getElem?_cons_zero, Option.some.injEq]
      rw [hr0t]
      have e : spaces (c1.maxWidth + 5) ++ reset ++ lastFact
          = (spaces (c1.maxWidth + 5) ++ [ESC, '[', '0']) ++ 'm' :: lastFact := by
        simp [reset]
      rw [e, TrimRight_append_stop _ _ _ 'm' (by decide)]
      simp [cutset, reset]
    · have hilt : i < init.length := by omega
      rw [if_neg hlastrow, List.getElem?_append_left (by simpa using hilt)]
      rw [hil, List.getElem?_append_left hilt] at hr
      simp [hr]

/-- C3 (failing input): for the art "█" (one line of one character, three
bytes) beside the output "x", "y" the layout takes `maxWidth` = 3 and the
second row, which has no art, is 8 spaces, the reset sequence and "y": 8
spaces, not the 6 = 1 + 5 of an art line one character wide. For the art
"ab" beside three output lines `maxWidth` is 2 and the two rows without art
are 7 spaces, the reset sequence and the fact line. For every art with N
lines and every output block with M > N lines the final block has exactly M
lines and M rows are composed; each of the rows N, ..., M-1 has no
carried-over colour and is `maxWidth + 5` spaces followed by the reset
sequence and that row's fact line, and it is the line of the final block at
its index (the last line of the block having lost the trailing whitespace of
its fact and gained the final reset); and when the art is made of one-byte
characters, `maxWidth` is the largest number of characters of an
escape-stripped art line. -/
theorem C3_blank_rows :
    ((compose colorMap0 artGlyphLine "x\ny".toList).map
        (fun c => (c.maxWidth, c.rows.map Row.text))
      = .ok (3, [artGlyphLine ++ "     \x1b[0mx".toList, "        \x1b[0my".toList]) ∧
      (Split '\n' artGlyphLine).map (fun l => (StripAnsii l).length) = [1]) ∧
    ((compose colorMap0 "ab".toList "x\ny\nz".toList).map
        (fun c => (c.maxWidth, c.rows.map Row.text))
      = .ok (2, ["ab     \x1b[0mx".toList, "       \x1b[0my".toList,
          "       \x1b[0mz".toList])) ∧
    ∀ (colorMap : GoMap) (ascii out : Str),
      colorMap ['C', '0'] = reset → lineCount ascii < lineCount out →
      ∃ c, compose colorMap ascii out = .ok c ∧
        lineCount c.block = lineCount out ∧
        c.rows.length = lineCount out ∧
        ((∀ ch ∈ ascii, runeLen ch = 1) →
          (∀ l ∈ Split '\n' ascii, (StripAnsii l).length ≤ c.maxWidth) ∧
          ∃ l ∈ Split '\n' ascii, (StripAnsii l).length = c.maxWidth) ∧
        ∀ i fact, lineCount ascii ≤ i → (Split '\n' out)[i]? = some fact →
          ∃ r, c.rows[i]? = some r ∧ r.lastAsciiColor = [] ∧
            r.text = spaces (c.maxWidth + 5) ++ [ESC, '[', '0', 'm'] ++ fact ∧
            (Split '\n' c.block)[i]? = some
              (if i + 1 = lineCount out then
                spaces (c.maxWidth + 5) ++ [ESC, '[', '0', 'm']
                  ++ TrimRight fact ['\n', '\t', ' '] ++ [ESC, '[', '0', 'm']
              else r.text) := by
  refine ⟨⟨by rfl, by rfl⟩, by rfl, ?_⟩
  intro colorMap ascii out hC0 hNM
  obtain ⟨c, hc, h1, h2, h3⟩ := blank_rows_general colorMap ascii out hC0 hNM
  refine ⟨c, hc, h1, h2, ?_, h3⟩
  intro hascii
  have hcv : c.maxWidth = maxWidthOf (StripAnsii ascii) := by
    rw [compose_spec] at hc
    cases hc
    rfl
  have hline : ∀ l ∈ Split '\n' ascii, goLen (StripAnsii l) = (StripAnsii l).length :=
    fun l hl => StripAnsii_length_of_bytes ascii l hascii
      (fun ch hch => Or.inr (Split_mem_subset '\n' ascii l ch hl hch))
  obtain ⟨hle, l0, hl0, hatt⟩ := maxWidthOf_spec ascii
  rw [hcv]
  refine ⟨fun l hl => ?_, l0, hl0, ?_⟩
  · rw [← hline l hl]
    exact hle l hl
  · rw [← hline l0 hl0]
    exact hatt

/-- C9 (counterexample): the template of the example holds no `$`, so
`os.Expand` replaces nothing: the first row starts with the text "C1Hi", not
with the bold colour-1 escape, and no colour is carried into the second
row. -/
theorem C9_counterexample :
    (runStormfetch ⟨[], false⟩ exampleTemplate exampleOut).map
        (fun c => c.rows.map (fun r => (r.lastAsciiColor, r.text)))
      = .ok [([], "C1Hi     \x1b[0mfact1".toList), ([], "C2Yo     \x1b[0mfact2".toList)] ∧
    HasPrefix "C1Hi     \x1b[0mfact1".toList (boldColor 1) = false :=
  ⟨by rfl, by rfl⟩

/-- C9 (amended): for the template "#/1;2", "C1Hi", "C2Yo" as written the
block has two rows, "C1Hi" and "C2Yo" as plain text padded to width 9, each
followed by the reset sequence and its fact; with the placeholders written
`$` `{C1}` and `$` `{C2}` the first row is the bold colour-1 escape
followed by "Hi", padded to visible width 7 (`maxWidth` 2 plus 5), then the
reset sequence and "fact1", and the second row begins with the carried-over
colour ESC[38;5;1m, then the bold colour-2 escape followed by "Yo", padded,
then the reset sequence and "fact2". -/
theorem C9_end_to_end :
    runStormfetch ⟨[], false⟩ exampleTemplate exampleOut
      = .ok ⟨4,
          [⟨[], "C1Hi".toList ++ spaces 5, "C1Hi".toList ++ spaces 5 ++ reset ++ "fact1".toList⟩,
           ⟨[], "C2Yo".toList ++ spaces 5, "C2Yo".toList ++ spaces 5 ++ reset ++ "fact2".toList⟩],
          "C1Hi     \x1b[0mfact1\nC2Yo     \x1b[0mfact2\x1b[0m".toList⟩ ∧
    runStormfetch ⟨[], false⟩ exampleTemplateBraced exampleOut
      = .ok ⟨2,
          [⟨[], boldColor 1 ++ "Hi".toList ++ spaces 5,
            boldColor 1 ++ "Hi".toList ++ spaces 5 ++ reset ++ "fact1".toList⟩,
           ⟨"\x1b[38;5;1m".toList, boldColor 2 ++ "Yo".toList ++ spaces 5,
            boldColor 2 ++ "Yo".toList ++ spaces 5 ++ reset ++ "fact2".toList⟩],
          "\x1b[1m\x1b[38;5;1mHi     \x1b[0mfact1\n\x1b[38;5;1m\x1b[1m\x1b[38;5;2mYo     \x1b[0mfact2\x1b[0m".toList⟩ ∧
    (StripAnsii (boldColor 1 ++ "Hi".toList ++ spaces 5)).length = 7 ∧
    (StripAnsii ("\x1b[38;5;1m".toList ++ (boldColor 2 ++ "Yo".toList ++ spaces 5))).length = 7 :=
  ⟨by rfl, by rfl, by rfl, by rfl⟩

/-- C10 (counterexample): in the art "ESC[38;5;1mA", "B", "C" the second
line "B" holds no colour sequence, yet the third row carries the colour of
the first line: the pattern is run over the composed second row, which
begins with its own carried-over colour. -/
theorem C10_counterexample :
    (compose colorMap0 artCarry "f".toList).map (fun c => c.rows.map (fun r => r.lastAsciiColor))
      = .ok [[], "\x1b[38;5;1m".toList, "\x1b[38;5;1m".toList] ∧
    Split '\n' artCarry = ["\x1b[38;5;1mA".toList, "B".toList, "C".toList] ∧
    colorRe.findAll 0 "B".toList = [] :=
  ⟨by rfl, by rfl, by rfl⟩

/-- C10 (amended): row 0 has an empty colour prefix; for every row i + 1 that
has an art line, `lastAsciiColor` is the last match of the colour pattern in
the composed row i (the carried-over colour of row i followed by its padded
art line), so a colour is carried on through art lines that hold no colour
sequence, and it is empty when the composed row i holds no match; when the
last ESC of the composed row i starts a 256-colour sequence
ESC[38;5;<digits>m, `lastAsciiColor` is that sequence; every row with an art
line is emitted as `lastAsciiColor` followed by the art line padded with
spaces. -/
theorem C10_carried_colour (colorMap : GoMap) (ascii out : Str) :
    ∃ c, compose colorMap ascii out = .ok c ∧
      (∀ r : Row, c.rows[0]? = some r → r.lastAsciiColor = []) ∧
      (∀ (i : Nat) (p r : Row), i + 1 < lineCount ascii →
        c.rows[i]? = some p → c.rows[i + 1]? = some r →
        r.lastAsciiColor =
            ((colorRe.findAll 0 (p.lastAsciiColor ++ p.padded)).getLast?).getD [] ∧
          ∀ (a digits b : Str),
            p.lastAsciiColor ++ p.padded = a ++ color256 digits ++ b →
            digits ≠ [] → (∀ d ∈ digits, isDigit d = true) → ESC ∉ b →
            r.lastAsciiColor = color256 digits) ∧
      (∀ (i : Nat) (r : Row) (line : Str), c.rows[i]? = some r →
        (Split '\n' ascii)[i]? = some line →
        ∃ n tail, r.padded = line ++ spaces n ∧
          r.text = r.lastAsciiColor ++ (line ++ spaces n) ++ tail) := by
  refine ⟨_, compose_spec colorMap ascii out, ?_, ?_, ?_⟩
  · intro r hr
    simp only at hr
    obtain ⟨prevPre, hrk, _, _⟩ := specRows_get _ _ _ _ _ _ _ _ _ _ hr
    rw [hrk]
    simp [specRow]
  · intro i p r hi hp hr
    simp only at hr
    obtain ⟨prevPre, hrk, _, hprev⟩ := specRows_get _ _ _ _ _ _ _ _ _ _ hr
    obtain ⟨q, hq, hpq⟩ := hprev i rfl
    simp only at hp
    rw [hp] at hq
    cases hq
    have hi1 : 0 + (i + 1) < (Split '\n' ascii).length := by
      have : i + 1 < (Split '\n' ascii).length := hi
      omega
    have hlast : r.lastAsciiColor = lastMatch (p.lastAsciiColor ++ p.padded) := by
      rw [hrk, hpq]
      simp only [specRow, hi1, true_and, Row.preFact]
      simp
    refine ⟨hlast, ?_⟩
    intro a digits b hshape _ hdig hb
    rw [hlast, hshape]
    have hu : ∀ ch ∈ ['[', '3', '8', ';', '5', ';'] ++ digits, isColorCls ch = true := by
      intro ch hch
      rcases List.mem_append.mp hch with e | e
      · have hall : ∀ x ∈ ['[', '3', '8', ';', '5', ';'], isColorCls x = true := by decide
        exact hall ch e
      · have := hdig ch e
        simp [isColorCls, this]
    have := lastMatch_last_colour a (['[', '3', '8', ';', '5', ';'] ++ digits) b hu (by simp) hb
    simpa [color256] using this
  · intro i r line hr hline
    simp only at hr
    obtain ⟨prevPre, hrk, _, _⟩ := specRows_get _ _ _ _ _ _ _ _ _ _ hr
    have hi : i < (Split '\n' ascii).length := by
      by_contra h
      rw [List.getElem?_eq_none (by omega)] at hline
      cases hline
    have hget : (Split '\n' ascii).getD i [] = line := by
      rw [List.getD_eq_getElem?_getD, hline]
      rfl
    rw [hrk]
    simp only [specRow, Row.text, Nat.zero_add, if_pos hi, hget]
    refine ⟨_, if i < (Split '\n' out).length then
      colorMap ['C', '0'] ++ (Split '\n' out).getD i [] else [], rfl, ?_⟩
    by_cases hf : i < (Split '\n' out).length
    · simp [hf]
    · simp [hf]

theorem rowsText_join : ∀ rows : List Row, rows ≠ [] →
    rowsText rows = joinLines (rows.map Row.text) ++ ['\n'] := by
  intro rows
  induction rows with
  | nil => intro h; exact absurd rfl h
  | cons r rs ih =>
    intro _
    cases rs with
    | nil => simp [rowsText, joinLines, List.intercalate]
    | cons r2 rs2 =>
      have h := ih (by simp)
      simp only [rowsText, List.flatMap_cons] at h ⊢
      rw [h]
      simp [joinLines, List.intercalate, List.intersperse]

theorem TrimRight_rowsText (rows : List Row) :
    TrimRight (rowsText rows) cutset = TrimRight (joinLines (rows.map Row.text)) cutset := by
  by_cases h : rows = []
  · subst h
    rfl
  · rw [rowsText_join rows h]
    exact TrimRight_append_cut _ _ _ (by decide)

theorem dropWhile_head_stop (p : Char → Bool) : ∀ (l : Str) (ch : Char),
    (l.dropWhile p).head? = some ch → p ch = false := by
  intro l
  induction l with
  | nil => intro ch h; simp at h
  | cons a l ih =>
    intro ch h
    by_cases ha : p a = true
    · rw [List.dropWhile_cons_of_pos ha] at h
      exact ih ch h
    · rw [List.dropWhile_cons_of_neg ha] at h
      simp only [List.head?_cons, Option.some.injEq] at h
      subst h
      simpa using ha

theorem TrimRight_getLast (s cut : Str) (ch : Char)
    (h : (TrimRight s cut).getLast? = some ch) : ch ∉ cut := by
  unfold TrimRight at h
  rw [List.getLast?_reverse] at h
  have := dropWhile_head_stop _ _ _ h
  simpa using this

theorem HasSuffix_append_self (s p : Str) : HasSuffix (s ++ p) p = true := by
  unfold HasSuffix
  rw [List.reverse_append]
  exact HasPrefix_append _ _

theorem row0_visible (C0 : Str) (L S F : List Str) (W : Nat) (p : Str) (hF : 0 < F.length)
    (c : Char) (hc : c ∈ C0) : c ∈ (specRow C0 L S F W p 0).text := by
  simp only [specRow, Row.text, hF, if_true]
  simp [hc]

/-- C12: for every palette map, art and output block the layout returns, and
its final block is the rows joined by newlines, with every trailing space, tab
and newline removed from the end of the whole, followed by the reset sequence
ESC[0m. The block therefore ends with the reset sequence, the text in front of
that reset is the trimmed join and never ends with a space, a tab or a
newline, and with the reset sequence in slot C0 that text is not empty. -/
theorem C12_final_block (colorMap : GoMap) (ascii out : Str) :
    ∃ c, compose colorMap ascii out = .ok c ∧
      c.block = TrimRight (joinLines (c.rows.map Row.text)) cutset ++ reset ∧
      HasSuffix c.block reset = true ∧
      (∀ body, c.block = body ++ reset →
        body = TrimRight (joinLines (c.rows.map Row.text)) cutset ∧
        (∀ ch, body.getLast? = some ch → ch ∉ cutset) ∧
        (colorMap ['C', '0'] = reset → body ≠ [])) := by
  refine ⟨_, compose_spec colorMap ascii out, ?_, ?_, ?_⟩
  · show TrimRight (rowsText _) ['\n', '\t', ' '] ++ reset = _
    exact congrArg (· ++ reset) (TrimRight_rowsText _)
  · exact HasSuffix_append_self _ _
  · intro body hb
    have hbody : body = TrimRight (joinLines ((specRows (colorMap ['C', '0']) (Split '\n' ascii)
        (Split '\n' (StripAnsii ascii)) (Split '\n' out) (maxWidthOf (StripAnsii ascii))
        (max (Split '\n' ascii).length (Split '\n' out).length) 0 []).map Row.text)) cutset := by
      have h2 : TrimRight (rowsText (specRows (colorMap ['C', '0']) (Split '\n' ascii)
          (Split '\n' (StripAnsii ascii)) (Split '\n' out) (maxWidthOf (StripAnsii ascii))
          (max (Split '\n' ascii).length (Split '\n' out).length) 0 [])) cutset ++ reset
          = body ++ reset := hb
      rw [← TrimRight_rowsText]
      exact (List.append_cancel_right h2).symm
    refine ⟨hbody, ?_, ?_⟩
    · intro ch hch
      rw [hbody] at hch
      exact TrimRight_getLast _ _ _ hch
    · intro hC0 hnil
      have hF : 0 < (Split '\n' out).length := by
        rw [Split_length]; omega
      obtain ⟨n, hn⟩ : ∃ n, max (Split '\n' ascii).length (Split '\n' out).length = n + 1 :=
        ⟨max (Split '\n' ascii).length (Split '\n' out).length - 1, by omega⟩
      rw [hbody, ← TrimRight_rowsText, hn] at hnil
      simp only [specRows, rowsText, List.flatMap_cons] at hnil
      have hm : 'm' ∈ (specRow (colorMap ['C', '0']) (Split '\n' ascii)
          (Split '\n' (StripAnsii ascii)) (Split '\n' out) (maxWidthOf (StripAnsii ascii))
          [] 0).text :=
        row0_visible _ _ _ _ _ _ hF 'm' (by rw [hC0]; decide)
      obtain ⟨A, B, hAB⟩ := List.append_of_mem hm
      rw [hAB] at hnil
      simp only [List.append_assoc, List.cons_append] at hnil
      rw [TrimRight_append_stop _ _ _ 'm' (by decide)] at hnil
      simp at hnil

theorem StripAnsii_count_newline (s : Str) : (StripAnsii s).count '\n' = s.count '\n' := by
  have h1 := Split_length '\n' (StripAnsii s)
  have h2 := Split_length '\n' s
  rw [Split_StripAnsii, List.length_map] at h1
  omega

theorem readConfigStep_eq (colorMap : GoMap) (asciiNoColor out : Str) (W : Nat)
    (st : LoopState) (i : Nat) (hi : i < st.asciiSplit.length) :
    readConfigStep colorMap asciiNoColor out W st i
      = composeStep colorMap asciiNoColor out W st i := by
  unfold readConfigStep composeStep
  simp only [hi, if_true]
  cases idx st.asciiSplit i with
  | error e => rfl
  | ok line =>
    cases idx (Split '\n' asciiNoColor) i with
    | error e => rfl
    | ok visible =>
      by_cases h0 : i = 0
      · simp only [bind, Except.bind, h0, ne_eq, not_true_eq_false, if_false]
      · cases hp : idx st.asciiSplit (i - 1) with
        | error e => simp [bind, Except.bind, h0, hp]
        | ok prev => simp [bind, Except.bind, h0, hp, lastColorOf_eq]

theorem readConfigLoop_spec (colorMap : GoMap) (asciiNoColor out : Str) (W : Nat)
    (L : List Str) (hS : L.length ≤ (Split '\n' asciiNoColor).length) :
    ∀ (n i : Nat) (st : LoopState) (prevPre : Str),
      i + n ≤ L.length →
      st.asciiSplit.length = L.length →
      (∀ j, i ≤ j → st.asciiSplit[j]? = L[j]?) →
      (i ≠ 0 → i < L.length → st.asciiSplit[i - 1]? = some prevPre) →
      ∃ arr, readConfigLoop colorMap asciiNoColor out W n i st =
        .ok ⟨arr,
          st.final ++ rowsText (specRows (colorMap ['C', '0']) L (Split '\n' asciiNoColor)
            (Split '\n' out) W n i prevPre),
          st.rows ++ specRows (colorMap ['C', '0']) L (Split '\n' asciiNoColor)
            (Split '\n' out) W n i prevPre⟩ := by
  intro n
  induction n with
  | zero =>
    intro i st prevPre _ _ _ _
    exact ⟨st.asciiSplit, by simp [readConfigLoop, specRows, rowsText]⟩
  | succ n ih =>
    intro i st prevPre hin hlen hrest hprev
    have hi : i < L.length := by omega
    have hstep := composeStep_spec colorMap asciiNoColor out W L st i prevPre hlen
      (hrest i (Nat.le_refl _)) hprev hS
    rw [if_pos hi] at hstep
    simp only [readConfigLoop, specRows, readConfigStep_eq _ _ _ _ _ _ (hlen ▸ hi), hstep]
    generalize specRow (colorMap ['C', '0']) L (Split '\n' asciiNoColor) (Split '\n' out) W
      prevPre i = r
    have h1 : (st.asciiSplit.set i r.preFact).length = L.length := by simp [hlen]
    have h2 : ∀ j, i + 1 ≤ j → (st.asciiSplit.set i r.preFact)[j]? = L[j]? := by
      intro j hj
      rw [List.getElem?_set_ne (by omega)]
      exact hrest j (by omega)
    have h3 : i + 1 ≠ 0 → i + 1 < L.length →
        (st.asciiSplit.set i r.preFact)[i + 1 - 1]? = some r.preFact := by
      intro _ _
      simp only [Nat.add_sub_cancel]
      rw [List.getElem?_set_self (by omega)]
    obtain ⟨arr, harr⟩ := ih (i + 1)
      ⟨st.asciiSplit.set i r.preFact, st.final ++ (r.text ++ ['\n']), st.rows ++ [r]⟩
      r.preFact (by omega) h1 h2 h3
    refine ⟨arr, ?_⟩
    rw [harr]
    simp [rowsText, List.append_assoc]

theorem readConfigLayout_spec (colorMap : GoMap) (ascii out : Str) :
    readConfigLayout colorMap ascii out =
      .ok (rowsText (specRows (colorMap ['C', '0']) (Split '\n' ascii)
        (Split '\n' (StripAnsii ascii)) (Split '\n' out) (maxWidthOf (StripAnsii ascii))
        (Split '\n' ascii).length 0 [])) := by
  have hS : (Split '\n' ascii).length ≤ (Split '\n' (StripAnsii ascii)).length := by
    rw [Split_StripAnsii, List.length_map]
  obtain ⟨arr, h⟩ := readConfigLoop_spec colorMap (StripAnsii ascii) out
    (maxWidthOf (StripAnsii ascii)) (Split '\n' ascii) hS (Split '\n' ascii).length 0
    ⟨Split '\n' ascii, [], []⟩ [] (by omega) rfl (fun _ _ => rfl) (fun h => absurd rfl h)
  unfold readConfigLayout
  simp only [h, bind, Except.bind]
  simp

theorem expandArt_no_panic (config : StormfetchConfig) (ascii : Str) :
    expandArt config ascii ≠ .error .panic := by
  obtain ⟨colors, force⟩ := config
  cases force with
  | true => rw [expandArt_force]; simp
  | false =>
    by_cases hpre : HasPrefix ascii ['#', '/'] = true
    · rw [expandArt_directive colors ascii hpre]
      rcases applyDirective_cases (directiveSegments ascii) 0 colors with hf | ⟨cols, hc⟩
      · rw [hf]; simp
      · rw [hc]; simp
    · unfold expandArt
      simp [setColorMap_eq, hpre, bind, Except.bind]

/-- C13: for every text `ascii` (an expanded art) StripAnsii removes no
newline; the escape-stripped art has as many lines as the coloured art and its
line i is the stripped line i of the art; at every art line index the lookup
of the stripped line, and for i >= 1 the lookup of the previous art line, is
in range; and for every palette map and output block the layout of both
program variants returns a result, so composition
never fails with an out-of-range index, and neither does a whole run of
runStormfetch from any configuration and template. -/
theorem C13_lookups_in_range (colorMap : GoMap) (ascii out : Str) :
    (StripAnsii ascii).count '\n' = ascii.count '\n' ∧
    lineCount (StripAnsii ascii) = lineCount ascii ∧
    Split '\n' (StripAnsii ascii) = (Split '\n' ascii).map StripAnsii ∧
    (∀ i, i < lineCount ascii →
      ∃ line, (Split '\n' ascii)[i]? = some line ∧
        idx (Split '\n' (StripAnsii ascii)) i = .ok (StripAnsii line)) ∧
    (∀ i, 1 ≤ i → i < lineCount ascii → ∃ prev, idx (Split '\n' ascii) (i - 1) = .ok prev) ∧
    (∃ c, compose colorMap ascii out = .ok c ∧
      c.rows.length = max (lineCount ascii) (lineCount out)) ∧
    (∃ final, readConfigLayout colorMap ascii out = .ok final) ∧
    (∀ config template, runStormfetch config template out ≠ .error .panic) := by
  have hsplit := Split_StripAnsii ascii
  refine ⟨StripAnsii_count_newline ascii, ?_, hsplit, ?_, ?_, ?_, ?_, ?_⟩
  · unfold lineCount
    rw [hsplit, List.length_map]
  · intro i hi
    have hi2 : i < (Split '\n' ascii).length := hi
    refine ⟨(Split '\n' ascii)[i], List.getElem?_eq_getElem hi2, ?_⟩
    apply idx_of_getElem?
    rw [hsplit, List.getElem?_map, List.getElem?_eq_getElem hi2]
    rfl
  · intro i _ hi
    have hi2 : i - 1 < (Split '\n' ascii).length := by
      have : i < (Split '\n' ascii).length := hi
      omega
    exact ⟨_, idx_getD _ _ [] hi2⟩
  · refine ⟨_, compose_spec colorMap ascii out, ?_⟩
    simp [specRows_length, lineCount]
  · exact ⟨_, readConfigLayout_spec colorMap ascii out⟩
  · intro config template h
    unfold runStormfetch at h
    cases he : expandArt config template with
    | error e =>
      rw [he] at h
      have : e = .panic := by simpa [bind, Except.bind] using h
      exact expandArt_no_panic config template (this ▸ he)
    | ok e =>
      rw [he] at h
      simp only [bind, Except.bind] at h
      rw [compose_spec] at h
      cases h

theorem dropBytes_zero (s : Str) : dropBytes s 0 = s := by
  cases s <;> simp [dropBytes]

theorem runeLen_pos (c : Char) : 0 < runeLen c := by
  unfold runeLen
  split
  · omega
  · split
    · omega
    · split <;> omega

theorem takeBytes_goLen : ∀ a b : Str, takeBytes (a ++ b) (goLen a) = a := by
  intro a
  induction a with
  | nil => intro b; cases b <;> simp [takeBytes, goLen]
  | cons c a ih =>
    intro b
    have hc := runeLen_pos c
    have h0 : runeLen c + goLen a ≠ 0 := by omega
    simp only [List.cons_append, takeBytes, goLen, h0, if_false]
    rw [Nat.add_sub_cancel_left]
    exact congrArg (c :: ·) (ih b)

theorem Split_length_ge_two (line : Str) :
    (Split '=' line).length ≥ 2 ↔ '=' ∈ line := by
  rw [Split_length, ← List.count_pos_iff]
  omega

theorem SplitN2_mem (line : Str) (h : '=' ∈ line) :
    SplitN2 '=' line = [keyOf line, valueOf line] := by
  simp [SplitN2, h, keyOf, valueOf]

theorem quoted_shape (v : Str) (hq : quoted v = true) :
    v = ['"'] ∨ ∃ mid, v = '"' :: (mid ++ ['"']) := by
  unfold quoted HasSuffix at hq
  rw [Bool.and_eq_true] at hq
  obtain ⟨h1, h2⟩ := hq
  cases v with
  | nil => simp [HasPrefix] at h1
  | cons a w =>
    have ha : a = '"' := by simpa [HasPrefix] using h1
    subst ha
    by_cases hw : w = []
    · left; rw [hw]
    · right
      obtain ⟨mid, last, hml⟩ := exists_concat w hw
      subst hml
      refine ⟨mid, ?_⟩
      have hr : ('"' :: (mid ++ [last])).reverse = last :: (mid.reverse ++ ['"']) := by simp
      rw [hr] at h2
      have hlast : last = '"' := by simpa [HasPrefix] using h2
      rw [hlast]

theorem slice_quoted (mid : Str) :
    slice ('"' :: (mid ++ ['"'])) 1 ((goLen ('"' :: (mid ++ ['"'])) : Int) - 1) = .ok mid := by
  have hg : goLen ('"' :: (mid ++ ['"'])) = goLen mid + 2 := by
    simp only [goLen, goLen_append]
    have : runeLen '"' = 1 := by decide
    omega
  unfold slice
  rw [hg]
  have hc : (0 : Int) ≤ 1 ∧ (1 : Int) ≤ ((goLen mid + 2 : Nat) : Int) - 1 ∧
      ((goLen mid + 2 : Nat) : Int) - 1 ≤ ((goLen mid + 2 : Nat) : Int) := by
    omega
  rw [if_pos hc]
  have h1 : dropBytes ('"' :: (mid ++ ['"'])) (1 : Int).toNat = mid ++ ['"'] := by
    have : runeLen '"' = 1 := by decide
    simp [dropBytes, this, dropBytes_zero]
  have h2 : (((goLen mid + 2 : Nat) : Int) - 1 - 1).toNat = goLen mid := by
    omega
  rw [h1, h2, takeBytes_goLen]

theorem unquote_quoted (mid : Str) : unquote ('"' :: (mid ++ ['"'])) = mid := by
  have hq : quoted ('"' :: (mid ++ ['"'])) = true := by
    simp [quoted, HasSuffix, HasPrefix]
  simp [unquote, hq]

theorem readKeyValueLine_spec (ret : KVMap) (line : Str) :
    readKeyValueLine ret line =
      if loneQuote line then .error .panic
      else .ok (if '=' ∈ line then ret.set (keyOf line) (unquote (valueOf line)) else ret) := by
  unfold readKeyValueLine
  by_cases he : '=' ∈ line
  · have h2 : (Split '=' line).length ≥ 2 := (Split_length_ge_two line).2 he
    rw [if_pos h2, SplitN2_mem line he]
    simp only [idx, List.getElem?_cons_zero, List.getElem?_cons_succ, bind, Except.bind,
      he, if_true]
    by_cases hq : quoted (valueOf line) = true
    · have hq2 : (HasPrefix (valueOf line) ['"'] && HasSuffix (valueOf line) ['"']) = true := hq
      rw [if_pos hq2]
      rcases quoted_shape _ hq with h1 | ⟨mid, hmid⟩
      · have hl : loneQuote line = true := by simp [loneQuote, he, h1]
        rw [if_pos hl, h1]
        rfl
      · have hl : ¬ loneQuote line = true := by simp [loneQuote, hmid]
        rw [if_neg hl, hmid, slice_quoted, unquote_quoted]
    · have hq2 : ¬ (HasPrefix (valueOf line) ['"'] && HasSuffix (valueOf line) ['"']) = true := hq
      have hl : ¬ loneQuote line = true := by
        intro hl
        apply hq
        simp only [loneQuote, Bool.and_eq_true, decide_eq_true_eq] at hl
        rw [hl.2]
        rfl
      rw [if_neg hq2, if_neg hl]
      simp [unquote, hq]
  · have h2 : ¬ (Split '=' line).length ≥ 2 := fun h => he ((Split_length_ge_two line).1 h)
    have hl : ¬ loneQuote line = true := by simp [loneQuote, he]
    rw [if_neg h2, if_neg hl, if_neg he]

theorem readKeyValueLines_spec : ∀ (lines : List Str) (ret : KVMap),
    readKeyValueLines ret lines =
      if lines.any loneQuote then .error .panic else .ok (assignLines ret lines) := by
  intro lines
  induction lines with
  | nil => intro ret; rfl
  | cons line rest ih =>
    intro ret
    simp only [readKeyValueLines, readKeyValueLine_spec, List.any_cons, assignLines]
    by_cases hl : loneQuote line = true
    · simp [hl]
    · rw [if_neg hl]
      simp only [ih]
      simp [hl]

/-- C14 (failing input): on the file content `A="`, whose only line has the
value `"` (one double quote), the value both starts and ends with a double
quote, the slice `value[1 : len(value)-1]` is `value[1:0]`, and the parse
stops with a run-time panic. For every file content the lookups of the line
loop are in range and the parse ends in that panic exactly when some line
containing `=` has a double quote alone as its value; for every other content
it completes, and the map is the one obtained by letting every line
containing `=`, in order, map the text before its first `=` to the text after
it, with one pair of enclosing double quotes removed when that text both
starts and ends with a double quote (an os-release content is given as an
example). -/
theorem C14_lone_quote_panics :
    (Split '\n' ['A', '=', '"'] = [['A', '=', '"']] ∧
      SplitN2 '=' ['A', '=', '"'] = [['A'], ['"']] ∧
      HasPrefix ['"'] ['"'] = true ∧ HasSuffix ['"'] ['"'] = true ∧
      slice ['"'] 1 ((goLen ['"'] : Int) - 1) = .error .panic ∧
      ReadKeyValueFile ['A', '=', '"'] = .error .panic) ∧
    (∀ str : Str, ReadKeyValueFile str =
      if (Split '\n' str).any loneQuote then .error .panic
      else .ok (assignLines (fun _ => none) (Split '\n' str))) ∧
    (∃ m, ReadKeyValueFile "ID=arch\nNAME=\"Arch Linux\"\nA=b=c\nplain".toList = .ok m ∧
      m "ID".toList = some "arch".toList ∧
      m "NAME".toList = some "Arch Linux".toList ∧
      m "A".toList = some "b=c".toList ∧
      m "plain".toList = none) := by
  refine ⟨⟨by decide, by decide, by decide, by decide, by rfl, by rfl⟩,
    fun str => readKeyValueLines_spec _ _, ⟨_, rfl, ?_, ?_, ?_, ?_⟩⟩ <;> rfl

theorem loadTemplate_eq (fs : TemplateFS) (id : Str) :
    loadTemplate fs id = firstLocated fs id := by
  unfold loadTemplate firstLocated candidates
  generalize fs.userConfigDirOk = ok
  generalize fs.user id = u
  generalize fs.system id = sy
  obtain ⟨us, ur⟩ := u
  obtain ⟨ss, sr⟩ := sy
  cases ok <;> cases us <;> cases ss <;> cases ur <;> cases sr <;> simp [cutset]

theorem ReadKeyValueFileAt_no_fatal (file : Candidate) :
    ReadKeyValueFileAt file ≠ .error .fatal := by
  unfold ReadKeyValueFileAt ReadKeyValueFile
  cases file.statOk with
  | false => simp
  | true =>
    cases file.readFile with
    | none => simp
    | some str =>
      simp only [readKeyValueLines_spec]
      by_cases hq : (Split '\n' str).any loneQuote = true
      · simp [hq]
      · simp [hq]

theorem getDistroInfo_no_fatal (osRelease : Candidate) :
    getDistroInfo osRelease ≠ .error .fatal := by
  unfold getDistroInfo
  cases osRelease.statOk with
  | false => simp
  | true =>
    have h := ReadKeyValueFileAt_no_fatal osRelease
    cases hr : ReadKeyValueFileAt osRelease with
    | error e =>
      rw [hr] at h
      simp only [if_true]
      intro he
      exact h (by rw [show e = Err.fatal from by injection he])
    | ok m =>
      cases m with
      | none => simp
      | some releaseMap =>
        simp only [if_true]
        cases releaseMap "ID".toList <;> simp

theorem getDistroInfo_absent (osRelease : Candidate)
    (h : osRelease.statOk = false ∨ osRelease.readFile = none) :
    getDistroInfo osRelease = .ok ⟨"unknown".toList⟩ := by
  unfold getDistroInfo ReadKeyValueFileAt
  cases hs : osRelease.statOk with
  | false => simp
  | true =>
    rcases h with h | h
    · rw [hs] at h; cases h
    · simp [h]

theorem getDistroInfo_parsed (osRelease : Candidate) (str : Str)
    (hs : osRelease.statOk = true) (hr : osRelease.readFile = some str)
    (hq : (Split '\n' str).any loneQuote = false) :
    getDistroInfo osRelease = .ok ⟨releaseId str⟩ := by
  unfold getDistroInfo ReadKeyValueFileAt ReadKeyValueFile releaseId
  simp only [hs, hr, readKeyValueLines_spec, hq, if_true, Bool.not_true, Bool.false_eq_true,
    if_false]
  cases assignLines (fun _ => none) (Split '\n' str) "ID".toList <;> rfl

/-- C11, counterexample: the template id is configured as "arch", the
user-level template exists but cannot be read and the system-level template
is readable; the loader returns the built-in default template, not the
system-level one. -/
theorem C11_counterexample :
    (fsUnreadableUser.user "arch".toList).statOk = true ∧
    (fsUnreadableUser.user "arch".toList).readFile = none ∧
    (fsUnreadableUser.system "arch".toList).statOk = true ∧
    (fsUnreadableUser.system "arch".toList).readFile = some ['T', 'u', 'x'] ∧
    getDistroAsciiArt "arch".toList fsUnreadableUser = .ok defaultAscii ∧
    defaultAscii ≠ ['T', 'u', 'x'] :=
  ⟨by rfl, by rfl, by rfl, by rfl, by rfl, by decide⟩

/-- C11, amended: over every file system and every configured id the loader
never ends in the fatal exit of `log.Fatal`, and whenever the template id is
resolved it returns the template decided by the first candidate that is
located, the user-level one being tried before the system-level one. The id
is resolved whenever it is configured explicitly, and in the mode "auto"
when `/etc/os-release` is absent or unreadable (the id is then "unknown") or
holds no line whose value is a double quote alone (the id is then the value
of the key ID, or "unknown"). For the resolved id: a located user-level file
gives its content, or the default when it cannot be read (no fall-through to
the system level); when the user-level file is not located, a located
system-level file gives its content with trailing spaces, tabs and newlines
trimmed, or the default when it cannot be read; when the user configuration
directory is unknown only the system-level file is tried and its content is
returned untrimmed; and when no candidate is located the default is
returned. -/
theorem C11_first_located (configAscii : Str) (fs : TemplateFS) :
    getDistroAsciiArt configAscii fs ≠ .error .fatal ∧
    (configAscii ≠ "auto".toList → templateId configAscii fs = .ok configAscii) ∧
    (fs.osRelease.statOk = false ∨ fs.osRelease.readFile = none →
      templateId "auto".toList fs = .ok "unknown".toList) ∧
    (∀ str, fs.osRelease.statOk = true → fs.osRelease.readFile = some str →
      (Split '\n' str).any loneQuote = false →
      templateId "auto".toList fs = .ok (releaseId str)) ∧
    (∀ id, templateId configAscii fs = .ok id →
      getDistroAsciiArt configAscii fs = .ok (firstLocated fs id) ∧
      (fs.userConfigDirOk = true → (fs.user id).statOk = true →
        getDistroAsciiArt configAscii fs = .ok ((fs.user id).readFile.getD defaultAscii)) ∧
      (fs.userConfigDirOk = true → (fs.user id).statOk = false →
        (fs.system id).statOk = true →
        getDistroAsciiArt configAscii fs
          = .ok (((fs.system id).readFile.map (fun t => TrimRight t cutset)).getD
              defaultAscii)) ∧
      (fs.userConfigDirOk = false → (fs.system id).statOk = true →
        getDistroAsciiArt configAscii fs = .ok ((fs.system id).readFile.getD defaultAscii)) ∧
      ((∀ c ∈ candidates fs id, c.1.statOk = false) →
        getDistroAsciiArt configAscii fs = .ok defaultAscii)) := by
  refine ⟨?_, ?_, ?_, ?_, ?_⟩
  · unfold getDistroAsciiArt templateId
    by_cases ha : configAscii = "auto".toList
    · rw [if_pos ha]
      have h := getDistroInfo_no_fatal fs.osRelease
      cases hr : getDistroInfo fs.osRelease with
      | error e =>
        rw [hr] at h
        intro he
        exact h (by rw [show e = Err.fatal from by injection he])
      | ok info => simp
    · rw [if_neg ha]
      simp
  · intro ha
    unfold templateId
    rw [if_neg ha]
  · intro h
    unfold templateId
    rw [if_pos rfl, getDistroInfo_absent _ h]
  · intro str hs hr hq
    unfold templateId
    rw [if_pos rfl, getDistroInfo_parsed _ str hs hr hq]
  · intro id hid
    have hg : getDistroAsciiArt configAscii fs = .ok (loadTemplate fs id) := by
      unfold getDistroAsciiArt
      rw [hid]
    rw [hg]
    refine ⟨by rw [loadTemplate_eq], ?_, ?_, ?_, ?_⟩
    · intro h1 h2
      unfold loadTemplate
      cases hr : (fs.user id).readFile <;> simp [h1, h2]
    · intro h1 h2 h3
      unfold loadTemplate
      cases hr : (fs.system id).readFile <;> simp [h1, h2, h3, cutset]
    · intro h1 h2
      unfold loadTemplate
      cases hr : (fs.system id).readFile <;> simp [h1, h2]
    · intro h
      unfold loadTemplate
      unfold candidates at h
      cases h1 : fs.userConfigDirOk with
      | false =>
        rw [h1] at h
        have := h (fs.system id, fun t => t) (by simp)
        simp only at this
        simp [this]
      | true =>
        rw [h1] at h
        have hu := h (fs.user id, fun t => t) (by simp)
        have hsys := h (fs.system id, fun t => TrimRight t cutset) (by simp)
        simp only at hu hsys
        simp [hu, hsys]

end Stormfetch
